import Mathlib

/-!
# flat_hash::hash_table — a shallow embedding

The development embeds `include/flat_hash_table.hpp` (an open-addressing hash
table with Robin Hood insertion, early-exit lookup and backward-shift deletion)
and states its contracts as theorems.

Modelling conventions

* `size_t` values are natural numbers; wrapping arithmetic is written out with
  `% WordSize` wherever the source relies on it or could overflow.
* `std::vector<Bucket>` is a `List (Bucket V)`; an out-of-range read is `none`.
* An iterator is the index of the bucket it points at (`current - m_buckets.begin()`).
* A function returns `Option`: `none` stands for the cases where the C++ call
  does not return normally (an out-of-range access, a loop that never exits, an
  allocation that throws).
* `m_equals` is the default `std::equal_to<Key>`, i.e. equality on `K`;
  `m_getKey` and `m_hash` are explicit parameters; the `size_t` result of
  `m_hash` is the parameter taken modulo `WordSize`.
* `m_maxFillLevel` stays at `DefaultMaxFillLevel = 0.7` (no call of
  `setMaxFillLevel`).  The test
  `(double)(m_filledCount + additionalCapacity) / (double)newSize > m_maxFillLevel`
  is written `10 * n > 7 * newSize`: for `n, newSize < 2 ^ 48` the two agree
  (the exact quotient differs from 7/10 by at least `1 / (10 * newSize)`, far
  more than one unit in the last place of a double; a zero `newSize` gives
  `+inf` for `n > 0` and `NaN` for `n = 0`, again the same verdict), and bucket
  arrays of `2 ^ 48` or more entries cannot be allocated (`MaxBuckets`).
-/

namespace flat_hash

/-- The modulus of `size_t` arithmetic: `2 ^ (sizeof(size_t) * 8)`. -/
def WordSize : Nat := 2 ^ 64

/-- Source constant `NPos = (size_t)-1`. -/
def NPos : Nat := 2 ^ 64 - 1

/-- Source constant `EmptyHashValue = 0`. -/
def EmptyHashValue : Nat := 0

/-- Source constant `EndHashValue = 1`. -/
def EndHashValue : Nat := 1

/-- Source constant `FilledHashBit = (size_t)1 << (sizeof(size_t) * 8 - 1)`. -/
def FilledHashBit : Nat := 2 ^ 63

/-- Source constant `MinCapacity = 8`. -/
def MinCapacity : Nat := 8

/-- Largest length of a bucket array that `m_buckets.resize` can deliver; a
larger request throws.  A bucket takes at least 16 bytes, so `2 ^ 48` buckets
are 4 PiB that `resize` would have to obtain and initialise. -/
def MaxBuckets : Nat := 2 ^ 48

/-- A bucket: the hash word and the payload of the anonymous union (absent when
no `Value` is constructed in it). -/
structure Bucket (V : Type) where
  hash : Nat
  value : Option V
deriving DecidableEq

namespace Bucket

variable {V : Type}

/-- Source `Bucket::Bucket()`. -/
def new : Bucket V := { hash := EmptyHashValue, value := none }

/-- Source `Bucket::valuePtr`: the payload when the filled bit of the hash word is set. -/
def valuePtr (b : Bucket V) : Option V :=
  if b.hash &&& FilledHashBit ≠ 0 then b.value else none

/-- Source `Bucket::setFilled`. -/
def setFilled (_b : Bucket V) (hash : Nat) (value : V) : Bucket V :=
  { hash := hash ||| FilledHashBit, value := some value }

/-- Source `Bucket::setEmpty`. -/
def setEmpty (_b : Bucket V) : Bucket V := { hash := EmptyHashValue, value := none }

/-- Source `Bucket::setEnd`. -/
def setEnd (_b : Bucket V) : Bucket V := { hash := EndHashValue, value := none }

/-- Source `Bucket::isEmpty`. -/
def isEmpty (b : Bucket V) : Bool := b.hash == EmptyHashValue

/-- Source `Bucket::isEnd`. -/
def isEnd (b : Bucket V) : Bool := b.hash == EndHashValue

end Bucket

/-- The mutable state of a `hash_table`: `m_buckets` and `m_filledCount`. -/
structure hash_table (V : Type) where
  m_buckets : List (Bucket V)
  m_filledCount : Nat
deriving DecidableEq

namespace hash_table

variable {V K : Type} [DecidableEq K]

/-- Source `hashBucket`: `hash & (m_buckets.size() - 2)`. -/
def hashBucket (buckets : List (Bucket V)) (hash : Nat) : Nat :=
  hash &&& ((buckets.length + WordSize - 2) % WordSize)

/-- Source `bucketError`: `hashBucket(current - target)` with wrapping subtraction. -/
def bucketError (buckets : List (Bucket V)) (current target : Nat) : Nat :=
  hashBucket buckets ((current % WordSize + WordSize - target % WordSize) % WordSize)

/-- The loop of `scanIterator`: `while (i->isEmpty()) ++i;`.  The first argument
bounds the number of buckets still ahead of `i`; reading past the array is
`none`. -/
def scanIteratorLoop (buckets : List (Bucket V)) : Nat → Nat → Option Nat
  | 0, _ => none
  | fuel + 1, i =>
    match buckets[i]? with
    | none => none
    | some b => if b.isEmpty then scanIteratorLoop buckets fuel (i + 1) else some i

/-- Source `scanIterator`. -/
def scanIterator (buckets : List (Bucket V)) (i : Nat) : Option Nat :=
  scanIteratorLoop buckets (buckets.length - i) i

/-- Source `end()`: the position of the last bucket, `--m_buckets.end()`.  (With no
bucket array this is the position before the start of the empty array; the
model writes it `0`, and no bucket exists to be confused with it.) -/
def end_ (t : hash_table V) : Nat := t.m_buckets.length - 1

/-- Source `begin()`. -/
def begin (t : hash_table V) : Option Nat :=
  if t.m_buckets.isEmpty then some t.end_ else scanIterator t.m_buckets 0

/-- Source `iterator::operator++`: `current = scanIterator(++current)`. -/
def next (t : hash_table V) (pos : Nat) : Option Nat :=
  scanIterator t.m_buckets (pos + 1)

/-- Source `size()`. -/
def size (t : hash_table V) : Nat := t.m_filledCount

/-- Source `empty()`. -/
def empty (t : hash_table V) : Bool := t.m_filledCount == 0

/-- The loop of `clear`: `for (i = 0; i < m_buckets.size() - 1; ++i) m_buckets[i].setEmpty()`. -/
def clearLoop (buckets : List (Bucket V)) : List (Bucket V) :=
  (List.range (buckets.length - 1)).foldl
    (fun bs i => match bs[i]? with
      | some b => bs.set i b.setEmpty
      | none => bs) buckets

/-- Source `clear()`. -/
def clear (t : hash_table V) : hash_table V :=
  if t.m_buckets.isEmpty then t
  else { m_buckets := clearLoop t.m_buckets, m_filledCount := 0 }

/-- The `while (true)` loop of `find`.  Its only state is `currentBucket`, so
after `m_buckets.size()` iterations without a `return` a bucket has been
revisited and the loop never exits: the first argument counts the iterations
left and running out of them is `none`. -/
def findLoop (m_getKey : V → K) (buckets : List (Bucket V)) (key : K)
    (hash targetBucket : Nat) : Nat → Nat → Option Nat
  | 0, _ => none
  | fuel + 1, currentBucket =>
    match buckets[currentBucket]? with
    | none => none
    | some bucket =>
      match bucket.valuePtr with
      | some value =>
        if bucket.hash = hash ∧ m_getKey value = key then
          some currentBucket
        else
          let entryError := bucketError buckets currentBucket bucket.hash
          let findError := bucketError buckets currentBucket targetBucket
          if findError > entryError then
            some (buckets.length - 1)
          else
            findLoop m_getKey buckets key hash targetBucket fuel
              (hashBucket buckets (currentBucket + 1))
      | none => some (buckets.length - 1)

/-- Source `find(key)`: the position of the element with that key, or `end()`. -/
def find (m_getKey : V → K) (m_hash : K → Nat) (t : hash_table V) (key : K) : Option Nat :=
  if t.m_buckets.isEmpty then some t.end_
  else
    let hash := (m_hash key % WordSize) ||| FilledHashBit
    let targetBucket := hashBucket t.m_buckets hash
    findLoop m_getKey t.m_buckets key hash targetBucket t.m_buckets.length targetBucket

/-- The `while (true)` loop of `doInsert`, returning the bucket array, the
returned position and the `bool` of the pair.  The first argument counts the
iterations left: the walk visits one bucket per iteration, and `none` after
`m_buckets.size()` iterations stands for a walk that has gone round the whole
array without meeting an empty bucket. -/
def doInsertLoop (m_getKey : V → K) :
    Nat → List (Bucket V) → V → Nat → Nat → Nat → Nat → Option (List (Bucket V) × Nat × Bool)
  | 0, _, _, _, _, _, _ => none
  | fuel + 1, buckets, value, hash, targetBucket, currentBucket, insertedBucket =>
    match buckets[currentBucket]? with
    | none => none
    | some target =>
      match target.valuePtr with
      | some entryValue =>
        if target.hash = hash ∧ m_getKey entryValue = m_getKey value then
          some (buckets, currentBucket, false)
        else
          let entryTargetBucket := hashBucket buckets target.hash
          let entryError := bucketError buckets currentBucket entryTargetBucket
          let addError := bucketError buckets currentBucket targetBucket
          if addError > entryError then
            doInsertLoop m_getKey fuel
              (buckets.set currentBucket { hash := hash, value := some value })
              entryValue target.hash entryTargetBucket
              (hashBucket buckets (currentBucket + 1))
              (if insertedBucket = NPos then currentBucket else insertedBucket)
          else
            doInsertLoop m_getKey fuel buckets value hash targetBucket
              (hashBucket buckets (currentBucket + 1)) insertedBucket
      | none =>
        some (buckets.set currentBucket (target.setFilled hash value),
              (if insertedBucket = NPos then currentBucket else insertedBucket), true)

/-- The loop `while ((double)(m_filledCount + additionalCapacity) / (double)newSize
> m_maxFillLevel) newSize *= 2;` of `checkCapacity`, with `n` the numerator.
`newSize` never exceeds `2 ^ 63` before it wraps to `0`, where it stays; 65
iterations therefore decide whether the loop exits (`none`: it does not). -/
def growLoop (n : Nat) : Nat → Nat → Option Nat
  | 0, _ => none
  | fuel + 1, newSize =>
    if 10 * n > 7 * newSize then growLoop n fuel (newSize * 2 % WordSize)
    else some newSize

/-- Source `checkCapacity(additionalCapacity)`, parametrised by the `insert` it calls
for every element of the old array. -/
def checkCapacityWith (insert : hash_table V → V → Option (hash_table V × Nat × Bool))
    (t : hash_table V) (additionalCapacity : Nat) : Option (hash_table V) :=
  let newSize0 := if ¬ t.m_buckets.isEmpty then t.m_buckets.length - 1 else MinCapacity
  match growLoop ((t.m_filledCount + additionalCapacity) % WordSize) 65 newSize0 with
  | none => none
  | some newSize =>
    if newSize = (t.m_buckets.length + WordSize - 1) % WordSize then some t
    else if newSize + 1 > MaxBuckets then none
    else
      let oldBuckets := t.m_buckets
      let fresh : List (Bucket V) := List.replicate newSize Bucket.new ++ [Bucket.new.setEnd]
      oldBuckets.foldlM
        (fun (acc : hash_table V) (entry : Bucket V) =>
          match entry.valuePtr with
          | some v => (insert acc v).map (fun r => r.1)
          | none => some acc)
        { m_buckets := fresh, m_filledCount := 0 }

/-- The body of `doInsert(value)` after its `checkCapacity(1)`: the hash of the
key, the probe walk, and the update of `m_filledCount`. -/
def doInsertWalk (m_getKey : V → K) (m_hash : K → Nat) (t1 : hash_table V) (value : V) :
    Option (hash_table V × Nat × Bool) :=
  let hash := (m_hash (m_getKey value) % WordSize) ||| FilledHashBit
  let targetBucket := hashBucket t1.m_buckets hash
  match doInsertLoop m_getKey t1.m_buckets.length t1.m_buckets value hash
      targetBucket targetBucket NPos with
  | none => none
  | some (buckets, pos, true) =>
    some ({ m_buckets := buckets, m_filledCount := t1.m_filledCount + 1 }, pos, true)
  | some (buckets, pos, false) =>
    some ({ m_buckets := buckets, m_filledCount := t1.m_filledCount }, pos, false)

/-- Source `doInsert(value)`: `checkCapacity(1)`, then the probe walk.  `checkCapacity`
re-inserts through `insert`, which is `doInsert` again; the first argument
bounds the depth of these nested calls. -/
def doInsert (m_getKey : V → K) (m_hash : K → Nat) :
    Nat → hash_table V → V → Option (hash_table V × Nat × Bool)
  | 0, _, _ => none
  | depth + 1, t, value =>
    match checkCapacityWith (doInsert m_getKey m_hash depth) t 1 with
    | none => none
    | some t1 => doInsertWalk m_getKey m_hash t1 value

/-- Bound on the depth of nested `doInsert`/`checkCapacity` calls.  A nested
`checkCapacity(1)` that reallocates at least doubles a capacity that is at
least `MinCapacity`, so fewer than 64 reallocations can be nested before the
capacity leaves `size_t`. -/
def CallDepth : Nat := 64

/-- Source `insert(value)`: the resulting table, the returned position and the `bool`. -/
def insert (m_getKey : V → K) (m_hash : K → Nat) (t : hash_table V) (value : V) :
    Option (hash_table V × Nat × Bool) :=
  doInsert m_getKey m_hash CallDepth t value

/-- Source `checkCapacity(additionalCapacity)`. -/
def checkCapacity (m_getKey : V → K) (m_hash : K → Nat) (t : hash_table V)
    (additionalCapacity : Nat) : Option (hash_table V) :=
  checkCapacityWith (insert m_getKey m_hash) t additionalCapacity

/-- Source `reserve(capacity)`. -/
def reserve (m_getKey : V → K) (m_hash : K → Nat) (t : hash_table V) (capacity : Nat) :
    Option (hash_table V) :=
  if capacity > t.m_filledCount then
    checkCapacity m_getKey m_hash t (capacity - t.m_filledCount)
  else some t

/-- The constructor `hash_table(bucketCount, getKey, hash, equal, alloc)`. -/
def new (m_getKey : V → K) (m_hash : K → Nat) (bucketCount : Nat) : Option (hash_table V) :=
  if bucketCount ≠ 0 then
    checkCapacity m_getKey m_hash { m_buckets := [], m_filledCount := 0 } bucketCount
  else some { m_buckets := [], m_filledCount := 0 }

/-- The `while (true)` loop of `erase(pos)`, returning the bucket array and the
final `currentBucketIndex`.  The first argument counts the iterations left;
`none` after `m_buckets.size()` iterations stands for a shift that has gone
round the whole array. -/
def eraseLoop : Nat → List (Bucket V) → Nat → Option (List (Bucket V) × Nat)
  | 0, _, _ => none
  | fuel + 1, buckets, currentBucketIndex =>
    let nextBucketIndex := hashBucket buckets (currentBucketIndex + 1)
    match buckets[nextBucketIndex]? with
    | none => none
    | some nextBucket =>
      match nextBucket.valuePtr with
      | some nextPtr =>
        if bucketError buckets nextBucketIndex nextBucket.hash > 0 then
          eraseLoop fuel
            (buckets.set currentBucketIndex { hash := nextBucket.hash, value := some nextPtr })
            nextBucketIndex
        else some (buckets, currentBucketIndex)
      | none => some (buckets, currentBucketIndex)

/-- Source `erase(pos)`: the resulting table and the returned position. -/
def erase (t : hash_table V) (pos : Nat) : Option (hash_table V × Nat) :=
  let bucketIndex := pos
  match t.m_buckets[bucketIndex]? with
  | none => none
  | some _ =>
    match eraseLoop t.m_buckets.length t.m_buckets bucketIndex with
    | none => none
    | some (buckets, currentBucketIndex) =>
      match buckets[currentBucketIndex]? with
      | none => none
      | some b =>
        let buckets1 := buckets.set currentBucketIndex b.setEmpty
        match scanIterator buckets1 bucketIndex with
        | none => none
        | some it =>
          some ({ m_buckets := buckets1,
                  m_filledCount := (t.m_filledCount + WordSize - 1) % WordSize }, it)

/-- The loop `while (first != last) first = erase(first);` of `erase(first, last)`.
The first argument counts the iterations left.  Every iteration erases at
`first`, which `erase` requires to hold an element, and the array has fewer
elements than buckets: a loop still running after `m_buckets.size() + 1`
iterations has erased at a position without an element, and is `none`. -/
def eraseRangeLoop : Nat → hash_table V → Nat → Nat → Option (hash_table V × Nat)
  | 0, _, _, _ => none
  | fuel + 1, t, first, last =>
    if first ≠ last then
      match erase t first with
      | none => none
      | some (t1, first1) => eraseRangeLoop fuel t1 first1 last
    else some (t, first)

/-- Source `erase(first, last)`: the resulting table and the returned position. -/
def eraseRange (t : hash_table V) (first last : Nat) : Option (hash_table V × Nat) :=
  eraseRangeLoop (t.m_buckets.length + 1) t first last

/-- Source `iterator::operator*`: the element at a position, `*current->valuePtr()`;
`none` where `valuePtr()` is null. -/
def deref (t : hash_table V) (pos : Nat) : Option V :=
  match t.m_buckets[pos]? with
  | none => none
  | some b => b.valuePtr

/-- The loop `while (i != e) { if (*i != *j) return false; ++i; ++j; }` of
`operator==`.  The first argument counts the iterations left; `i` moves forward
by at least one bucket per iteration, so `m_buckets.size() + 1` of them suffice. -/
def operatorEqLoop [DecidableEq V] (a rhs : hash_table V) : Nat → Nat → Nat → Option Bool
  | 0, _, _ => none
  | fuel + 1, i, j =>
    if i ≠ a.end_ then
      match a.deref i, rhs.deref j with
      | some x, some y =>
        if x ≠ y then some false
        else
          match a.next i, rhs.next j with
          | some i1, some j1 => operatorEqLoop a rhs fuel i1 j1
          | _, _ => none
      | _, _ => none
    else some true

/-- Source `operator==`. -/
def operatorEq [DecidableEq V] (a rhs : hash_table V) : Option Bool :=
  if a.size ≠ rhs.size then some false
  else
    match a.begin, rhs.begin with
    | some i, some j => operatorEqLoop a rhs (a.m_buckets.length + 1) i j
    | _, _ => none

/-- Source `operator!=`: `!operator==(rhs)`. -/
def operatorNe [DecidableEq V] (a rhs : hash_table V) : Option Bool :=
  (operatorEq a rhs).map (fun r => !r)

end hash_table

/-! ## Specification vocabulary -/

/-- Wrap-around distance from bucket `t` forward to bucket `c` in a ring of `cap` buckets. -/
def dist (cap t c : Nat) : Nat := (c + cap - t) % cap

/-- The bucket after `c` in a ring of `cap` buckets. -/
def nxt (cap c : Nat) : Nat := (c + 1) % cap

section Vocabulary

variable {V K : Type} [DecidableEq K]

/-- The hash word `doInsert` stores with a value: `m_hash(m_getKey(value)) | FilledHashBit`. -/
def hashWord (m_getKey : V → K) (m_hash : K → Nat) (v : V) : Nat :=
  (m_hash (m_getKey v) % WordSize) ||| FilledHashBit

/-- The Filled bucket holding `v`. -/
def filledBucket (m_getKey : V → K) (m_hash : K → Nat) (v : V) : Bucket V :=
  { hash := hashWord m_getKey m_hash v, value := some v }

/-- The stored elements, in bucket order. -/
def elems (buckets : List (Bucket V)) : List V := buckets.filterMap Bucket.valuePtr

/-- One more than the displacement of the element in bucket `i` from its ideal
bucket, and `0` for a bucket that holds no element. -/
def dd (m_getKey : V → K) (m_hash : K → Nat) (cap : Nat) (buckets : List (Bucket V))
    (i : Nat) : Nat :=
  match buckets[i]? with
  | some b =>
    match b.valuePtr with
    | some v => dist cap (m_hash (m_getKey v) % cap) i + 1
    | none => 0
  | none => 0

/-- Shape of an allocated bucket array of capacity `cap`: a power of two between
`MinCapacity` and the allocation limit, `cap + 1` buckets, each of the first
`cap` Empty or Filled with the hash word of its element, the last one End. -/
structure WF (m_getKey : V → K) (m_hash : K → Nat) (cap : Nat)
    (buckets : List (Bucket V)) : Prop where
  pow : ∃ k, 3 ≤ k ∧ k ≤ 47 ∧ cap = 2 ^ k
  len : buckets.length = cap + 1
  slots : ∀ i, i < cap →
    buckets[i]? = some Bucket.new ∨ ∃ v, buckets[i]? = some (filledBucket m_getKey m_hash v)
  last : buckets[cap]? = some (Bucket.setEnd Bucket.new)

/-- Robin Hood ordering: going to the next bucket raises the displacement by at most one. -/
def RH (m_getKey : V → K) (m_hash : K → Nat) (cap : Nat) (buckets : List (Bucket V)) : Prop :=
  ∀ i, i < cap →
    dd m_getKey m_hash cap buckets (nxt cap i) ≤ dd m_getKey m_hash cap buckets i + 1

/-- The invariant of a table with an allocated bucket array. -/
structure Alloc (m_getKey : V → K) (m_hash : K → Nat) (t : hash_table V) : Prop where
  wf : WF m_getKey m_hash (t.m_buckets.length - 1) t.m_buckets
  rh : RH m_getKey m_hash (t.m_buckets.length - 1) t.m_buckets
  nodup : ((elems t.m_buckets).map m_getKey).Nodup
  count : t.m_filledCount = (elems t.m_buckets).length
  load : 10 * t.m_filledCount ≤ 7 * (t.m_buckets.length - 1)

/-- The table invariant: no bucket array and no element, or `Alloc`. -/
def Inv (m_getKey : V → K) (m_hash : K → Nat) (t : hash_table V) : Prop :=
  (t.m_buckets = [] ∧ t.m_filledCount = 0) ∨ Alloc m_getKey m_hash t

/-- What an insertion into an allocated table that needs no reallocation
delivers: the bucket count is kept, the invariant holds, and either the key was
not stored and the result holds the old elements plus `v`, with `v` at the
returned position, or the table is unchanged and the returned position holds an
element with the key of `v`. -/
def InsertPost (m_getKey : V → K) (m_hash : K → Nat) (t : hash_table V) (v : V)
    (r : hash_table V × Nat × Bool) : Prop :=
  r.1.m_buckets.length = t.m_buckets.length ∧ Alloc m_getKey m_hash r.1 ∧
  r.2.1 < t.m_buckets.length - 1 ∧
  (r.2.2 = true →
    (∀ y, y ∈ elems t.m_buckets → m_getKey y ≠ m_getKey v) ∧
    (elems r.1.m_buckets).Perm (v :: elems t.m_buckets) ∧
    r.1.m_buckets[r.2.1]? = some (filledBucket m_getKey m_hash v) ∧
    r.1.m_filledCount = t.m_filledCount + 1) ∧
  (r.2.2 = false →
    r.1 = t ∧ ∃ y, t.m_buckets[r.2.1]? = some (filledBucket m_getKey m_hash y) ∧
      m_getKey y = m_getKey v)

/-- An insertion function that returns with `InsertPost` whenever one more
element fits under the load bound. -/
def InsertOK (m_getKey : V → K) (m_hash : K → Nat)
    (ins : hash_table V → V → Option (hash_table V × Nat × Bool)) : Prop :=
  ∀ (t : hash_table V) (v : V), Alloc m_getKey m_hash t →
    10 * (t.m_filledCount + 1) ≤ 7 * (t.m_buckets.length - 1) →
    ∃ r, ins t v = some r ∧ InsertPost m_getKey m_hash t v r

/-- Position `pos` is a valid occupied position of `t`: it denotes a bucket that holds an element. -/
def Occupied (t : hash_table V) (pos : Nat) : Prop :=
  ∃ b v, t.m_buckets[pos]? = some b ∧ b.valuePtr = some v

/-- Element `v` is stored in `t`. -/
def Stored (t : hash_table V) (v : V) : Prop := v ∈ elems t.m_buckets

/-- Position `pos` of `t` holds element `v`. -/
def HoldsAt (t : hash_table V) (pos : Nat) (v : V) : Prop :=
  ∃ b, t.m_buckets[pos]? = some b ∧ b.valuePtr = some v

/-- The tables that a program can reach: a newly constructed table, followed by
calls of `insert`, `erase` at a valid occupied position, `clear` and `reserve`
that return. -/
inductive Reachable (m_getKey : V → K) (m_hash : K → Nat) : hash_table V → Prop
  | construct (bucketCount : Nat) (t : hash_table V) :
      hash_table.new m_getKey m_hash bucketCount = some t → Reachable m_getKey m_hash t
  | insert (t : hash_table V) (v : V) (t1 : hash_table V) (pos : Nat) (inserted : Bool) :
      Reachable m_getKey m_hash t →
      hash_table.insert m_getKey m_hash t v = some (t1, pos, inserted) →
      Reachable m_getKey m_hash t1
  | erase (t : hash_table V) (pos : Nat) (t1 : hash_table V) (ret : Nat) :
      Reachable m_getKey m_hash t → Occupied t pos →
      hash_table.erase t pos = some (t1, ret) →
      Reachable m_getKey m_hash t1
  | clear (t : hash_table V) :
      Reachable m_getKey m_hash t → Reachable m_getKey m_hash (hash_table.clear t)
  | reserve (t : hash_table V) (capacity : Nat) (t1 : hash_table V) :
      Reachable m_getKey m_hash t →
      hash_table.reserve m_getKey m_hash t capacity = some t1 →
      Reachable m_getKey m_hash t1

/-- A sequence of `insert` calls, as the range constructors and range `insert`
of the façades issue them, one per element. -/
def insertSeq (m_getKey : V → K) (m_hash : K → Nat) (t : hash_table V) (vs : List V) :
    Option (hash_table V) :=
  vs.foldlM (fun acc v => (hash_table.insert m_getKey m_hash acc v).map (fun r => r.1)) t

/-- A run of `insert` and single-position `erase` calls on a newly constructed
table, with the number of inserts that reported `inserted = true` and the
number of erases performed so far. -/
inductive Run (m_getKey : V → K) (m_hash : K → Nat) : hash_table V → Nat → Nat → Prop
  | construct (bucketCount : Nat) (t : hash_table V) :
      hash_table.new m_getKey m_hash bucketCount = some t → Run m_getKey m_hash t 0 0
  | insert (t : hash_table V) (i e : Nat) (v : V) (t1 : hash_table V) (pos : Nat)
      (inserted : Bool) :
      Run m_getKey m_hash t i e →
      hash_table.insert m_getKey m_hash t v = some (t1, pos, inserted) →
      Run m_getKey m_hash t1 (if inserted then i + 1 else i) e
  | erase (t : hash_table V) (i e : Nat) (pos : Nat) (t1 : hash_table V) (ret : Nat) :
      Run m_getKey m_hash t i e → Occupied t pos →
      hash_table.erase t pos = some (t1, ret) →
      Run m_getKey m_hash t1 i (e + 1)

/-- The loop `for (; it != end(); ++it)`: the positions visited from `pos` on.
The first argument bounds the number of steps; a walk that needs more than
`m_buckets.size() + 1` of them never reaches `end()`. -/
def walkFrom (t : hash_table V) : Nat → Nat → Option (List Nat)
  | 0, _ => none
  | fuel + 1, pos =>
    if pos = t.end_ then some []
    else
      match t.next pos with
      | none => none
      | some q => (walkFrom t fuel q).map (fun l => pos :: l)

/-- The positions visited by walking from `begin()` with `++` until `end()`. -/
def positions (t : hash_table V) : Option (List Nat) :=
  match t.begin with
  | none => none
  | some p => walkFrom t (t.m_buckets.length + 1) p

/-- The elements met by walking from `begin()` with `++` until `end()`, in the
order of the walk (what `for (auto const& p : other)` iterates over). -/
def iterValues (t : hash_table V) : Option (List V) :=
  match positions t with
  | none => none
  | some l => l.mapM (fun p => t.deref p)

/-- Range insertion of the façades, `hash_set::insert(first, last)` and
`hash_map::insert(first, last)`: `m_table.reserve(m_table.size() +
std::distance(first, last))`, then one `insert` per element. -/
def insertRange (m_getKey : V → K) (m_hash : K → Nat) (t : hash_table V) (vs : List V) :
    Option (hash_table V) :=
  match hash_table.reserve m_getKey m_hash t ((t.size + vs.length) % WordSize) with
  | none => none
  | some t1 => insertSeq m_getKey m_hash t1 vs

/-- Range constructor of the façades, `hash_set(first, last, bucketCount, ...)`:
the constructor with `bucketCount`, then `insert(first, last)`. -/
def fromRange (m_getKey : V → K) (m_hash : K → Nat) (bucketCount : Nat) (vs : List V) :
    Option (hash_table V) :=
  match hash_table.new m_getKey m_hash bucketCount with
  | none => none
  | some t => insertRange m_getKey m_hash t vs

/-- Copy construction from a range over another table, as in
`hash_set<int> copy(other.begin(), other.end())` with the default `bucketCount = 0`. -/
def copyOf (m_getKey : V → K) (m_hash : K → Nat) (other : hash_table V) :
    Option (hash_table V) :=
  match iterValues other with
  | none => none
  | some vs => fromRange m_getKey m_hash 0 vs

/-- Copy assignment of the façades, `operator=(hash_set const& other)`, for an
`other` that is another object than the one assigned to:
`m_table.clear(); m_table.reserve(other.size());` then one `insert` per element
of `other` in iteration order.  The table `other` is not touched by the
`clear()`, so its size and its elements are those before the call.  (For the
assignment of an object to itself see `assignSelf`.) -/
def assign (m_getKey : V → K) (m_hash : K → Nat) (t other : hash_table V) :
    Option (hash_table V) :=
  match hash_table.reserve m_getKey m_hash (hash_table.clear t) other.size with
  | none => none
  | some t1 =>
    match iterValues other with
    | none => none
    | some vs => insertSeq m_getKey m_hash t1 vs

/-- Copy assignment of an object to itself, `a = a`: `other` is the object
assigned to.  The `m_table.clear()` has emptied it before `other.size()` is
read, `m_table.reserve` acts on it, and the loop `for (auto const& p : other)`
walks the table as `reserve` has left it.  (A walk that met an element would
insert into the table it iterates over; after `clear()` there is none, and the
elements listed here are the ones of that table.) -/
def assignSelf (m_getKey : V → K) (m_hash : K → Nat) (t : hash_table V) :
    Option (hash_table V) :=
  match hash_table.reserve m_getKey m_hash (hash_table.clear t) (hash_table.clear t).size with
  | none => none
  | some t1 =>
    match iterValues t1 with
    | none => none
    | some vs => insertSeq m_getKey m_hash t1 vs

end Vocabulary

/-! ## The façades `hash_set` and `hash_map`

A `hash_set<Key>` is a `hash_table` of keys whose `GetKey` returns its argument;
a `hash_map<Key, Mapped>` is a `hash_table` of pairs whose `GetKey` returns
`value.first`. -/

/-- The exceptions thrown by the façades: `std::out_of_range`. -/
inductive Exception where
  | out_of_range
deriving DecidableEq

namespace hash_set

variable {K : Type} [DecidableEq K]

/-- Source `hash_set::erase(key_type const& key)`: the resulting table and the returned count. -/
def erase (m_hash : K → Nat) (t : hash_table K) (key : K) : Option (hash_table K × Nat) :=
  match hash_table.find (fun value => value) m_hash t key with
  | none => none
  | some i =>
    if i ≠ t.end_ then
      match hash_table.erase t i with
      | none => none
      | some (t1, _) => some (t1, 1)
    else some (t, 0)

end hash_set

namespace hash_map

variable {K M : Type} [DecidableEq K]

/-- Source `hash_map::erase(key_type const& key)`: the resulting table and the returned count. -/
def erase (m_hash : K → Nat) (t : hash_table (K × M)) (key : K) :
    Option (hash_table (K × M) × Nat) :=
  match hash_table.find (fun value => value.1) m_hash t key with
  | none => none
  | some i =>
    if i ≠ t.end_ then
      match hash_table.erase t i with
      | none => none
      | some (t1, _) => some (t1, 1)
    else some (t, 0)

/-- Source `hash_map::at(key)`: the table, which the call does not write to, and
either the exception thrown or the mapped value `i->second` the returned
reference denotes. -/
def at_ (m_hash : K → Nat) (t : hash_table (K × M)) (key : K) :
    Option (hash_table (K × M) × Except Exception M) :=
  match hash_table.find (fun value => value.1) m_hash t key with
  | none => none
  | some i =>
    if i = t.end_ then some (t, Except.error Exception.out_of_range)
    else
      match t.deref i with
      | none => none
      | some p => some (t, Except.ok p.2)

/-- Source `hash_map::operator[](key)`: the resulting table, the position of the
entry whose `second` the returned reference denotes, and the mapped value found
there.  `mapped_type()` is `default`. -/
def operatorIndex [Inhabited M] (m_hash : K → Nat) (t : hash_table (K × M)) (key : K) :
    Option (hash_table (K × M) × Nat × M) :=
  match hash_table.find (fun value => value.1) m_hash t key with
  | none => none
  | some i =>
    if i ≠ t.end_ then
      match t.deref i with
      | none => none
      | some p => some (t, i, p.2)
    else
      match hash_table.insert (fun value => value.1) m_hash t (key, default) with
      | none => none
      | some (t1, pos, _) =>
        match t1.deref pos with
        | none => none
        | some p => some (t1, pos, p.2)

end hash_map

/-- The probe walk of `find(key)`: `ProbeReaches m_getKey m_hash t key j c` says
that the `while (true)` loop of `find` is at `currentBucket = c` after `j`
iterations, none of which has returned: each has met a bucket with an element
that is not a match and for which `findError > entryError` does not hold. -/
inductive ProbeReaches {V K : Type} (m_getKey : V → K) (m_hash : K → Nat) (t : hash_table V)
    (key : K) : Nat → Nat → Prop
  | start : ProbeReaches m_getKey m_hash t key 0
      (hash_table.hashBucket t.m_buckets ((m_hash key % WordSize) ||| FilledHashBit))
  | step (j c : Nat) (bucket : Bucket V) (value : V) :
      ProbeReaches m_getKey m_hash t key j c →
      t.m_buckets[c]? = some bucket → bucket.valuePtr = some value →
      ¬ (bucket.hash = (m_hash key % WordSize) ||| FilledHashBit ∧ m_getKey value = key) →
      ¬ (hash_table.bucketError t.m_buckets c
            (hash_table.hashBucket t.m_buckets ((m_hash key % WordSize) ||| FilledHashBit))
          > hash_table.bucketError t.m_buckets c bucket.hash) →
      ProbeReaches m_getKey m_hash t key (j + 1) (hash_table.hashBucket t.m_buckets (c + 1))

/-- The ideal bucket of the element in bucket `b`, as `doInsert` computes it:
`entryTargetBucket = hashBucket(target.hash)`. -/
def entryTargetBucket {V : Type} (t : hash_table V) (b : Bucket V) : Nat :=
  hash_table.hashBucket t.m_buckets b.hash

/-- The displacement of the element in bucket `b` at index `i`, as `doInsert`
computes it: `entryError = bucketError(currentBucket, entryTargetBucket)`. -/
def entryError {V : Type} (t : hash_table V) (i : Nat) (b : Bucket V) : Nat :=
  hash_table.bucketError t.m_buckets i (entryTargetBucket t b)

/-- The sentinel property: the bucket at the final index is End, and no other bucket is. -/
def SentinelLast {V : Type} (t : hash_table V) : Prop :=
  (∃ b, t.m_buckets[t.end_]? = some b ∧ b.isEnd = true) ∧
  ∀ (i : Nat) (b : Bucket V), t.m_buckets[i]? = some b → b.isEnd = true → i = t.end_

/-! ## Sample tables of `hash_set<int>` (identity key projection and hash) -/

/-- The table after `insert` of 42 and 63 into a default-constructed set. -/
def sampleSmall : hash_table Nat :=
  { m_buckets :=
      [Bucket.new, Bucket.new, ⟨2 ^ 63 + 42, some 42⟩, Bucket.new, Bucket.new, Bucket.new,
       Bucket.new, ⟨2 ^ 63 + 63, some 63⟩, ⟨1, none⟩],
    m_filledCount := 2 }

/-- The table after `insert` of 42, 63, 8, 16 and 24 into a default-constructed
set: five elements in eight buckets, three of them with ideal bucket 0. -/
def sampleFive : hash_table Nat :=
  { m_buckets :=
      [⟨2 ^ 63 + 8, some 8⟩, ⟨2 ^ 63 + 16, some 16⟩, ⟨2 ^ 63 + 24, some 24⟩,
       ⟨2 ^ 63 + 42, some 42⟩, Bucket.new, Bucket.new, Bucket.new,
       ⟨2 ^ 63 + 63, some 63⟩, ⟨1, none⟩],
    m_filledCount := 5 }


/-- The table after `insert` of 42, 63, 8 and 16 into a default-constructed set. -/
def sampleFour : hash_table Nat :=
  { m_buckets :=
      [⟨2 ^ 63 + 8, some 8⟩, ⟨2 ^ 63 + 16, some 16⟩, ⟨2 ^ 63 + 42, some 42⟩, Bucket.new,
       Bucket.new, Bucket.new, Bucket.new, ⟨2 ^ 63 + 63, some 63⟩, ⟨1, none⟩],
    m_filledCount := 4 }

/-- The table after `insert` of 42, 63, 8, 16, 24 and 7 into a default-constructed
set: the sixth insert has doubled the capacity from 8 to 16. -/
def sampleGrown : hash_table Nat :=
  { m_buckets :=
      [⟨2 ^ 63 + 16, some 16⟩, Bucket.new, Bucket.new, Bucket.new, Bucket.new, Bucket.new,
       Bucket.new, ⟨2 ^ 63 + 7, some 7⟩, ⟨2 ^ 63 + 8, some 8⟩, ⟨2 ^ 63 + 24, some 24⟩,
       ⟨2 ^ 63 + 42, some 42⟩, Bucket.new, Bucket.new, Bucket.new, Bucket.new,
       ⟨2 ^ 63 + 63, some 63⟩, ⟨1, none⟩],
    m_filledCount := 6 }

/-- The table `sampleFive` after a further `insert` of 24, a key it already
stores: the same five elements in sixteen buckets. -/
def sampleRehashed : hash_table Nat :=
  { m_buckets :=
      [⟨2 ^ 63 + 16, some 16⟩, Bucket.new, Bucket.new, Bucket.new, Bucket.new, Bucket.new,
       Bucket.new, Bucket.new, ⟨2 ^ 63 + 8, some 8⟩, ⟨2 ^ 63 + 24, some 24⟩,
       ⟨2 ^ 63 + 42, some 42⟩, Bucket.new, Bucket.new, Bucket.new, Bucket.new,
       ⟨2 ^ 63 + 63, some 63⟩, ⟨1, none⟩],
    m_filledCount := 5 }

/-- The table after `insert` of 7 into a default-constructed set. -/
def sampleSeven : hash_table Nat :=
  { m_buckets :=
      [Bucket.new, Bucket.new, Bucket.new, Bucket.new, Bucket.new, Bucket.new, Bucket.new,
       ⟨2 ^ 63 + 7, some 7⟩, ⟨1, none⟩],
    m_filledCount := 1 }

/-- The table after `insert` of 42 into a default-constructed set. -/
def sampleOne : hash_table Nat :=
  { m_buckets :=
      [Bucket.new, Bucket.new, ⟨2 ^ 63 + 42, some 42⟩, Bucket.new, Bucket.new, Bucket.new,
       Bucket.new, Bucket.new, ⟨1, none⟩],
    m_filledCount := 1 }

/-- The table `sampleSmall` after `erase(find(42))`. -/
def sampleErased : hash_table Nat :=
  { m_buckets :=
      [Bucket.new, Bucket.new, Bucket.new, Bucket.new, Bucket.new, Bucket.new, Bucket.new,
       ⟨2 ^ 63 + 63, some 63⟩, ⟨1, none⟩],
    m_filledCount := 1 }

/-- The table `sampleFive` after `erase(find(8))`: 16 and 24 have moved one bucket back. -/
def sampleShifted : hash_table Nat :=
  { m_buckets :=
      [⟨2 ^ 63 + 16, some 16⟩, ⟨2 ^ 63 + 24, some 24⟩, ⟨2 ^ 63 + 42, some 42⟩, Bucket.new,
       Bucket.new, Bucket.new, Bucket.new, ⟨2 ^ 63 + 63, some 63⟩, ⟨1, none⟩],
    m_filledCount := 4 }

/-- The table `sampleSmall` after `insert` of 8. -/
def sampleThree : hash_table Nat :=
  { m_buckets :=
      [⟨2 ^ 63 + 8, some 8⟩, Bucket.new, ⟨2 ^ 63 + 42, some 42⟩, Bucket.new, Bucket.new,
       Bucket.new, Bucket.new, ⟨2 ^ 63 + 63, some 63⟩, ⟨1, none⟩],
    m_filledCount := 3 }

/-- The table after `insert` of 7 and 15 into a default-constructed set: both
have ideal bucket 7, and 15 has wrapped round to bucket 0. -/
def sampleWrap : hash_table Nat :=
  { m_buckets :=
      [⟨2 ^ 63 + 15, some 15⟩, Bucket.new, Bucket.new, Bucket.new, Bucket.new, Bucket.new,
       Bucket.new, ⟨2 ^ 63 + 7, some 7⟩, ⟨1, none⟩],
    m_filledCount := 2 }

/-- The table after `insert` of 15 and 7 into a default-constructed set. -/
def sampleWrapCopy : hash_table Nat :=
  { m_buckets :=
      [⟨2 ^ 63 + 7, some 7⟩, Bucket.new, Bucket.new, Bucket.new, Bucket.new, Bucket.new,
       Bucket.new, ⟨2 ^ 63 + 15, some 15⟩, ⟨1, none⟩],
    m_filledCount := 2 }

/-- The table `sampleWrap` after `erase` at position 7: 15 has moved from bucket 0 to bucket 7. -/
def sampleWrapErased : hash_table Nat :=
  { m_buckets :=
      [Bucket.new, Bucket.new, Bucket.new, Bucket.new, Bucket.new, Bucket.new, Bucket.new,
       ⟨2 ^ 63 + 15, some 15⟩, ⟨1, none⟩],
    m_filledCount := 1 }

/-- The table after `insert` of 8, 16 and 24 into a default-constructed set:
three elements with ideal bucket 0 in buckets 0, 1 and 2. -/
def sampleRun : hash_table Nat :=
  { m_buckets :=
      [⟨2 ^ 63 + 8, some 8⟩, ⟨2 ^ 63 + 16, some 16⟩, ⟨2 ^ 63 + 24, some 24⟩, Bucket.new,
       Bucket.new, Bucket.new, Bucket.new, Bucket.new, ⟨1, none⟩],
    m_filledCount := 3 }

/-- The table `sampleRun` after `erase` at position 0. -/
def sampleRunTwo : hash_table Nat :=
  { m_buckets :=
      [⟨2 ^ 63 + 16, some 16⟩, ⟨2 ^ 63 + 24, some 24⟩, Bucket.new, Bucket.new,
       Bucket.new, Bucket.new, Bucket.new, Bucket.new, ⟨1, none⟩],
    m_filledCount := 2 }

/-- The table `sampleRunTwo` after `erase` at position 0. -/
def sampleRunOne : hash_table Nat :=
  { m_buckets :=
      [⟨2 ^ 63 + 24, some 24⟩, Bucket.new, Bucket.new, Bucket.new,
       Bucket.new, Bucket.new, Bucket.new, Bucket.new, ⟨1, none⟩],
    m_filledCount := 1 }

/-- An allocated table of capacity 8 without elements. -/
def sampleCleared : hash_table Nat :=
  { m_buckets :=
      [Bucket.new, Bucket.new, Bucket.new, Bucket.new, Bucket.new, Bucket.new, Bucket.new,
       Bucket.new, ⟨1, none⟩],
    m_filledCount := 0 }

/-- The table after `reserve(6)` on a default-constructed set: capacity 16, no elements. -/
def sampleReserved : hash_table Nat :=
  { m_buckets :=
      [Bucket.new, Bucket.new, Bucket.new, Bucket.new, Bucket.new, Bucket.new, Bucket.new,
       Bucket.new, Bucket.new, Bucket.new, Bucket.new, Bucket.new, Bucket.new, Bucket.new,
       Bucket.new, Bucket.new, ⟨1, none⟩],
    m_filledCount := 0 }

/-! ## Sample tables of `hash_map<int, int>` (identity hash) -/

/-- The map after `insert` of (42, 100) and (63, 200) into a default-constructed map. -/
def sampleMap : hash_table (Nat × Nat) :=
  { m_buckets :=
      [Bucket.new, Bucket.new, ⟨2 ^ 63 + 42, some (42, 100)⟩, Bucket.new, Bucket.new,
       Bucket.new, Bucket.new, ⟨2 ^ 63 + 63, some (63, 200)⟩, ⟨1, none⟩],
    m_filledCount := 2 }

/-- The map `sampleMap` after `operator[]` with the key 8, which it did not store. -/
def sampleMapIndexed : hash_table (Nat × Nat) :=
  { m_buckets :=
      [⟨2 ^ 63 + 8, some (8, 0)⟩, Bucket.new, ⟨2 ^ 63 + 42, some (42, 100)⟩, Bucket.new,
       Bucket.new, Bucket.new, Bucket.new, ⟨2 ^ 63 + 63, some (63, 200)⟩, ⟨1, none⟩],
    m_filledCount := 3 }

/-- The map `sampleMap` after `erase` of the key 42. -/
def sampleMapErased : hash_table (Nat × Nat) :=
  { m_buckets :=
      [Bucket.new, Bucket.new, Bucket.new, Bucket.new, Bucket.new,
       Bucket.new, Bucket.new, ⟨2 ^ 63 + 63, some (63, 200)⟩, ⟨1, none⟩],
    m_filledCount := 1 }

end flat_hash


namespace flat_hash

/-! ## Arithmetic of bucket indices -/

theorem or_pow_and_pow_ne_zero (h n : Nat) : (h ||| 2 ^ n) &&& 2 ^ n ≠ 0 := by
  intro hc
  have h1 := congrArg (fun x => Nat.testBit x n) hc
  simp only [Nat.testBit_and, Nat.testBit_or, Nat.testBit_two_pow, Nat.zero_testBit] at h1
  simp at h1

theorem or_pow_mod_pow (h n k : Nat) (hk : k ≤ n) : (h ||| 2 ^ n) % 2 ^ k = h % 2 ^ k := by
  apply Nat.eq_of_testBit_eq
  intro i
  simp only [Nat.testBit_mod_two_pow, Nat.testBit_or, Nat.testBit_two_pow]
  by_cases hi : i < k
  · have : ¬ n = i := by omega
    simp [hi, this]
  · simp [hi]

theorem dist_of_le {cap t c : Nat} (hc : c < cap) (htc : t ≤ c) : dist cap t c = c - t := by
  unfold dist
  have : c + cap - t = (c - t) + cap := by omega
  rw [this, Nat.add_mod_right, Nat.mod_eq_of_lt (by omega)]

theorem dist_of_gt {cap t c : Nat} (ht : t < cap) (htc : c < t) :
    dist cap t c = c + cap - t := by
  unfold dist
  rw [Nat.mod_eq_of_lt (by omega)]

theorem dist_lt {cap t c : Nat} (hcap : 0 < cap) : dist cap t c < cap :=
  Nat.mod_lt _ hcap

theorem nxt_of_lt {cap c : Nat} (h : c + 1 < cap) : nxt cap c = c + 1 :=
  Nat.mod_eq_of_lt h

theorem nxt_of_eq {cap c : Nat} (h : c + 1 = cap) : nxt cap c = 0 := by
  unfold nxt; rw [h]; exact Nat.mod_self cap

theorem nxt_lt {cap c : Nat} (hcap : 0 < cap) : nxt cap c < cap :=
  Nat.mod_lt _ hcap

theorem dist_self {cap t : Nat} (ht : t < cap) : dist cap t t = 0 := by
  rw [dist_of_le ht (Nat.le_refl t)]; omega

theorem dist_nxt {cap t c : Nat} (ht : t < cap) (hc : c < cap) :
    dist cap t (nxt cap c) = if dist cap t c + 1 = cap then 0 else dist cap t c + 1 := by
  by_cases h1 : c + 1 < cap
  · rw [nxt_of_lt h1]
    by_cases h2 : t ≤ c
    · rw [dist_of_le h1 (by omega), dist_of_le hc h2]
      have : ¬ (c - t + 1 = cap) := by omega
      rw [if_neg this]; omega
    · by_cases h3 : t = c + 1
      · subst h3
        rw [dist_self h1, dist_of_gt ht (by omega)]
        have : c + cap - (c + 1) + 1 = cap := by omega
        rw [if_pos this]
      · rw [dist_of_gt ht (by omega), dist_of_gt ht (by omega)]
        have : ¬ (c + cap - t + 1 = cap) := by omega
        rw [if_neg this]; omega
  · have h2 : c + 1 = cap := by omega
    rw [nxt_of_eq h2]
    by_cases h3 : t = 0
    · subst h3
      rw [dist_self ht, dist_of_le hc (Nat.zero_le c)]
      have : c - 0 + 1 = cap := by omega
      rw [if_pos this]
    · rw [dist_of_gt ht (by omega), dist_of_le hc (by omega)]
      have : ¬ (c - t + 1 = cap) := by omega
      rw [if_neg this]; omega

theorem dist_nxt_of_lt {cap t c : Nat} (ht : t < cap) (hc : c < cap)
    (h : dist cap t c + 1 < cap) : dist cap t (nxt cap c) = dist cap t c + 1 := by
  rw [dist_nxt ht hc, if_neg (by omega)]

theorem dist_inj {cap t c c' : Nat} (ht : t < cap) (hc : c < cap) (hc' : c' < cap)
    (h : dist cap t c = dist cap t c') : c = c' := by
  by_cases h1 : t ≤ c <;> by_cases h2 : t ≤ c'
  · rw [dist_of_le hc h1, dist_of_le hc' h2] at h; omega
  · rw [dist_of_le hc h1, dist_of_gt ht (by omega)] at h; omega
  · rw [dist_of_gt ht (by omega), dist_of_le hc' h2] at h; omega
  · rw [dist_of_gt ht (by omega), dist_of_gt ht (by omega)] at h; omega

theorem dist_eq_zero {cap t c : Nat} (ht : t < cap) (hc : c < cap)
    (h : dist cap t c = 0) : c = t := by
  apply dist_inj ht hc ht
  rw [h, dist_self ht]

theorem nxt_ne_self {cap c : Nat} (hcap : 2 ≤ cap) (hc : c < cap) : nxt cap c ≠ c := by
  by_cases h1 : c + 1 < cap
  · rw [nxt_of_lt h1]; omega
  · rw [nxt_of_eq (by omega)]; omega

/-- Every bucket of the ring is the successor of some bucket. -/
theorem exists_nxt_eq {cap c : Nat} (hc : c < cap) : ∃ i, i < cap ∧ nxt cap i = c := by
  by_cases h : c = 0
  · exact ⟨cap - 1, by omega, by rw [nxt_of_eq (by omega)]; omega⟩
  · exact ⟨c - 1, by omega, by rw [nxt_of_lt (by omega)]; omega⟩

/-- The bucket at distance `j` from `t`. -/
theorem exists_dist_eq {cap t j : Nat} (ht : t < cap) (hj : j < cap) :
    ∃ c, c < cap ∧ dist cap t c = j := by
  by_cases h : t + j < cap
  · exact ⟨t + j, h, by rw [dist_of_le h (by omega)]; omega⟩
  · exact ⟨t + j - cap, by omega, by rw [dist_of_gt ht (by omega)]; omega⟩

/-- Wrapping subtraction followed by reduction modulo a divisor of the word size. -/
theorem wrap_sub_mod {W cap : Nat} (hW : cap ∣ W) (hWpos : 0 < W) (hcap : 0 < cap)
    (c x : Nat) (hc : c < cap) :
    ((c % W + W - x % W) % W) % cap = dist cap (x % cap) c := by
  rw [Nat.mod_mod_of_dvd _ hW]
  unfold dist
  have hxW : x % W < W := Nat.mod_lt _ hWpos
  have hxc : x % cap < cap := Nat.mod_lt _ hcap
  have hcW : c % W % cap = c := by
    rw [Nat.mod_mod_of_dvd _ hW]; exact Nat.mod_eq_of_lt hc
  have hW0 : W % cap = 0 := by
    obtain ⟨q, rfl⟩ := hW
    exact Nat.mul_mod_right cap q
  have key : (c % W + W - x % W + x % W) % cap = (c + cap - x % cap + x % cap) % cap := by
    have e1 : c % W + W - x % W + x % W = c % W + W := by omega
    have e2 : c + cap - x % cap + x % cap = c + cap := by omega
    rw [e1, e2, Nat.add_mod, hcW, hW0, Nat.add_mod_right]
    simp
  have hx2 : x % W % cap = x % cap := Nat.mod_mod_of_dvd _ hW
  have key2 : (c % W + W - x % W + x % cap) % cap = (c + cap - x % cap + x % cap) % cap := by
    rw [← key, Nat.add_mod _ (x % cap), Nat.add_mod _ (x % W), hx2, Nat.mod_mod]
  exact Nat.ModEq.add_right_cancel' (x % cap) key2

end flat_hash


namespace flat_hash

open hash_table

section Basic

variable {V K : Type} {m_getKey : V → K} {m_hash : K → Nat}

/-! ## Buckets -/

theorem valuePtr_new : (Bucket.new : Bucket V).valuePtr = none := by
  simp [Bucket.valuePtr, Bucket.new, EmptyHashValue]

theorem valuePtr_setEnd (b : Bucket V) : b.setEnd.valuePtr = none := by
  simp [Bucket.valuePtr, Bucket.setEnd, EndHashValue, FilledHashBit]

theorem valuePtr_setEmpty (b : Bucket V) : b.setEmpty.valuePtr = none := by
  simp [Bucket.valuePtr, Bucket.setEmpty, EmptyHashValue]

theorem setEmpty_eq_new (b : Bucket V) : b.setEmpty = Bucket.new := rfl

theorem valuePtr_filledBucket (v : V) :
    (filledBucket m_getKey m_hash v).valuePtr = some v := by
  have h := or_pow_and_pow_ne_zero (m_hash (m_getKey v) % WordSize) 63
  simp only [Bucket.valuePtr, filledBucket, hashWord, FilledHashBit]
  rw [if_pos h]

theorem setFilled_hashWord (b : Bucket V) (v : V) :
    b.setFilled (hashWord m_getKey m_hash v) v = filledBucket m_getKey m_hash v := by
  simp only [Bucket.setFilled, filledBucket, hashWord, FilledHashBit, Bucket.mk.injEq, and_true]
  apply Nat.eq_of_testBit_eq
  intro i
  simp only [Nat.testBit_or]
  cases (m_hash (m_getKey v) % WordSize).testBit i <;> cases (2 ^ 63).testBit i <;> rfl

theorem filledBucket_ne_new (v : V) : filledBucket m_getKey m_hash v ≠ Bucket.new := by
  intro h
  have h1 := congrArg Bucket.valuePtr h
  rw [valuePtr_filledBucket, valuePtr_new] at h1
  exact Option.noConfusion h1

theorem isEmpty_new : (Bucket.new : Bucket V).isEmpty = true := rfl

theorem isEmpty_setEnd (b : Bucket V) : b.setEnd.isEmpty = false := rfl

theorem isEmpty_filledBucket (v : V) : (filledBucket m_getKey m_hash v).isEmpty = false := by
  have h := or_pow_and_pow_ne_zero (m_hash (m_getKey v) % WordSize) 63
  simp only [Bucket.isEmpty, filledBucket, hashWord, FilledHashBit, EmptyHashValue]
  rw [beq_eq_false_iff_ne]
  intro h0
  rw [h0] at h
  exact h (by simp)

/-! ## Index arithmetic of an allocated array -/

theorem WF.cap_pos {cap : Nat} {buckets : List (Bucket V)}
    (h : WF m_getKey m_hash cap buckets) : 8 ≤ cap := by
  obtain ⟨k, hk3, _, rfl⟩ := h.pow
  calc 8 = 2 ^ 3 := by norm_num
    _ ≤ 2 ^ k := Nat.pow_le_pow_right (by norm_num) hk3

theorem WF.cap_le {cap : Nat} {buckets : List (Bucket V)}
    (h : WF m_getKey m_hash cap buckets) : cap ≤ 2 ^ 47 := by
  obtain ⟨k, _, hk, rfl⟩ := h.pow
  exact Nat.pow_le_pow_right (by norm_num) hk

theorem WF.cap_dvd {cap : Nat} {buckets : List (Bucket V)}
    (h : WF m_getKey m_hash cap buckets) : cap ∣ WordSize := by
  obtain ⟨k, _, hk, rfl⟩ := h.pow
  exact Nat.pow_dvd_pow 2 (by omega)

theorem hashBucket_eq {cap : Nat} {buckets : List (Bucket V)}
    (h : WF m_getKey m_hash cap buckets) (x : Nat) : hashBucket buckets x = x % cap := by
  have h8 := h.cap_pos
  have hle := h.cap_le
  obtain ⟨k, _, hk, hcap⟩ := h.pow
  unfold hashBucket
  rw [h.len]
  have e : (cap + 1 + WordSize - 2) % WordSize = 2 ^ k - 1 := by
    have : cap + 1 + WordSize - 2 = (cap - 1) + WordSize := by omega
    rw [this, Nat.add_mod_right, Nat.mod_eq_of_lt, hcap]
    have : (2:Nat) ^ 47 < WordSize := by unfold WordSize; norm_num
    omega
  rw [e, Nat.and_pow_two_sub_one_eq_mod, hcap]

theorem hashBucket_succ {cap : Nat} {buckets : List (Bucket V)}
    (h : WF m_getKey m_hash cap buckets) (c : Nat) :
    hashBucket buckets (c + 1) = nxt cap c := by
  rw [hashBucket_eq h]; rfl

theorem hashBucket_hashWord {cap : Nat} {buckets : List (Bucket V)}
    (h : WF m_getKey m_hash cap buckets) (v : V) :
    hashBucket buckets (hashWord m_getKey m_hash v) = m_hash (m_getKey v) % cap := by
  rw [hashBucket_eq h]
  obtain ⟨k, _, hk, hcap⟩ := h.pow
  unfold hashWord FilledHashBit
  rw [hcap, or_pow_mod_pow _ 63 k (by omega)]
  have : (2:Nat) ^ k ∣ WordSize := Nat.pow_dvd_pow 2 (by omega)
  exact Nat.mod_mod_of_dvd _ this

theorem bucketError_eq {cap : Nat} {buckets : List (Bucket V)}
    (h : WF m_getKey m_hash cap buckets) {c : Nat} (hc : c < cap) (x : Nat) :
    bucketError buckets c x = dist cap (x % cap) c := by
  unfold bucketError
  rw [hashBucket_eq h]
  exact wrap_sub_mod h.cap_dvd (by unfold WordSize; norm_num) (by have := h.cap_pos; omega) c x hc

theorem bucketError_idx {cap : Nat} {buckets : List (Bucket V)}
    (h : WF m_getKey m_hash cap buckets) {c t : Nat} (hc : c < cap) (ht : t < cap) :
    bucketError buckets c t = dist cap t c := by
  rw [bucketError_eq h hc, Nat.mod_eq_of_lt ht]

theorem bucketError_hashWord {cap : Nat} {buckets : List (Bucket V)}
    (h : WF m_getKey m_hash cap buckets) {c : Nat} (hc : c < cap) (v : V) :
    bucketError buckets c (hashWord m_getKey m_hash v)
      = dist cap (m_hash (m_getKey v) % cap) c := by
  rw [bucketError_eq h hc, ← hashBucket_eq h, hashBucket_hashWord h]

/-! ## Displacements -/

theorem dd_of_new {cap : Nat} {buckets : List (Bucket V)} {i : Nat}
    (h : buckets[i]? = some Bucket.new) : dd m_getKey m_hash cap buckets i = 0 := by
  unfold dd; rw [h]; simp only [valuePtr_new]

theorem dd_of_filled {cap : Nat} {buckets : List (Bucket V)} {i : Nat} {v : V}
    (h : buckets[i]? = some (filledBucket m_getKey m_hash v)) :
    dd m_getKey m_hash cap buckets i = dist cap (m_hash (m_getKey v) % cap) i + 1 := by
  unfold dd; rw [h]; simp only [valuePtr_filledBucket]

theorem dd_set_ne {cap : Nat} {buckets : List (Bucket V)} {i j : Nat} (b : Bucket V)
    (hij : i ≠ j) :
    dd m_getKey m_hash cap (buckets.set i b) j = dd m_getKey m_hash cap buckets j := by
  unfold dd; rw [List.getElem?_set_ne hij]

theorem dd_set_filled {cap : Nat} {buckets : List (Bucket V)} {i : Nat} (v : V)
    (hi : i < buckets.length) :
    dd m_getKey m_hash cap (buckets.set i (filledBucket m_getKey m_hash v)) i
      = dist cap (m_hash (m_getKey v) % cap) i + 1 := by
  apply dd_of_filled
  rw [List.getElem?_set_self hi]

theorem dd_set_new {cap : Nat} {buckets : List (Bucket V)} {i : Nat}
    (hi : i < buckets.length) :
    dd m_getKey m_hash cap (buckets.set i Bucket.new) i = 0 := by
  apply dd_of_new
  rw [List.getElem?_set_self hi]

/-- A bucket with positive `dd` is Filled. -/
theorem filled_of_dd_pos {cap : Nat} {buckets : List (Bucket V)}
    (h : WF m_getKey m_hash cap buckets) {i : Nat} (hi : i < cap)
    (hd : 0 < dd m_getKey m_hash cap buckets i) :
    ∃ v, buckets[i]? = some (filledBucket m_getKey m_hash v) := by
  rcases h.slots i hi with h0 | h1
  · rw [dd_of_new h0] at hd; omega
  · exact h1

/-! ## The well-formedness of an updated array -/

theorem WF.set_filled {cap : Nat} {buckets : List (Bucket V)}
    (h : WF m_getKey m_hash cap buckets) {i : Nat} (hi : i < cap) (v : V) :
    WF m_getKey m_hash cap (buckets.set i (filledBucket m_getKey m_hash v)) where
  pow := h.pow
  len := by rw [List.length_set]; exact h.len
  slots := by
    intro j hj
    by_cases hij : i = j
    · subst hij
      right; exact ⟨v, List.getElem?_set_self (by rw [h.len]; omega)⟩
    · rw [List.getElem?_set_ne hij]; exact h.slots j hj
  last := by
    rw [List.getElem?_set_ne (by omega)]; exact h.last

theorem WF.set_new {cap : Nat} {buckets : List (Bucket V)}
    (h : WF m_getKey m_hash cap buckets) {i : Nat} (hi : i < cap) :
    WF m_getKey m_hash cap (buckets.set i Bucket.new) where
  pow := h.pow
  len := by rw [List.length_set]; exact h.len
  slots := by
    intro j hj
    by_cases hij : i = j
    · subst hij
      left; exact List.getElem?_set_self (by rw [h.len]; omega)
    · rw [List.getElem?_set_ne hij]; exact h.slots j hj
  last := by
    rw [List.getElem?_set_ne (by omega)]; exact h.last

/-! ## Stored elements -/

theorem perm_swap_middle (l1 l2 x y : List V) :
    (l1 ++ (y ++ l2) ++ x).Perm (l1 ++ (x ++ l2) ++ y) := by
  rw [← Multiset.coe_eq_coe]
  simp only [← Multiset.coe_add]
  abel

theorem elems_set {buckets : List (Bucket V)} {i : Nat} {b : Bucket V} (b1 : Bucket V)
    (h : buckets[i]? = some b) :
    (elems (buckets.set i b1) ++ b.valuePtr.toList).Perm
      (elems buckets ++ b1.valuePtr.toList) := by
  obtain ⟨hi, hb⟩ := List.getElem?_eq_some.1 h
  have hsplit : buckets = buckets.take i ++ b :: buckets.drop (i + 1) := by
    rw [← hb, ← List.drop_eq_getElem_cons hi, List.take_append_drop]
  have hset : buckets.set i b1 = buckets.take i ++ b1 :: buckets.drop (i + 1) := by
    rw [List.set_eq_take_append_cons_drop, if_pos hi]
  rw [hset]
  conv_rhs => rw [hsplit]
  have e : ∀ (c : Bucket V) (l : List (Bucket V)),
      List.filterMap Bucket.valuePtr (c :: l)
        = c.valuePtr.toList ++ List.filterMap Bucket.valuePtr l := by
    intro c l
    cases hc : c.valuePtr <;> simp [List.filterMap_cons, hc]
  simp only [elems, List.filterMap_append, e]
  exact perm_swap_middle _ _ _ _

theorem mem_elems_of_getElem? {buckets : List (Bucket V)} {i : Nat} {b : Bucket V} {v : V}
    (h : buckets[i]? = some b) (hv : b.valuePtr = some v) : v ∈ elems buckets := by
  unfold elems
  rw [List.mem_filterMap]
  exact ⟨b, List.mem_iff_getElem?.2 ⟨i, h⟩, hv⟩

theorem exists_of_mem_elems {buckets : List (Bucket V)} {v : V} (h : v ∈ elems buckets) :
    ∃ (i : Nat) (b : Bucket V), buckets[i]? = some b ∧ b.valuePtr = some v := by
  unfold elems at h
  rw [List.mem_filterMap] at h
  obtain ⟨b, hb, hv⟩ := h
  obtain ⟨i, hi⟩ := List.mem_iff_getElem?.1 hb
  exact ⟨i, b, hi, hv⟩

/-- If the first `n` entries all carry a value, at least `n` values are collected. -/
theorem le_length_filterMap {α β : Type} (f : α → Option β) :
    ∀ (l : List α) (n : Nat), (∀ i, i < n → ∃ a b, l[i]? = some a ∧ f a = some b) →
      n ≤ (l.filterMap f).length := by
  intro l
  induction l with
  | nil =>
    intro n h
    rcases Nat.eq_zero_or_pos n with h0 | h0
    · omega
    · obtain ⟨a, b, ha, _⟩ := h 0 h0
      simp at ha
  | cons x xs ih =>
    intro n h
    rcases Nat.eq_zero_or_pos n with h0 | h0
    · omega
    · obtain ⟨a, b, ha, hb⟩ := h 0 h0
      simp only [List.getElem?_cons_zero, Option.some.injEq] at ha
      subst ha
      have h1 : n - 1 ≤ (xs.filterMap f).length := by
        apply ih
        intro i hi
        have := h (i + 1) (by omega)
        simpa using this
      rw [List.filterMap_cons, hb, List.length_cons]
      omega

/-- Under the load bound some bucket is Empty. -/
theorem exists_empty {cap : Nat} {buckets : List (Bucket V)}
    (h : WF m_getKey m_hash cap buckets) (hload : 10 * (elems buckets).length ≤ 7 * cap) :
    ∃ e, e < cap ∧ buckets[e]? = some Bucket.new := by
  by_contra hne
  have hall : ∀ i, i < cap → ∃ a b, buckets[i]? = some a ∧ a.valuePtr = some b := by
    intro i hi
    rcases h.slots i hi with h0 | ⟨v, hv⟩
    · exact absurd ⟨i, hi, h0⟩ hne
    · exact ⟨_, v, hv, valuePtr_filledBucket v⟩
  have := le_length_filterMap Bucket.valuePtr buckets cap hall
  have h8 := h.cap_pos
  unfold elems at hload
  omega

end Basic

end flat_hash


namespace flat_hash

open hash_table

section Lookup

variable {V K : Type} {m_getKey : V → K} {m_hash : K → Nat}

/-- Robin Hood ordering along a probe sequence: every bucket between the ideal
bucket of a stored element and its position holds an element displaced at
least as far as the probe has come. -/
theorem rh_chain {cap : Nat} {buckets : List (Bucket V)}
    (hwf : WF m_getKey m_hash cap buckets) (hrh : RH m_getKey m_hash cap buckets)
    {p : Nat} {x : V} (hp : p < cap)
    (hx : buckets[p]? = some (filledBucket m_getKey m_hash x)) :
    ∀ (n j c : Nat), j + n = dist cap (m_hash (m_getKey x) % cap) p → c < cap →
      dist cap (m_hash (m_getKey x) % cap) c = j →
      j + 1 ≤ dd m_getKey m_hash cap buckets c := by
  have h8 := hwf.cap_pos
  have ht : m_hash (m_getKey x) % cap < cap := Nat.mod_lt _ (by omega)
  intro n
  induction n with
  | zero =>
    intro j c hj hc hd
    have : c = p := dist_inj ht hc hp (by omega)
    subst this
    rw [dd_of_filled hx]; omega
  | succ n ih =>
    intro j c hj hc hd
    have hdp : dist cap (m_hash (m_getKey x) % cap) p < cap := dist_lt (by omega)
    have h1 : dist cap (m_hash (m_getKey x) % cap) (nxt cap c) = j + 1 := by
      rw [dist_nxt_of_lt ht hc (by omega), hd]
    have h2 := ih (j + 1) (nxt cap c) (by omega) (nxt_lt (by omega)) h1
    have h3 := hrh c hc
    omega

variable [DecidableEq K]

/-- The probe walk of `find` reaches a stored key. -/
theorem findLoop_present {cap : Nat} {buckets : List (Bucket V)}
    (hwf : WF m_getKey m_hash cap buckets) (hrh : RH m_getKey m_hash cap buckets)
    {p : Nat} {x : V} (hp : p < cap)
    (hx : buckets[p]? = some (filledBucket m_getKey m_hash x)) :
    ∀ (n j c fuel : Nat), j + n = dist cap (m_hash (m_getKey x) % cap) p → c < cap →
      dist cap (m_hash (m_getKey x) % cap) c = j → n < fuel →
      ∃ r y, findLoop m_getKey buckets (m_getKey x) (hashWord m_getKey m_hash x)
          (m_hash (m_getKey x) % cap) fuel c = some r ∧ r < cap ∧
        buckets[r]? = some (filledBucket m_getKey m_hash y) ∧ m_getKey y = m_getKey x := by
  have h8 := hwf.cap_pos
  have ht : m_hash (m_getKey x) % cap < cap := Nat.mod_lt _ (by omega)
  intro n
  induction n with
  | zero =>
    intro j c fuel hj hc hd hf
    have : c = p := dist_inj ht hc hp (by omega)
    subst this
    obtain ⟨f, rfl⟩ : ∃ f, fuel = f + 1 := ⟨fuel - 1, by omega⟩
    refine ⟨c, x, ?_, hc, hx, rfl⟩
    have hm : (filledBucket m_getKey m_hash x).hash = hashWord m_getKey m_hash x ∧
        True := ⟨rfl, trivial⟩
    rw [findLoop, hx]
    simp only [valuePtr_filledBucket]
    rw [if_pos hm]
  | succ n ih =>
    intro j c fuel hj hc hd hf
    obtain ⟨f, rfl⟩ : ∃ f, fuel = f + 1 := ⟨fuel - 1, by omega⟩
    have hch := rh_chain hwf hrh hp hx (n + 1) j c hj hc hd
    obtain ⟨y, hy⟩ := filled_of_dd_pos hwf hc (by omega)
    rw [dd_of_filled hy] at hch
    simp only [findLoop, hy, valuePtr_filledBucket]
    by_cases hm : (filledBucket m_getKey m_hash y).hash = hashWord m_getKey m_hash x ∧
        m_getKey y = m_getKey x
    · rw [if_pos hm]
      exact ⟨c, y, rfl, hc, hy, hm.2⟩
    · rw [if_neg hm]
      have e1 : bucketError buckets c (filledBucket m_getKey m_hash y).hash
          = dist cap (m_hash (m_getKey y) % cap) c := bucketError_hashWord hwf hc y
      have e2 : bucketError buckets c (m_hash (m_getKey x) % cap)
          = dist cap (m_hash (m_getKey x) % cap) c := bucketError_idx hwf hc ht
      rw [e1, e2, hashBucket_succ hwf, if_neg (by omega)]
      have hdp : dist cap (m_hash (m_getKey x) % cap) p < cap := dist_lt (by omega)
      have h1 : dist cap (m_hash (m_getKey x) % cap) (nxt cap c) = j + 1 := by
        rw [dist_nxt_of_lt ht hc (by omega), hd]
      exact ih (j + 1) (nxt cap c) f (by omega) (nxt_lt (by omega)) h1 (by omega)

/-- The probe walk of `find` returns: it stops at the latest at an Empty bucket,
and what it returns is `end()` or a bucket holding the key. -/
theorem findLoop_returns {cap : Nat} {buckets : List (Bucket V)}
    (hwf : WF m_getKey m_hash cap buckets) (key : K) (hash t : Nat) (ht : t < cap)
    {e : Nat} (he : e < cap) (hempty : buckets[e]? = some Bucket.new) :
    ∀ (n c fuel : Nat), c < cap → dist cap t c + n = dist cap t e → n < fuel →
      ∃ r, findLoop m_getKey buckets key hash t fuel c = some r ∧
        (r = cap ∨ (r < cap ∧ ∃ y, buckets[r]? = some (filledBucket m_getKey m_hash y) ∧
          m_getKey y = key)) := by
  have h8 := hwf.cap_pos
  intro n
  induction n with
  | zero =>
    intro c fuel hc hd hf
    have : c = e := dist_inj ht hc he (by omega)
    subst this
    obtain ⟨f, rfl⟩ : ∃ f, fuel = f + 1 := ⟨fuel - 1, by omega⟩
    refine ⟨cap, ?_, Or.inl rfl⟩
    simp only [findLoop, hempty, valuePtr_new, hwf.len]
    rfl
  | succ n ih =>
    intro c fuel hc hd hf
    obtain ⟨f, rfl⟩ : ∃ f, fuel = f + 1 := ⟨fuel - 1, by omega⟩
    rcases hwf.slots c hc with h0 | ⟨y, hy⟩
    · refine ⟨cap, ?_, Or.inl rfl⟩
      simp only [findLoop, h0, valuePtr_new, hwf.len]
      rfl
    · simp only [findLoop, hy, valuePtr_filledBucket]
      by_cases hm : (filledBucket m_getKey m_hash y).hash = hash ∧ m_getKey y = key
      · rw [if_pos hm]
        exact ⟨c, rfl, Or.inr ⟨hc, y, hy, hm.2⟩⟩
      · rw [if_neg hm]
        split
        · exact ⟨cap, by rw [hwf.len]; rfl, Or.inl rfl⟩
        · rw [hashBucket_succ hwf]
          have hde : dist cap t e < cap := dist_lt (by omega)
          have h1 : dist cap t (nxt cap c) = dist cap t c + 1 :=
            dist_nxt_of_lt ht hc (by omega)
          exact ih (nxt cap c) f (nxt_lt (by omega)) (by omega) (by omega)

end Lookup

end flat_hash


namespace flat_hash

open hash_table

section Insertion

variable {V K : Type} {m_getKey : V → K} {m_hash : K → Nat}

theorem filledBucket_hash (v : V) :
    (filledBucket m_getKey m_hash v).hash = hashWord m_getKey m_hash v := rfl

theorem nxt_inj {cap i c : Nat} (hi : i < cap) (hc : c < cap) (h : nxt cap i = nxt cap c) :
    i = c := by
  by_cases h1 : i + 1 < cap <;> by_cases h2 : c + 1 < cap
  · rw [nxt_of_lt h1, nxt_of_lt h2] at h; omega
  · rw [nxt_of_lt h1, nxt_of_eq (by omega)] at h; omega
  · rw [nxt_of_eq (by omega), nxt_of_lt h2] at h; omega
  · omega

theorem NPos_ge {cap : Nat} {buckets : List (Bucket V)}
    (h : WF m_getKey m_hash cap buckets) : cap < NPos := by
  have := h.cap_le
  have : (2:Nat) ^ 47 < NPos := by unfold NPos; norm_num
  omega

/-- Writing an element into bucket `c` keeps the Robin Hood ordering when the
new displacement is covered by the bucket before `c` and covers the bucket
after `c`. -/
theorem RH.write_of_next {cap : Nat} {buckets : List (Bucket V)}
    (hwf : WF m_getKey m_hash cap buckets) (hrh : RH m_getKey m_hash cap buckets)
    {c : Nat} (hc : c < cap) (v : V)
    (hprev : ∀ i, i < cap → nxt cap i = c →
      dist cap (m_hash (m_getKey v) % cap) c ≤ dd m_getKey m_hash cap buckets i)
    (hnext : dd m_getKey m_hash cap buckets (nxt cap c)
      ≤ dist cap (m_hash (m_getKey v) % cap) c + 1 + 1) :
    RH m_getKey m_hash cap (buckets.set c (filledBucket m_getKey m_hash v)) := by
  have h8 := hwf.cap_pos
  have hlen : c < buckets.length := by rw [hwf.len]; omega
  intro i hi
  by_cases h1 : nxt cap i = c
  · have hic : c ≠ i := by
      intro h; subst h; exact nxt_ne_self (by omega) hi h1
    rw [h1, dd_set_filled v hlen, dd_set_ne _ hic]
    have := hprev i hi h1
    omega
  · by_cases h2 : i = c
    · subst h2
      rw [dd_set_filled v hlen, dd_set_ne _ (Ne.symm h1)]
      exact hnext
    · rw [dd_set_ne _ (Ne.symm h1), dd_set_ne _ (Ne.symm h2)]
      exact hrh i hi

/-- Writing an element into bucket `c` keeps the Robin Hood ordering when the
new displacement is covered by the bucket before `c` and is not below the
displacement that was there. -/
theorem RH.write_filled {cap : Nat} {buckets : List (Bucket V)}
    (hwf : WF m_getKey m_hash cap buckets) (hrh : RH m_getKey m_hash cap buckets)
    {c : Nat} (hc : c < cap) (v : V)
    (hprev : ∀ i, i < cap → nxt cap i = c →
      dist cap (m_hash (m_getKey v) % cap) c ≤ dd m_getKey m_hash cap buckets i)
    (hge : dd m_getKey m_hash cap buckets c ≤ dist cap (m_hash (m_getKey v) % cap) c + 1) :
    RH m_getKey m_hash cap (buckets.set c (filledBucket m_getKey m_hash v)) := by
  apply RH.write_of_next hwf hrh hc v hprev
  have := hrh c hc
  omega

/-- Emptying bucket `c` keeps the Robin Hood ordering when the bucket after `c`
is Empty or holds an element in its ideal bucket. -/
theorem RH.write_new {cap : Nat} {buckets : List (Bucket V)}
    (hwf : WF m_getKey m_hash cap buckets) (hrh : RH m_getKey m_hash cap buckets)
    {c : Nat} (hc : c < cap)
    (hnext : dd m_getKey m_hash cap buckets (nxt cap c) ≤ 1) :
    RH m_getKey m_hash cap (buckets.set c Bucket.new) := by
  have h8 := hwf.cap_pos
  have hlen : c < buckets.length := by rw [hwf.len]; omega
  intro i hi
  by_cases h1 : nxt cap i = c
  · rw [h1, dd_set_new hlen]; omega
  · by_cases h2 : i = c
    · subst h2
      rw [dd_set_new hlen, dd_set_ne _ (Ne.symm h1)]
      omega
    · rw [dd_set_ne _ (Ne.symm h1), dd_set_ne _ (Ne.symm h2)]
      exact hrh i hi

variable [DecidableEq K]

/-- The probe walk of `doInsert` stops at a stored key before it changes anything. -/
theorem doInsertLoop_present {cap : Nat} {buckets : List (Bucket V)}
    (hwf : WF m_getKey m_hash cap buckets) (hrh : RH m_getKey m_hash cap buckets)
    {p : Nat} {x : V} (hp : p < cap)
    (hx : buckets[p]? = some (filledBucket m_getKey m_hash x))
    (v : V) (hk : m_getKey x = m_getKey v) :
    ∀ (n j c fuel : Nat), j + n = dist cap (m_hash (m_getKey x) % cap) p → c < cap →
      dist cap (m_hash (m_getKey x) % cap) c = j → n < fuel →
      ∃ r y, doInsertLoop m_getKey fuel buckets v (hashWord m_getKey m_hash v)
          (m_hash (m_getKey v) % cap) c NPos = some (buckets, r, false) ∧ r < cap ∧
        buckets[r]? = some (filledBucket m_getKey m_hash y) ∧ m_getKey y = m_getKey v := by
  have h8 := hwf.cap_pos
  have ht : m_hash (m_getKey x) % cap < cap := Nat.mod_lt _ (by omega)
  have hw : hashWord m_getKey m_hash x = hashWord m_getKey m_hash v := by
    unfold hashWord; rw [hk]
  intro n
  induction n with
  | zero =>
    intro j c fuel hj hc hd hf
    have : c = p := dist_inj ht hc hp (by omega)
    subst this
    obtain ⟨f, rfl⟩ : ∃ f, fuel = f + 1 := ⟨fuel - 1, by omega⟩
    refine ⟨c, x, ?_, hc, hx, hk⟩
    have hm : (filledBucket m_getKey m_hash x).hash = hashWord m_getKey m_hash v ∧
        m_getKey x = m_getKey v := ⟨hw, hk⟩
    rw [doInsertLoop, hx]
    simp only [valuePtr_filledBucket]
    rw [if_pos hm]
  | succ n ih =>
    intro j c fuel hj hc hd hf
    obtain ⟨f, rfl⟩ : ∃ f, fuel = f + 1 := ⟨fuel - 1, by omega⟩
    have hch := rh_chain hwf hrh hp hx (n + 1) j c hj hc hd
    obtain ⟨y, hy⟩ := filled_of_dd_pos hwf hc (by omega)
    rw [dd_of_filled hy] at hch
    rw [doInsertLoop, hy]
    simp only [valuePtr_filledBucket]
    by_cases hm : (filledBucket m_getKey m_hash y).hash = hashWord m_getKey m_hash v ∧
        m_getKey y = m_getKey v
    · rw [if_pos hm]
      exact ⟨c, y, rfl, hc, hy, hm.2⟩
    · rw [if_neg hm]
      have hty : m_hash (m_getKey y) % cap < cap := Nat.mod_lt _ (by omega)
      have e1 : bucketError buckets c (hashBucket buckets (filledBucket m_getKey m_hash y).hash)
          = dist cap (m_hash (m_getKey y) % cap) c := by
        rw [filledBucket_hash, hashBucket_hashWord hwf, bucketError_idx hwf hc hty]
      have e2 : bucketError buckets c (m_hash (m_getKey v) % cap)
          = dist cap (m_hash (m_getKey x) % cap) c := by
        rw [← hk]; exact bucketError_idx hwf hc ht
      rw [e1, e2, hashBucket_succ hwf, if_neg (by omega)]
      have hdp : dist cap (m_hash (m_getKey x) % cap) p < cap := dist_lt (by omega)
      have h1 : dist cap (m_hash (m_getKey x) % cap) (nxt cap c) = j + 1 := by
        rw [dist_nxt_of_lt ht hc (by omega), hd]
      exact ih (j + 1) (nxt cap c) f (by omega) (nxt_lt (by omega)) h1 (by omega)

/-- The probe walk of `doInsert` for a key that is not stored: it ends at an
Empty bucket, the walked array keeps its shape and the Robin Hood ordering, the
stored elements are the old ones plus the new element, and the returned
position holds the element that was passed to `doInsert`. -/
theorem doInsertLoop_absent {cap : Nat} (v0 : V) (t0 e : Nat) (ht0 : t0 < cap) (he : e < cap) :
    ∀ (n fuel : Nat) (buckets : List (Bucket V)) (cand : V) (c ib : Nat),
      WF m_getKey m_hash cap buckets → RH m_getKey m_hash cap buckets →
      buckets[e]? = some Bucket.new →
      ((cand :: elems buckets).map m_getKey).Nodup →
      c < cap → dist cap t0 c + n = dist cap t0 e → n < fuel →
      dist cap (m_hash (m_getKey cand) % cap) c ≤ dist cap t0 c →
      (∀ i, i < cap → nxt cap i = c →
        dist cap (m_hash (m_getKey cand) % cap) c ≤ dd m_getKey m_hash cap buckets i) →
      ((ib = NPos ∧ cand = v0) ∨
        (ib < cap ∧ buckets[ib]? = some (filledBucket m_getKey m_hash v0) ∧
          dist cap t0 ib < dist cap t0 c)) →
      ∃ buckets1 pos,
        doInsertLoop m_getKey fuel buckets cand (hashWord m_getKey m_hash cand)
          (m_hash (m_getKey cand) % cap) c ib = some (buckets1, pos, true) ∧
        WF m_getKey m_hash cap buckets1 ∧ RH m_getKey m_hash cap buckets1 ∧
        (elems buckets1).Perm (cand :: elems buckets) ∧ pos < cap ∧
        buckets1[pos]? = some (filledBucket m_getKey m_hash v0) := by
  intro n
  induction n with
  | zero =>
    intro fuel buckets cand c ib hwf hrh hempty hnd hc hd hf ha hprev hib
    have h8 := hwf.cap_pos
    have hlen : c < buckets.length := by rw [hwf.len]; omega
    have : c = e := dist_inj ht0 hc he (by omega)
    subst this
    obtain ⟨f, rfl⟩ : ∃ f, fuel = f + 1 := ⟨fuel - 1, by omega⟩
    rw [doInsertLoop, hempty]
    simp only [valuePtr_new, setFilled_hashWord]
    refine ⟨_, _, rfl, hwf.set_filled hc cand, ?_, ?_, ?_, ?_⟩
    · apply RH.write_filled hwf hrh hc cand hprev
      rw [dd_of_new hempty]; omega
    · have := elems_set (filledBucket m_getKey m_hash cand) hempty
      rw [valuePtr_new, valuePtr_filledBucket] at this
      simp only [Option.toList, List.append_nil] at this
      exact this.trans (List.perm_append_singleton _ _)
    · rcases hib with ⟨h1, _⟩ | ⟨h1, _, _⟩
      · rw [if_pos h1]; exact hc
      · rw [if_neg (by have := NPos_ge hwf; omega)]; exact h1
    · rcases hib with ⟨h1, h2⟩ | ⟨h1, h2, h3⟩
      · rw [if_pos h1, ← h2]; exact List.getElem?_set_self hlen
      · rw [if_neg (by have := NPos_ge hwf; omega)]
        rw [List.getElem?_set_ne (by intro h; subst h; omega)]
        exact h2
  | succ n ih =>
    intro fuel buckets cand c ib hwf hrh hempty hnd hc hd hf ha hprev hib
    have h8 := hwf.cap_pos
    have hlen : c < buckets.length := by rw [hwf.len]; omega
    have hde : dist cap t0 e < cap := dist_lt (by omega)
    obtain ⟨f, rfl⟩ : ∃ f, fuel = f + 1 := ⟨fuel - 1, by omega⟩
    have hce : c ≠ e := by intro h; subst h; omega
    have hs1 : dist cap t0 (nxt cap c) = dist cap t0 c + 1 :=
      dist_nxt_of_lt ht0 hc (by omega)
    have htc : m_hash (m_getKey cand) % cap < cap := Nat.mod_lt _ (by omega)
    rcases hwf.slots c hc with h0 | ⟨y, hy⟩
    · -- an Empty bucket before `e`
      rw [doInsertLoop, h0]
      simp only [valuePtr_new, setFilled_hashWord]
      refine ⟨_, _, rfl, hwf.set_filled hc cand, ?_, ?_, ?_, ?_⟩
      · apply RH.write_filled hwf hrh hc cand hprev
        rw [dd_of_new h0]; omega
      · have := elems_set (filledBucket m_getKey m_hash cand) h0
        rw [valuePtr_new, valuePtr_filledBucket] at this
        simp only [Option.toList, List.append_nil] at this
        exact this.trans (List.perm_append_singleton _ _)
      · rcases hib with ⟨h1, _⟩ | ⟨h1, _, _⟩
        · rw [if_pos h1]; exact hc
        · rw [if_neg (by have := NPos_ge hwf; omega)]; exact h1
      · rcases hib with ⟨h1, h2⟩ | ⟨h1, h2, h3⟩
        · rw [if_pos h1, ← h2]; exact List.getElem?_set_self hlen
        · rw [if_neg (by have := NPos_ge hwf; omega)]
          rw [List.getElem?_set_ne (by intro h; subst h; omega)]
          exact h2
    · -- a Filled bucket
      have hyin : y ∈ elems buckets := mem_elems_of_getElem? hy (valuePtr_filledBucket y)
      have hkne : m_getKey y ≠ m_getKey cand := by
        intro hk
        rw [List.map_cons, List.nodup_cons] at hnd
        exact hnd.1 (hk ▸ List.mem_map_of_mem m_getKey hyin)
      have hm : ¬ ((filledBucket m_getKey m_hash y).hash = hashWord m_getKey m_hash cand ∧
          m_getKey y = m_getKey cand) := fun h => hkne h.2
      have hty : m_hash (m_getKey y) % cap < cap := Nat.mod_lt _ (by omega)
      have e1 : bucketError buckets c (hashBucket buckets (filledBucket m_getKey m_hash y).hash)
          = dist cap (m_hash (m_getKey y) % cap) c := by
        rw [filledBucket_hash, hashBucket_hashWord hwf, bucketError_idx hwf hc hty]
      have e2 : bucketError buckets c (m_hash (m_getKey cand) % cap)
          = dist cap (m_hash (m_getKey cand) % cap) c := bucketError_idx hwf hc htc
      have e3 : hashBucket buckets (filledBucket m_getKey m_hash y).hash
          = m_hash (m_getKey y) % cap := by
        rw [filledBucket_hash, hashBucket_hashWord hwf]
      have hddc : dd m_getKey m_hash cap buckets c
          = dist cap (m_hash (m_getKey y) % cap) c + 1 := dd_of_filled hy
      rw [doInsertLoop, hy]
      simp only [valuePtr_filledBucket]
      rw [if_neg hm, e1, e2, e3, hashBucket_succ hwf]
      by_cases hswap : dist cap (m_hash (m_getKey cand) % cap) c
          > dist cap (m_hash (m_getKey y) % cap) c
      · -- the candidate takes the bucket, its occupant becomes the candidate
        rw [if_pos hswap, filledBucket_hash]
        have hwf1 : WF m_getKey m_hash cap (buckets.set c (filledBucket m_getKey m_hash cand)) :=
          hwf.set_filled hc cand
        have hrh1 : RH m_getKey m_hash cap (buckets.set c (filledBucket m_getKey m_hash cand)) := by
          apply RH.write_filled hwf hrh hc cand hprev
          rw [hddc]; omega
        have hperm : (y :: elems (buckets.set c (filledBucket m_getKey m_hash cand))).Perm
            (cand :: elems buckets) := by
          have := elems_set (filledBucket m_getKey m_hash cand) hy
          rw [valuePtr_filledBucket, valuePtr_filledBucket] at this
          simp only [Option.toList] at this
          exact ((List.perm_append_singleton _ _).symm.trans this).trans
            (List.perm_append_singleton _ _)
        have hnd1 : ((y :: elems (buckets.set c (filledBucket m_getKey m_hash cand))).map
            m_getKey).Nodup := ((hperm.map m_getKey).nodup_iff).2 hnd
        have ha1 : dist cap (m_hash (m_getKey y) % cap) (nxt cap c)
            = dist cap (m_hash (m_getKey y) % cap) c + 1 :=
          dist_nxt_of_lt hty hc (by omega)
        obtain ⟨b1, pos, hrun, hwf2, hrh2, hperm2, hpos, hhold⟩ :=
          ih f (buckets.set c (filledBucket m_getKey m_hash cand)) y (nxt cap c)
            (if ib = NPos then c else ib) hwf1 hrh1
            (by rw [List.getElem?_set_ne hce]; exact hempty) hnd1 (nxt_lt (by omega))
            (by omega) (by omega) (by omega)
            (by
              intro i hi hni
              have : i = c := nxt_inj hi hc hni
              subst this
              rw [dd_set_filled cand hlen]; omega)
            (by
              right
              rcases hib with ⟨h1, h2⟩ | ⟨h1, h2, h3⟩
              · rw [if_pos h1, ← h2]
                exact ⟨hc, List.getElem?_set_self hlen, by omega⟩
              · rw [if_neg (by have := NPos_ge hwf; omega)]
                refine ⟨h1, ?_, by omega⟩
                rw [List.getElem?_set_ne (by intro h; subst h; omega)]
                exact h2)
        exact ⟨b1, pos, hrun, hwf2, hrh2, hperm2.trans hperm, hpos, hhold⟩
      · -- the occupant stays
        rw [if_neg hswap]
        have ha1 : dist cap (m_hash (m_getKey cand) % cap) (nxt cap c)
            = dist cap (m_hash (m_getKey cand) % cap) c + 1 :=
          dist_nxt_of_lt htc hc (by omega)
        exact ih f buckets cand (nxt cap c) ib hwf hrh hempty hnd (nxt_lt (by omega))
          (by omega) (by omega) (by omega)
          (by
            intro i hi hni
            have : i = c := nxt_inj hi hc hni
            subst this
            rw [hddc]; omega)
          (by
            rcases hib with h | ⟨h1, h2, h3⟩
            · exact Or.inl h
            · exact Or.inr ⟨h1, h2, by omega⟩)

end Insertion

end flat_hash


namespace flat_hash

open hash_table

section Deletion

variable {V K : Type} {m_getKey : V → K} {m_hash : K → Nat}

theorem perm_cancel_step {g g1 x : V} {l l1 l2 : List V}
    (h1 : (l1 ++ [g]).Perm (l ++ [x])) (h2 : (g1 :: l1).Perm (x :: l2)) :
    (g1 :: l).Perm (g :: l2) := by
  have h3 : (x :: g1 :: l).Perm (x :: g :: l2) := by
    calc (x :: g1 :: l).Perm (g1 :: (l ++ [x])) :=
          (List.Perm.swap g1 x l).trans ((List.perm_append_singleton x l).symm.cons g1)
      _ |>.Perm (g1 :: (l1 ++ [g])) := h1.symm.cons g1
      _ |>.Perm (g :: g1 :: l1) := by
          have : (g1 :: (l1 ++ [g])) = (g1 :: l1) ++ [g] := rfl
          rw [this]; exact List.perm_append_singleton g (g1 :: l1)
      _ |>.Perm (g :: x :: l2) := h2.cons g
      _ |>.Perm (x :: g :: l2) := List.Perm.swap x g l2
  exact h3.cons_inv

/-- The backward shift of `erase`: it stops at the latest before an Empty
bucket; the array keeps its shape and the Robin Hood ordering; the bucket it
stops at still holds an element (the one to vacate); apart from that element
the stored elements are the old ones without the erased one. -/
theorem eraseLoop_spec {cap : Nat} (p e : Nat) (hp : p < cap) (he : e < cap) :
    ∀ (n fuel : Nat) (buckets : List (Bucket V)) (cur : Nat) (g : V),
      WF m_getKey m_hash cap buckets → RH m_getKey m_hash cap buckets →
      buckets[e]? = some Bucket.new →
      cur < cap → buckets[cur]? = some (filledBucket m_getKey m_hash g) →
      dist cap p cur + n = dist cap p e → n ≤ fuel →
      ∃ buckets1 cur1 g1,
        eraseLoop fuel buckets cur = some (buckets1, cur1) ∧
        WF m_getKey m_hash cap buckets1 ∧ RH m_getKey m_hash cap buckets1 ∧
        cur1 < cap ∧ buckets1[cur1]? = some (filledBucket m_getKey m_hash g1) ∧
        (g1 :: elems buckets).Perm (g :: elems buckets1) ∧
        dd m_getKey m_hash cap buckets1 (nxt cap cur1) ≤ 1 := by
  intro n
  induction n with
  | zero =>
    intro fuel buckets cur g hwf hrh hempty hcur hg hd hf
    have : cur = e := dist_inj hp hcur he (by omega)
    subst this
    rw [hempty] at hg
    exact absurd (Option.some.inj hg).symm (filledBucket_ne_new g)
  | succ n ih =>
    intro fuel buckets cur g hwf hrh hempty hcur hg hd hf
    have h8 := hwf.cap_pos
    have hlen : cur < buckets.length := by rw [hwf.len]; omega
    have hde : dist cap p e < cap := dist_lt (by omega)
    obtain ⟨f, rfl⟩ : ∃ f, fuel = f + 1 := ⟨fuel - 1, by omega⟩
    have hce : cur ≠ e := by intro h; subst h; omega
    have hs1 : dist cap p (nxt cap cur) = dist cap p cur + 1 :=
      dist_nxt_of_lt hp hcur (by omega)
    have hn : nxt cap cur < cap := nxt_lt (by omega)
    rw [eraseLoop]
    simp only [hashBucket_succ hwf]
    rcases hwf.slots (nxt cap cur) hn with h0 | ⟨x, hx⟩
    · rw [h0]
      simp only [valuePtr_new]
      exact ⟨buckets, cur, g, rfl, hwf, hrh, hcur, hg, List.Perm.refl _,
        by rw [dd_of_new h0]; omega⟩
    · rw [hx]
      simp only [valuePtr_filledBucket]
      have htx : m_hash (m_getKey x) % cap < cap := Nat.mod_lt _ (by omega)
      have e1 : bucketError buckets (nxt cap cur) (filledBucket m_getKey m_hash x).hash
          = dist cap (m_hash (m_getKey x) % cap) (nxt cap cur) :=
        bucketError_hashWord hwf hn x
      rw [e1]
      by_cases hpos : dist cap (m_hash (m_getKey x) % cap) (nxt cap cur) > 0
      · rw [if_pos hpos]
        have hdx : dist cap (m_hash (m_getKey x) % cap) (nxt cap cur)
            = dist cap (m_hash (m_getKey x) % cap) cur + 1 := by
          have := dist_nxt htx hcur
          by_cases hw : dist cap (m_hash (m_getKey x) % cap) cur + 1 = cap
          · rw [if_pos hw] at this; omega
          · rw [if_neg hw] at this; exact this
        have hddn : dd m_getKey m_hash cap buckets (nxt cap cur)
            = dist cap (m_hash (m_getKey x) % cap) cur + 1 + 1 := by
          rw [dd_of_filled hx, hdx]
        have hrhc := hrh cur hcur
        have hwf1 : WF m_getKey m_hash cap (buckets.set cur (filledBucket m_getKey m_hash x)) :=
          hwf.set_filled hcur x
        have hrh1 : RH m_getKey m_hash cap (buckets.set cur (filledBucket m_getKey m_hash x)) := by
          apply RH.write_of_next hwf hrh hcur x
          · intro i hi hni
            have := hrh i hi
            rw [hni] at this
            omega
          · omega
        have hne : cur ≠ nxt cap cur := Ne.symm (nxt_ne_self (by omega) hcur)
        obtain ⟨b2, cur1, g1, hrun, hwf2, hrh2, hcur1, hg1, hperm, hdd⟩ :=
          ih f (buckets.set cur (filledBucket m_getKey m_hash x)) (nxt cap cur) x hwf1 hrh1
            (by rw [List.getElem?_set_ne hce]; exact hempty) hn
            (by rw [List.getElem?_set_ne hne]; exact hx) (by omega) (by omega)
        refine ⟨b2, cur1, g1, hrun, hwf2, hrh2, hcur1, hg1, ?_, hdd⟩
        have hset := elems_set (filledBucket m_getKey m_hash x) hg
        rw [valuePtr_filledBucket, valuePtr_filledBucket] at hset
        simp only [Option.toList] at hset
        exact perm_cancel_step hset hperm
      · rw [if_neg hpos]
        exact ⟨buckets, cur, g, rfl, hwf, hrh, hcur, hg, List.Perm.refl _,
          by rw [dd_of_filled hx]; omega⟩

/-- The call `scanIterator` returns: it stops at the first bucket from `i` on that is not
Empty, at the latest at the End bucket. -/
theorem scanIteratorLoop_spec {cap : Nat} {buckets : List (Bucket V)}
    (hwf : WF m_getKey m_hash cap buckets) :
    ∀ (n i : Nat), i + n = cap →
      ∃ j, scanIteratorLoop buckets (n + 1) i = some j ∧ i ≤ j ∧ j ≤ cap ∧
        (∀ l, i ≤ l → l < j → buckets[l]? = some Bucket.new) ∧
        (j = cap ∨ ∃ v, buckets[j]? = some (filledBucket m_getKey m_hash v)) := by
  intro n
  induction n with
  | zero =>
    intro i hi
    have : i = cap := by omega
    subst this
    refine ⟨i, ?_, Nat.le_refl _, Nat.le_refl _, fun l h1 h2 => by omega, Or.inl rfl⟩
    rw [scanIteratorLoop, hwf.last]
    simp only [isEmpty_setEnd]
    rfl
  | succ n ih =>
    intro i hi
    rw [scanIteratorLoop]
    rcases hwf.slots i (by omega) with h0 | ⟨v, hv⟩
    · rw [h0]
      simp only [isEmpty_new, if_true]
      obtain ⟨j, hj, h1, h2, h3, h4⟩ := ih (i + 1) (by omega)
      refine ⟨j, hj, by omega, h2, ?_, h4⟩
      intro l hl1 hl2
      by_cases hli : l = i
      · subst hli; exact h0
      · exact h3 l (by omega) hl2
    · rw [hv]
      simp only [isEmpty_filledBucket]
      exact ⟨i, rfl, Nat.le_refl _, by omega, fun l h1 h2 => by omega, Or.inr ⟨v, hv⟩⟩

theorem scanIterator_spec {cap : Nat} {buckets : List (Bucket V)}
    (hwf : WF m_getKey m_hash cap buckets) (i : Nat) (hi : i ≤ cap) :
    ∃ j, scanIterator buckets i = some j ∧ i ≤ j ∧ j ≤ cap ∧
      (∀ l, i ≤ l → l < j → buckets[l]? = some Bucket.new) ∧
      (j = cap ∨ ∃ v, buckets[j]? = some (filledBucket m_getKey m_hash v)) := by
  unfold scanIterator
  have : buckets.length - i = (cap - i) + 1 := by rw [hwf.len]; omega
  rw [this]
  exact scanIteratorLoop_spec hwf (cap - i) i (by omega)

/-- A valid occupied position lies before the End bucket and holds a Filled bucket. -/
theorem occupied_filled {cap : Nat} {buckets : List (Bucket V)}
    (hwf : WF m_getKey m_hash cap buckets) {pos : Nat} {b : Bucket V} {v : V}
    (hb : buckets[pos]? = some b) (hv : b.valuePtr = some v) :
    pos < cap ∧ b = filledBucket m_getKey m_hash v := by
  obtain ⟨hlt, _⟩ := List.getElem?_eq_some.1 hb
  rw [hwf.len] at hlt
  by_cases hpc : pos = cap
  · subst hpc
    rw [hwf.last] at hb
    rw [← Option.some.inj hb, valuePtr_setEnd] at hv
    exact Option.noConfusion hv
  · have hp : pos < cap := by omega
    refine ⟨hp, ?_⟩
    rcases hwf.slots pos hp with h0 | ⟨y, hy⟩
    · rw [h0] at hb
      rw [← Option.some.inj hb, valuePtr_new] at hv
      exact Option.noConfusion hv
    · rw [hy] at hb
      have hby := Option.some.inj hb
      rw [← hby, valuePtr_filledBucket] at hv
      rw [← hby, Option.some.inj hv]

/-- The call `erase(pos)` at a valid occupied position of an allocated table returns; the
table keeps its invariant and its bucket count, and its elements are the old
ones without the element that was at `pos`. -/
theorem erase_spec {t : hash_table V} (h : Alloc m_getKey m_hash t) {pos : Nat} {b : Bucket V}
    {v : V} (hb : t.m_buckets[pos]? = some b) (hv : b.valuePtr = some v) :
    ∃ t1 ret, erase t pos = some (t1, ret) ∧ Alloc m_getKey m_hash t1 ∧
      t1.m_buckets.length = t.m_buckets.length ∧
      (elems t.m_buckets).Perm (v :: elems t1.m_buckets) ∧
      t1.m_filledCount + 1 = t.m_filledCount ∧ pos ≤ ret ∧ ret ≤ t.m_buckets.length - 1 := by
  have hwf := h.wf
  have h8 := hwf.cap_pos
  have hcap := hwf.cap_le
  obtain ⟨hp, hbv⟩ := occupied_filled hwf hb hv
  subst hbv
  obtain ⟨e, he, hempty⟩ := exists_empty hwf (by rw [← h.count]; exact h.load)
  have hde : dist (t.m_buckets.length - 1) pos e < t.m_buckets.length - 1 := dist_lt (by omega)
  obtain ⟨b1, cur1, g1, hrun, hwf1, hrh1, hcur1, hg1, hperm, hdd⟩ :=
    eraseLoop_spec pos e hp he (dist (t.m_buckets.length - 1) pos e) t.m_buckets.length
      t.m_buckets pos v hwf h.rh hempty hp hb
      (by rw [dist_self hp]; omega) (by omega)
  have hwf2 : WF m_getKey m_hash (t.m_buckets.length - 1) (b1.set cur1 Bucket.new) :=
    hwf1.set_new hcur1
  have hrh2 : RH m_getKey m_hash (t.m_buckets.length - 1) (b1.set cur1 Bucket.new) :=
    RH.write_new hwf1 hrh1 hcur1 hdd
  obtain ⟨ret, hret, hr1, hr2, _, _⟩ := scanIterator_spec hwf2 pos (by omega)
  have hperm2 : (elems t.m_buckets).Perm (v :: elems (b1.set cur1 Bucket.new)) := by
    have hset := elems_set (Bucket.new : Bucket V) hg1
    rw [valuePtr_filledBucket, valuePtr_new] at hset
    simp only [Option.toList, List.append_nil] at hset
    have h3 : (g1 :: elems t.m_buckets).Perm (g1 :: v :: elems (b1.set cur1 Bucket.new)) :=
      hperm.trans (((hset.symm.trans (List.perm_append_singleton _ _)).cons v).trans
        (List.Perm.swap _ _ _))
    exact h3.cons_inv
  have hlen2 : (b1.set cur1 Bucket.new).length = t.m_buckets.length := by
    rw [hwf2.len]; omega
  have hcnt : (elems (b1.set cur1 Bucket.new)).length + 1 = t.m_filledCount := by
    rw [h.count, hperm2.length_eq, List.length_cons]
  have hload := h.load
  have hW : (2:Nat) ^ 47 < WordSize := by unfold WordSize; norm_num
  have hcnt2 : (t.m_filledCount + WordSize - 1) % WordSize
      = (elems (b1.set cur1 Bucket.new)).length := by
    have : t.m_filledCount + WordSize - 1 = (t.m_filledCount - 1) + WordSize := by omega
    rw [this, Nat.add_mod_right, Nat.mod_eq_of_lt (by omega)]
    omega
  refine ⟨{ m_buckets := b1.set cur1 Bucket.new,
            m_filledCount := (t.m_filledCount + WordSize - 1) % WordSize }, ret, ?_, ?_,
          hlen2, hperm2, by rw [hcnt2]; exact hcnt, hr1, hr2⟩
  · unfold erase
    simp only [hb, hrun, hg1, setEmpty_eq_new, hret]
  · refine ⟨by rw [hlen2]; exact hwf2, by rw [hlen2]; exact hrh2, ?_, hcnt2, ?_⟩
    · have := ((hperm2.map m_getKey).nodup_iff).1 h.nodup
      rw [List.map_cons, List.nodup_cons] at this
      exact this.2
    · show 10 * ((t.m_filledCount + WordSize - 1) % WordSize)
        ≤ 7 * ((b1.set cur1 Bucket.new).length - 1)
      rw [hcnt2, hlen2]; omega

end Deletion

end flat_hash


namespace flat_hash

open hash_table

section Growth

variable {V K : Type} {m_getKey : V → K} {m_hash : K → Nat}

/-! ## The doubling loop -/

theorem growLoop_zero {n : Nat} (hn : 0 < n) : ∀ fuel, growLoop n fuel 0 = none := by
  intro fuel
  induction fuel with
  | zero => rfl
  | succ f ih =>
    rw [growLoop, if_pos (by omega)]
    exact ih

theorem growLoop_noop {n c : Nat} (h : 10 * n ≤ 7 * c) (fuel : Nat) :
    growLoop n (fuel + 1) c = some c := by
  rw [growLoop, if_neg (by omega)]

theorem two_pow_lt_WordSize {k : Nat} (hk : k ≤ 63) : 2 ^ k < WordSize := by
  unfold WordSize
  exact Nat.pow_lt_pow_right (by norm_num) (by omega)

/-- What the doubling loop returns: the first capacity of the form
`2 ^ k * 2 ^ j` that satisfies the load bound. -/
theorem growLoop_spec {n : Nat} :
    ∀ (fuel k c : Nat), k ≤ 63 → growLoop n fuel (2 ^ k) = some c →
      ∃ j, c = 2 ^ (k + j) ∧ k + j ≤ 63 ∧ 10 * n ≤ 7 * c ∧
        ∀ i, i < j → 10 * n > 7 * 2 ^ (k + i) := by
  intro fuel
  induction fuel with
  | zero => intro k c _ h; exact Option.noConfusion h
  | succ f ih =>
    intro k c hk h
    rw [growLoop] at h
    by_cases hg : 10 * n > 7 * 2 ^ k
    · rw [if_pos hg] at h
      by_cases hk63 : k = 63
      · subst hk63
        have hz : 2 ^ 63 * 2 % WordSize = 0 := by unfold WordSize; norm_num
        rw [hz, growLoop_zero (by omega)] at h
        exact Option.noConfusion h
      · have hz : 2 ^ k * 2 % WordSize = 2 ^ (k + 1) := by
          rw [← Nat.pow_succ]
          exact Nat.mod_eq_of_lt (two_pow_lt_WordSize (by omega))
        rw [hz] at h
        obtain ⟨j, hc, hkj, hle, hmin⟩ := ih (k + 1) c (by omega) h
        refine ⟨j + 1, by rw [hc]; congr 1; omega, by omega, hle, ?_⟩
        intro i hi
        rcases Nat.eq_zero_or_pos i with h0 | h0
        · subst h0; exact hg
        · have := hmin (i - 1) (by omega)
          have e : k + 1 + (i - 1) = k + i := by omega
          rw [e] at this; exact this
    · rw [if_neg hg] at h
      refine ⟨0, (Option.some.inj h).symm, by omega, ?_, fun i hi => by omega⟩
      rw [← Option.some.inj h]; omega

/-- The doubling loop returns after at most one doubling when twice the
capacity satisfies the load bound. -/
theorem growLoop_one_step {n k : Nat} (hk : k < 63) (h : 10 * n ≤ 7 * 2 ^ (k + 1))
    (fuel : Nat) :
    growLoop n (fuel + 2) (2 ^ k) = some (2 ^ k) ∨
      growLoop n (fuel + 2) (2 ^ k) = some (2 ^ (k + 1)) := by
  by_cases hg : 10 * n > 7 * 2 ^ k
  · right
    have hz : 2 ^ k * 2 % WordSize = 2 ^ (k + 1) := by
      rw [← Nat.pow_succ]
      exact Nat.mod_eq_of_lt (two_pow_lt_WordSize (by omega))
    rw [growLoop, if_pos hg, hz, growLoop_noop h]
  · left
    exact growLoop_noop (by omega) _

/-! ## The freshly allocated array -/

theorem fresh_getElem?_lt (n : Nat) {i : Nat} (hi : i < n) :
    (List.replicate n (Bucket.new : Bucket V) ++ [Bucket.setEnd Bucket.new])[i]?
      = some Bucket.new := by
  rw [List.getElem?_append_left (by rw [List.length_replicate]; exact hi),
    List.getElem?_replicate, if_pos hi]

theorem fresh_getElem?_last (n : Nat) :
    (List.replicate n (Bucket.new : Bucket V) ++ [Bucket.setEnd Bucket.new])[n]?
      = some (Bucket.setEnd Bucket.new) := by
  rw [List.getElem?_append_right (by rw [List.length_replicate])]
  simp

theorem fresh_length (n : Nat) :
    (List.replicate n (Bucket.new : Bucket V) ++ [Bucket.setEnd Bucket.new]).length = n + 1 := by
  simp

theorem elems_fresh (n : Nat) :
    elems (List.replicate n (Bucket.new : Bucket V) ++ [Bucket.setEnd Bucket.new]) = [] := by
  unfold elems
  rw [List.filterMap_eq_nil_iff]
  intro b hb
  rw [List.mem_append] at hb
  rcases hb with hb | hb
  · rw [List.eq_of_mem_replicate hb]; exact valuePtr_new
  · rw [List.mem_singleton] at hb
    rw [hb]; exact valuePtr_setEnd _

theorem dd_of_not_mem {cap : Nat} {buckets : List (Bucket V)} (h : elems buckets = []) (i : Nat) :
    dd m_getKey m_hash cap buckets i = 0 := by
  unfold dd
  cases hb : buckets[i]? with
  | none => rfl
  | some b =>
    cases hv : b.valuePtr with
    | none => simp only [hv]
    | some v =>
      have := mem_elems_of_getElem? hb hv
      rw [h] at this
      exact absurd this (List.not_mem_nil v)

/-- The table `checkCapacity` starts the re-insertion from. -/
theorem alloc_fresh {k : Nat} (hk3 : 3 ≤ k) (hk : k ≤ 47) :
    Alloc m_getKey m_hash
      { m_buckets := List.replicate (2 ^ k) (Bucket.new : Bucket V) ++ [Bucket.setEnd Bucket.new],
        m_filledCount := 0 } := by
  have hl := fresh_length (V := V) (2 ^ k)
  have hc : (List.replicate (2 ^ k) (Bucket.new : Bucket V)
      ++ [Bucket.setEnd Bucket.new]).length - 1 = 2 ^ k := by
    rw [hl]; exact Nat.add_sub_cancel _ _
  refine ⟨⟨⟨k, hk3, hk, hc⟩, ?_, ?_, ?_⟩, ?_, ?_, ?_, ?_⟩
  · show _ = _ - 1 + 1
    rw [hc, hl]
  · intro i hi
    left
    apply fresh_getElem?_lt
    rw [← hc]; exact hi
  · show (List.replicate (2 ^ k) (Bucket.new : Bucket V) ++ [Bucket.setEnd Bucket.new])[_]? = _
    rw [hc]; exact fresh_getElem?_last _
  · intro i _
    rw [dd_of_not_mem (elems_fresh _), dd_of_not_mem (elems_fresh _)]; omega
  · show ((elems (List.replicate (2 ^ k) (Bucket.new : Bucket V)
      ++ [Bucket.setEnd Bucket.new])).map m_getKey).Nodup
    rw [elems_fresh]; exact List.nodup_nil
  · show 0 = (elems (List.replicate (2 ^ k) (Bucket.new : Bucket V)
      ++ [Bucket.setEnd Bucket.new])).length
    rw [elems_fresh]; rfl
  · show 10 * 0 ≤ _
    omega

end Growth

end flat_hash


namespace flat_hash

open hash_table

section InsertSpec

variable {V K : Type} {m_getKey : V → K} {m_hash : K → Nat}

/-- The probe walk of `doInsert` on an allocated table with room for one more element. -/
theorem doInsertWalk_spec [DecidableEq K] : InsertOK m_getKey m_hash (doInsertWalk m_getKey m_hash) := by
  intro t v h hroom
  have hwf := h.wf
  have h8 := hwf.cap_pos
  have ht0 : m_hash (m_getKey v) % (t.m_buckets.length - 1) < t.m_buckets.length - 1 :=
    Nat.mod_lt _ (by omega)
  have htb : hashBucket t.m_buckets ((m_hash (m_getKey v) % WordSize) ||| FilledHashBit)
      = m_hash (m_getKey v) % (t.m_buckets.length - 1) := hashBucket_hashWord hwf v
  unfold doInsertWalk
  simp only [htb]
  by_cases hex : ∃ y, y ∈ elems t.m_buckets ∧ m_getKey y = m_getKey v
  · obtain ⟨y, hy, hk⟩ := hex
    obtain ⟨i, b, hb, hv⟩ := exists_of_mem_elems hy
    obtain ⟨hi, hbv⟩ := occupied_filled hwf hb hv
    subst hbv
    have hdl : dist (t.m_buckets.length - 1) (m_hash (m_getKey y) % (t.m_buckets.length - 1)) i
        < t.m_buckets.length - 1 := dist_lt (by omega)
    obtain ⟨r, z, hrun, hr, hz, hkz⟩ :=
      doInsertLoop_present hwf h.rh hi hb v hk
        (dist (t.m_buckets.length - 1) (m_hash (m_getKey y) % (t.m_buckets.length - 1)) i) 0
        (m_hash (m_getKey v) % (t.m_buckets.length - 1)) t.m_buckets.length
        (Nat.zero_add _) ht0 (by rw [hk]; exact dist_self ht0) (by omega)
    refine ⟨(t, r, false), ?_, rfl, h, hr, fun hc => Bool.noConfusion hc,
      fun _ => ⟨rfl, z, hz, hkz⟩⟩
    have : doInsertLoop m_getKey t.m_buckets.length t.m_buckets v
        ((m_hash (m_getKey v) % WordSize) ||| FilledHashBit)
        (m_hash (m_getKey v) % (t.m_buckets.length - 1))
        (m_hash (m_getKey v) % (t.m_buckets.length - 1)) NPos
        = some (t.m_buckets, r, false) := hrun
    rw [this]
  · have habs : ∀ y, y ∈ elems t.m_buckets → m_getKey y ≠ m_getKey v :=
      fun y hy hk => hex ⟨y, hy, hk⟩
    obtain ⟨e, he, hempty⟩ := exists_empty hwf (by rw [← h.count]; exact h.load)
    have hde : dist (t.m_buckets.length - 1) (m_hash (m_getKey v) % (t.m_buckets.length - 1)) e
        < t.m_buckets.length - 1 := dist_lt (by omega)
    have hnd : ((v :: elems t.m_buckets).map m_getKey).Nodup := by
      rw [List.map_cons, List.nodup_cons]
      refine ⟨?_, h.nodup⟩
      intro hmem
      obtain ⟨y, hy, hk⟩ := List.mem_map.1 hmem
      exact habs y hy hk
    obtain ⟨b1, pos, hrun, hwf1, hrh1, hperm, hpos, hhold⟩ :=
      doInsertLoop_absent v (m_hash (m_getKey v) % (t.m_buckets.length - 1)) e ht0 he
        (dist (t.m_buckets.length - 1) (m_hash (m_getKey v) % (t.m_buckets.length - 1)) e)
        t.m_buckets.length t.m_buckets v
        (m_hash (m_getKey v) % (t.m_buckets.length - 1)) NPos hwf h.rh hempty hnd ht0
        (by rw [dist_self ht0]; exact Nat.zero_add _) (by omega) (Nat.le_refl _)
        (by intro i _ _; rw [dist_self ht0]; exact Nat.zero_le _) (Or.inl ⟨rfl, rfl⟩)
    have hlen1 : b1.length = t.m_buckets.length := by rw [hwf1.len]; omega
    have : doInsertLoop m_getKey t.m_buckets.length t.m_buckets v
        ((m_hash (m_getKey v) % WordSize) ||| FilledHashBit)
        (m_hash (m_getKey v) % (t.m_buckets.length - 1))
        (m_hash (m_getKey v) % (t.m_buckets.length - 1)) NPos
        = some (b1, pos, true) := hrun
    rw [this]
    refine ⟨_, rfl, hlen1, ?_, hpos, fun _ => ⟨habs, hperm, hhold, rfl⟩,
      fun hc => Bool.noConfusion hc⟩
    refine ⟨?_, ?_, ?_, ?_, ?_⟩
    · show WF m_getKey m_hash (b1.length - 1) b1
      rw [hlen1]; exact hwf1
    · show RH m_getKey m_hash (b1.length - 1) b1
      rw [hlen1]; exact hrh1
    · exact ((hperm.map m_getKey).nodup_iff).2 hnd
    · show t.m_filledCount + 1 = (elems b1).length
      rw [hperm.length_eq, List.length_cons, h.count]
    · show 10 * (t.m_filledCount + 1) ≤ 7 * (b1.length - 1)
      rw [hlen1]; exact hroom

/-- The call `checkCapacity(additionalCapacity)` returns the table untouched when the
load bound already holds for the requested number of elements. -/
theorem checkCapacityWith_noop {ins : hash_table V → V → Option (hash_table V × Nat × Bool)}
    {t : hash_table V} (h : Alloc m_getKey m_hash t) {add : Nat}
    (hroom : 10 * ((t.m_filledCount + add) % WordSize) ≤ 7 * (t.m_buckets.length - 1)) :
    checkCapacityWith ins t add = some t := by
  have hwf := h.wf
  have h8 := hwf.cap_pos
  have hle := hwf.cap_le
  have hne : t.m_buckets.isEmpty = false := by
    cases hb : t.m_buckets with
    | nil => rw [hb] at h8; simp at h8
    | cons a l => rfl
  have hW : (2:Nat) ^ 47 < WordSize := by unfold WordSize; norm_num
  have hm : (t.m_buckets.length + WordSize - 1) % WordSize = t.m_buckets.length - 1 := by
    have : t.m_buckets.length + WordSize - 1 = (t.m_buckets.length - 1) + WordSize := by omega
    rw [this, Nat.add_mod_right, Nat.mod_eq_of_lt (by omega)]
  unfold checkCapacityWith
  simp only [hne, Bool.false_eq_true, not_false_eq_true, if_true]
  rw [growLoop_noop hroom]
  simp only [hm, if_true]

/-- With `checkCapacity(1)` a no-op, `doInsert` is its probe walk. -/
theorem doInsert_noGrow [DecidableEq K] (depth : Nat) :
    InsertOK m_getKey m_hash (doInsert m_getKey m_hash (depth + 1)) := by
  intro t v h hroom
  have hle := h.wf.cap_le
  have hW : (2:Nat) ^ 47 < WordSize := by unfold WordSize; norm_num
  have hload := h.load
  have hmod : (t.m_filledCount + 1) % WordSize = t.m_filledCount + 1 :=
    Nat.mod_eq_of_lt (by omega)
  rw [doInsert, checkCapacityWith_noop h (by rw [hmod]; exact hroom)]
  exact doInsertWalk_spec t v h hroom

/-- The re-insertion loop of `checkCapacity`: every element of the old array is
inserted, none is reported as a duplicate, and no nested reallocation occurs. -/
theorem foldlM_insert {ins : hash_table V → V → Option (hash_table V × Nat × Bool)}
    (hins : InsertOK m_getKey m_hash ins) :
    ∀ (l : List (Bucket V)) (acc : hash_table V), Alloc m_getKey m_hash acc →
      ((elems acc.m_buckets ++ elems l).map m_getKey).Nodup →
      10 * (acc.m_filledCount + (elems l).length) ≤ 7 * (acc.m_buckets.length - 1) →
      ∃ t1, l.foldlM
          (fun (acc : hash_table V) (entry : Bucket V) =>
            match entry.valuePtr with
            | some v => (ins acc v).map (fun r => r.1)
            | none => some acc) acc = some t1 ∧
        Alloc m_getKey m_hash t1 ∧ t1.m_buckets.length = acc.m_buckets.length ∧
        (elems t1.m_buckets).Perm (elems acc.m_buckets ++ elems l) := by
  intro l
  induction l with
  | nil =>
    intro acc h _ _
    refine ⟨acc, rfl, h, rfl, ?_⟩
    simp [elems]
  | cons b l ih =>
    intro acc h hnd hroom
    rw [List.foldlM_cons]
    cases hv : b.valuePtr with
    | none =>
      have he : elems (b :: l) = elems l := by
        simp only [elems, List.filterMap_cons, hv]
      rw [he] at hnd hroom
      obtain ⟨t1, hrun, h1, hl1, hp1⟩ := ih acc h hnd hroom
      refine ⟨t1, ?_, h1, hl1, by rw [he]; exact hp1⟩
      simp only [Option.bind_eq_bind, Option.some_bind]
      exact hrun
    | some v =>
      have he : elems (b :: l) = v :: elems l := by
        simp only [elems, List.filterMap_cons, hv]
      rw [he] at hnd hroom
      rw [List.length_cons] at hroom
      obtain ⟨r, hr, hlen, halloc, _, htrue, hfalse⟩ := hins acc v h (by omega)
      have hflag : r.2.2 = true := by
        cases hb : r.2.2 with
        | true => rfl
        | false =>
          obtain ⟨_, y, hy, hk⟩ := hfalse hb
          have hyin : y ∈ elems acc.m_buckets :=
            mem_elems_of_getElem? hy (valuePtr_filledBucket y)
          rw [List.map_append, List.map_cons] at hnd
          have := (List.nodup_append.1 hnd).2.2
          exact absurd (List.mem_cons_self _ _)
            (fun hmem => this (List.mem_map_of_mem m_getKey hyin) (hk ▸ hmem))
      obtain ⟨_, hperm, _, hcnt⟩ := htrue hflag
      have hnd1 : ((elems r.1.m_buckets ++ elems l).map m_getKey).Nodup := by
        have hp : (elems r.1.m_buckets ++ elems l).Perm (elems acc.m_buckets ++ v :: elems l) :=
          (hperm.append_right _).trans (List.perm_middle.symm)
        exact ((hp.map m_getKey).nodup_iff).2 hnd
      obtain ⟨t1, hrun, h1, hl1, hp1⟩ := ih r.1 halloc hnd1 (by rw [hcnt, hlen]; omega)
      refine ⟨t1, ?_, h1, hl1.trans hlen, ?_⟩
      · simp only [hr, Option.map_some', Option.bind_eq_bind, Option.some_bind]
        exact hrun
      · rw [he]
        exact hp1.trans ((hperm.append_right _).trans (List.perm_middle.symm))

end InsertSpec

end flat_hash


namespace flat_hash

open hash_table

section Capacity

variable {V K : Type} {m_getKey : V → K} {m_hash : K → Nat}

theorem Inv.nodup {t : hash_table V} (h : Inv m_getKey m_hash t) :
    ((elems t.m_buckets).map m_getKey).Nodup := by
  rcases h with ⟨h0, _⟩ | h
  · rw [h0]; exact List.nodup_nil
  · exact h.nodup

theorem Inv.count {t : hash_table V} (h : Inv m_getKey m_hash t) :
    t.m_filledCount = (elems t.m_buckets).length := by
  rcases h with ⟨h0, h1⟩ | h
  · rw [h0, h1]; rfl
  · exact h.count

theorem Alloc.ne_nil {t : hash_table V} (h : Alloc m_getKey m_hash t) : t.m_buckets ≠ [] := by
  intro h0
  have := h.wf.cap_pos
  rw [h0] at this
  simp at this

theorem Alloc.isEmpty {t : hash_table V} (h : Alloc m_getKey m_hash t) :
    t.m_buckets.isEmpty = false := by
  cases hb : t.m_buckets with
  | nil => exact absurd hb h.ne_nil
  | cons a l => rfl

theorem Alloc.wrap_len {t : hash_table V} (h : Alloc m_getKey m_hash t) :
    (t.m_buckets.length + WordSize - 1) % WordSize = t.m_buckets.length - 1 := by
  have hle := h.wf.cap_le
  have h8 := h.wf.cap_pos
  have hW : (2:Nat) ^ 47 < WordSize := by unfold WordSize; norm_num
  have : t.m_buckets.length + WordSize - 1 = (t.m_buckets.length - 1) + WordSize := by omega
  rw [this, Nat.add_mod_right, Nat.mod_eq_of_lt (by omega)]

/-- The capacity the doubling loop of `checkCapacity` starts from. -/
theorem Inv.start {t : hash_table V} (h : Inv m_getKey m_hash t) :
    ∃ k, 3 ≤ k ∧ k ≤ 47 ∧
      (if ¬ t.m_buckets.isEmpty then t.m_buckets.length - 1 else MinCapacity) = 2 ^ k ∧
      10 * t.m_filledCount ≤ 7 * 2 ^ k := by
  rcases h with ⟨h0, h1⟩ | h
  · refine ⟨3, by omega, by omega, ?_, ?_⟩
    · rw [h0]; rfl
    · rw [h1]; omega
  · obtain ⟨k, hk3, hk, hcap⟩ := h.wf.pow
    refine ⟨k, hk3, hk, ?_, ?_⟩
    · rw [h.isEmpty]; simpa using hcap
    · rw [← hcap]; exact h.load

/-- The early `return` of `checkCapacity` is taken only by an allocated table
whose capacity the doubling loop has left unchanged. -/
theorem Inv.early_return {t : hash_table V} (h : Inv m_getKey m_hash t) {m : Nat} (hm : m ≤ 63)
    (he : 2 ^ m = (t.m_buckets.length + WordSize - 1) % WordSize) :
    Alloc m_getKey m_hash t ∧ 2 ^ m = t.m_buckets.length - 1 := by
  rcases h with ⟨h0, _⟩ | h
  · rw [h0] at he
    have h1 : ([] : List (Bucket V)).length + WordSize - 1 = WordSize - 1 := by simp
    rw [h1, Nat.mod_eq_of_lt (by unfold WordSize; norm_num)] at he
    have h2 : 2 ^ m ≤ 2 ^ 63 := Nat.pow_le_pow_right (by norm_num) hm
    have h3 : (2:Nat) ^ 63 < WordSize - 1 := by unfold WordSize; norm_num
    omega
  · refine ⟨h, ?_⟩
    have hle := h.wf.cap_le
    have h8 := h.wf.cap_pos
    have hW : (2:Nat) ^ 47 < WordSize := by unfold WordSize; norm_num
    have : t.m_buckets.length + WordSize - 1 = (t.m_buckets.length - 1) + WordSize := by omega
    rw [this, Nat.add_mod_right, Nat.mod_eq_of_lt (by omega)] at he
    exact he

theorem pow_le_of_succ_le_MaxBuckets {m : Nat} (h : 2 ^ m + 1 ≤ MaxBuckets) : m ≤ 47 := by
  by_contra hc
  have : (2:Nat) ^ 48 ≤ 2 ^ m := Nat.pow_le_pow_right (by norm_num) (by omega)
  unfold MaxBuckets at h
  omega

/-- The reallocating branch of `checkCapacity`: a fresh array of the new
capacity that receives every element of the old one. -/
theorem rehash_spec {ins : hash_table V → V → Option (hash_table V × Nat × Bool)}
    (hins : InsertOK m_getKey m_hash ins) {t : hash_table V} (h : Inv m_getKey m_hash t)
    {m : Nat} (hm3 : 3 ≤ m) (hm : m ≤ 47) (hload : 10 * t.m_filledCount ≤ 7 * 2 ^ m) :
    ∃ t1, t.m_buckets.foldlM
        (fun (acc : hash_table V) (entry : Bucket V) =>
          match entry.valuePtr with
          | some v => (ins acc v).map (fun r => r.1)
          | none => some acc)
        { m_buckets := List.replicate (2 ^ m) Bucket.new ++ [Bucket.setEnd Bucket.new],
          m_filledCount := 0 } = some t1 ∧
      Alloc m_getKey m_hash t1 ∧ t1.m_buckets.length = 2 ^ m + 1 ∧
      (elems t1.m_buckets).Perm (elems t.m_buckets) ∧
      t1.m_filledCount = t.m_filledCount := by
  have hfresh : Alloc m_getKey m_hash
      { m_buckets := List.replicate (2 ^ m) (Bucket.new : Bucket V) ++ [Bucket.setEnd Bucket.new],
        m_filledCount := 0 } := alloc_fresh hm3 hm
  obtain ⟨t1, hrun, h1, hl1, hp1⟩ := foldlM_insert hins t.m_buckets _ hfresh
    (by
      show ((elems (List.replicate (2 ^ m) (Bucket.new : Bucket V)
        ++ [Bucket.setEnd Bucket.new]) ++ elems t.m_buckets).map m_getKey).Nodup
      rw [elems_fresh, List.nil_append]; exact h.nodup)
    (by
      show 10 * (0 + (elems t.m_buckets).length)
        ≤ 7 * ((List.replicate (2 ^ m) (Bucket.new : Bucket V)
          ++ [Bucket.setEnd Bucket.new]).length - 1)
      rw [fresh_length, ← h.count, Nat.add_sub_cancel]; omega)
  have hp2 : (elems t1.m_buckets).Perm (elems t.m_buckets) := by
    have : elems (List.replicate (2 ^ m) (Bucket.new : Bucket V)
        ++ [Bucket.setEnd Bucket.new]) ++ elems t.m_buckets = elems t.m_buckets := by
      rw [elems_fresh, List.nil_append]
    rw [← this]; exact hp1
  refine ⟨t1, hrun, h1, ?_, hp2, ?_⟩
  · rw [hl1]; exact fresh_length _
  · rw [h1.count, hp2.length_eq, ← h.count]

/-- The call `checkCapacity(additionalCapacity)` when it returns: the table is allocated
and keeps its invariant, its elements and its size; the load bound holds for
the requested number of elements; the capacity is the starting capacity times
the least power of two for which it does. -/
theorem checkCapacityWith_some {ins : hash_table V → V → Option (hash_table V × Nat × Bool)}
    (hins : InsertOK m_getKey m_hash ins) {t : hash_table V} (h : Inv m_getKey m_hash t)
    {add : Nat} {t1 : hash_table V} (hrun : checkCapacityWith ins t add = some t1) :
    Alloc m_getKey m_hash t1 ∧ (elems t1.m_buckets).Perm (elems t.m_buckets) ∧
      t1.m_filledCount = t.m_filledCount ∧
      10 * ((t.m_filledCount + add) % WordSize) ≤ 7 * (t1.m_buckets.length - 1) ∧
      ∃ k j, (if ¬ t.m_buckets.isEmpty then t.m_buckets.length - 1 else MinCapacity) = 2 ^ k ∧
        t1.m_buckets.length - 1 = 2 ^ (k + j) ∧
        (∀ i, i < j → 10 * ((t.m_filledCount + add) % WordSize) > 7 * 2 ^ (k + i)) ∧
        (j = 0 → t.m_buckets ≠ [] → t1 = t) := by
  obtain ⟨k, hk3, hk, hstart, hload⟩ := h.start
  unfold checkCapacityWith at hrun
  simp only [hstart] at hrun
  cases hg : growLoop ((t.m_filledCount + add) % WordSize) 65 (2 ^ k) with
  | none => rw [hg] at hrun; exact Option.noConfusion hrun
  | some newSize =>
    rw [hg] at hrun
    simp only at hrun
    obtain ⟨j, hns, hkj, hle, hmin⟩ := growLoop_spec 65 k newSize (by omega) hg
    by_cases hret : newSize = (t.m_buckets.length + WordSize - 1) % WordSize
    · rw [if_pos hret] at hrun
      have ht := Option.some.inj hrun
      subst ht
      obtain ⟨ha, hcap⟩ := h.early_return hkj (by rw [← hns]; exact hret)
      refine ⟨ha, List.Perm.refl _, rfl, ?_, k, j, hstart, hcap.symm, hmin, fun _ _ => rfl⟩
      rw [← hcap, ← hns]; exact hle
    · rw [if_neg hret] at hrun
      by_cases hmax : newSize + 1 > MaxBuckets
      · rw [if_pos hmax] at hrun; exact Option.noConfusion hrun
      · rw [if_neg hmax] at hrun
        subst hns
        have hm47 : k + j ≤ 47 := pow_le_of_succ_le_MaxBuckets (by omega)
        have hload2 : 10 * t.m_filledCount ≤ 7 * 2 ^ (k + j) := by
          have : 2 ^ k ≤ 2 ^ (k + j) := Nat.pow_le_pow_right (by norm_num) (by omega)
          omega
        obtain ⟨t2, hrun2, h2, hl2, hp2, hc2⟩ := rehash_spec hins h (by omega) hm47 hload2
        have ht : t2 = t1 := Option.some.inj (hrun2.symm.trans hrun)
        subst ht
        have hcap2 : t2.m_buckets.length - 1 = 2 ^ (k + j) := by
          rw [hl2]; exact Nat.add_sub_cancel _ _
        refine ⟨h2, hp2, hc2, by rw [hcap2]; exact hle, k, j, hstart, hcap2, hmin, ?_⟩
        intro hj0 hne
        subst hj0
        exfalso
        rcases h with ⟨h0, _⟩ | ha
        · exact hne h0
        · apply hret
          rw [ha.wrap_len, Nat.add_zero, ← hstart, ha.isEmpty]
          simp

/-- The call `checkCapacity(additionalCapacity)` returns whenever the doubling loop exits
with a capacity that can be allocated. -/
theorem checkCapacityWith_returns {ins : hash_table V → V → Option (hash_table V × Nat × Bool)}
    (hins : InsertOK m_getKey m_hash ins) {t : hash_table V} (h : Inv m_getKey m_hash t)
    {add k m : Nat}
    (hstart : (if ¬ t.m_buckets.isEmpty then t.m_buckets.length - 1 else MinCapacity) = 2 ^ k)
    (hm3 : 3 ≤ m) (hkm : k ≤ m)
    (hg : growLoop ((t.m_filledCount + add) % WordSize) 65 (2 ^ k) = some (2 ^ m))
    (hmax : 2 ^ m + 1 ≤ MaxBuckets) :
    ∃ t1, checkCapacityWith ins t add = some t1 := by
  obtain ⟨k1, _, _, hstart1, hload⟩ := h.start
  have hkk : k1 = k := Nat.pow_right_injective (Nat.le_refl 2) (hstart1.symm.trans hstart)
  subst hkk
  unfold checkCapacityWith
  simp only [hstart, hg]
  by_cases hret : 2 ^ m = (t.m_buckets.length + WordSize - 1) % WordSize
  · rw [if_pos hret]; exact ⟨t, rfl⟩
  · rw [if_neg hret, if_neg (by omega)]
    have hload2 : 10 * t.m_filledCount ≤ 7 * 2 ^ m := by
      have : 2 ^ k1 ≤ 2 ^ m := Nat.pow_le_pow_right (by norm_num) hkm
      omega
    obtain ⟨t2, hrun2, _⟩ :=
      rehash_spec hins h hm3 (pow_le_of_succ_le_MaxBuckets hmax) hload2
    exact ⟨t2, hrun2⟩

theorem Inv.count_succ_mod {t : hash_table V} (h : Inv m_getKey m_hash t) :
    (t.m_filledCount + 1) % WordSize = t.m_filledCount + 1 := by
  obtain ⟨k, _, hk, _, hload⟩ := h.start
  have h1 : 2 ^ k ≤ 2 ^ 47 := Nat.pow_le_pow_right (by norm_num) hk
  have hW : (2:Nat) ^ 47 < WordSize := by unfold WordSize; norm_num
  exact Nat.mod_eq_of_lt (by omega)

end Capacity

section InsertFull

variable {V K : Type} {m_getKey : V → K} {m_hash : K → Nat} [DecidableEq K]

/-- The call `doInsert(value)` when it returns. -/
theorem doInsert_spec (depth : Nat) {t : hash_table V} (h : Inv m_getKey m_hash t) (v : V)
    {t1 : hash_table V} {pos : Nat} {b : Bool}
    (hrun : doInsert m_getKey m_hash (depth + 2) t v = some (t1, pos, b)) :
    Alloc m_getKey m_hash t1 ∧ pos < t1.m_buckets.length - 1 ∧
    (b = true →
      (∀ y, y ∈ elems t.m_buckets → m_getKey y ≠ m_getKey v) ∧
      (elems t1.m_buckets).Perm (v :: elems t.m_buckets) ∧
      t1.m_buckets[pos]? = some (filledBucket m_getKey m_hash v) ∧
      t1.m_filledCount = t.m_filledCount + 1) ∧
    (b = false →
      (elems t1.m_buckets).Perm (elems t.m_buckets) ∧ t1.m_filledCount = t.m_filledCount ∧
      ∃ y, t1.m_buckets[pos]? = some (filledBucket m_getKey m_hash y) ∧
        m_getKey y = m_getKey v) ∧
    (∃ k j, (if ¬ t.m_buckets.isEmpty then t.m_buckets.length - 1 else MinCapacity) = 2 ^ k ∧
      t1.m_buckets.length - 1 = 2 ^ (k + j) ∧
      (∀ i, i < j → 10 * (t.m_filledCount + 1) > 7 * 2 ^ (k + i)) ∧
      (j = 0 → t.m_buckets ≠ [] → t1.m_buckets.length = t.m_buckets.length)) ∧
    10 * (t.m_filledCount + 1) ≤ 7 * (t1.m_buckets.length - 1) := by
  rw [doInsert] at hrun
  cases hc : checkCapacityWith (doInsert m_getKey m_hash (depth + 1)) t 1 with
  | none => rw [hc] at hrun; exact Option.noConfusion hrun
  | some t2 =>
    rw [hc] at hrun
    simp only at hrun
    obtain ⟨h2, hp2, hc2, hroom, k, j, hstart, hcap, hmin, hj0⟩ :=
      checkCapacityWith_some (doInsert_noGrow depth) h hc
    rw [h.count_succ_mod] at hroom hmin
    obtain ⟨r, hr, hlen, halloc, hpos, htrue, hfalse⟩ :=
      doInsertWalk_spec t2 v h2 (by rw [hc2]; exact hroom)
    rw [hr] at hrun
    have hre := Option.some.inj hrun
    subst hre
    simp only at hlen halloc hpos htrue hfalse
    refine ⟨halloc, by rw [hlen]; exact hpos, ?_, ?_, ⟨k, j, hstart, by rw [hlen]; exact hcap,
      hmin, ?_⟩, by rw [hlen]; exact hroom⟩
    · intro hb
      obtain ⟨habs, hperm, hhold, hcnt⟩ := htrue hb
      refine ⟨?_, hperm.trans (hp2.cons v), hhold, by rw [hcnt, hc2]⟩
      intro y hy
      exact habs y (hp2.symm.subset hy)
    · intro hb
      obtain ⟨heq, y, hy, hk⟩ := hfalse hb
      rw [heq]
      exact ⟨hp2, hc2, y, hy, hk⟩
    · intro hj hne
      rw [hlen, hj0 hj hne]

/-- The call `doInsert(value)` returns when an array of twice the current length can be allocated. -/
theorem doInsert_returns (depth : Nat) {t : hash_table V} (h : Inv m_getKey m_hash t) (v : V)
    (hmem : 2 * t.m_buckets.length ≤ MaxBuckets) :
    ∃ r, doInsert m_getKey m_hash (depth + 2) t v = some r := by
  obtain ⟨k, hk3, hk, hstart, hload⟩ := h.start
  have hpow : 2 ^ (k + 1) = 2 * 2 ^ k := by rw [Nat.pow_succ]; omega
  have h8 : 2 ^ 3 ≤ 2 ^ k := Nat.pow_le_pow_right (by norm_num) hk3
  have hmax : 2 ^ (k + 1) + 1 ≤ MaxBuckets := by
    rcases h with ⟨h0, _⟩ | ha
    · rw [h0] at hstart
      have : k = 3 := Nat.pow_right_injective (Nat.le_refl 2) hstart.symm
      subst this
      unfold MaxBuckets; norm_num
    · rw [ha.isEmpty] at hstart
      simp only [Bool.false_eq_true, not_false_eq_true, if_true] at hstart
      omega
  have hmax0 : 2 ^ k + 1 ≤ MaxBuckets := by omega
  have hstep := growLoop_one_step (n := (t.m_filledCount + 1) % WordSize) (k := k) (by omega)
    (by rw [h.count_succ_mod]; omega) 63
  have hcc : ∃ t2, checkCapacityWith (doInsert m_getKey m_hash (depth + 1)) t 1 = some t2 := by
    rcases hstep with hs | hs
    · exact checkCapacityWith_returns (doInsert_noGrow depth) h hstart hk3 (Nat.le_refl _) hs hmax0
    · exact checkCapacityWith_returns (doInsert_noGrow depth) h hstart (by omega) (by omega) hs hmax
  obtain ⟨t2, hc⟩ := hcc
  obtain ⟨h2, _, hc2, hroom, _⟩ := checkCapacityWith_some (doInsert_noGrow depth) h hc
  rw [h.count_succ_mod] at hroom
  obtain ⟨r, hr, _⟩ := doInsertWalk_spec t2 v h2 (by rw [hc2]; exact hroom)
  exact ⟨r, by rw [doInsert, hc]; exact hr⟩

end InsertFull


end flat_hash


namespace flat_hash

open hash_table

section Clear

variable {V K : Type} {m_getKey : V → K} {m_hash : K → Nat}

/-- The loop of `clear` empties the first `n` buckets and leaves the others. -/
theorem clear_foldl (buckets : List (Bucket V)) :
    ∀ n, n ≤ buckets.length →
      ((List.range n).foldl
        (fun bs i => match bs[i]? with
          | some b => bs.set i b.setEmpty
          | none => bs) buckets).length = buckets.length ∧
      ∀ j, ((List.range n).foldl
        (fun bs i => match bs[i]? with
          | some b => bs.set i b.setEmpty
          | none => bs) buckets)[j]?
        = if j < n then some Bucket.new else buckets[j]? := by
  intro n
  induction n with
  | zero =>
    intro _
    exact ⟨rfl, fun j => by simp⟩
  | succ n ih =>
    intro hn
    obtain ⟨hl, hget⟩ := ih (by omega)
    rw [List.range_succ, List.foldl_append]
    generalize List.foldl
      (fun (bs : List (Bucket V)) i => match bs[i]? with
        | some b => bs.set i b.setEmpty
        | none => bs) buckets (List.range n) = r at hl hget ⊢
    have hn' : n < r.length := by rw [hl]; omega
    simp only [List.foldl_cons, List.foldl_nil, List.getElem?_eq_getElem hn']
    refine ⟨by rw [List.length_set]; exact hl, ?_⟩
    intro j
    by_cases hj : n = j
    · subst hj
      rw [List.getElem?_set_self hn', if_pos (by omega)]
      rfl
    · rw [List.getElem?_set_ne hj, hget j]
      by_cases hjn : j < n
      · rw [if_pos hjn, if_pos (by omega)]
      · rw [if_neg hjn, if_neg (by omega)]

theorem clearLoop_eq {cap : Nat} {buckets : List (Bucket V)}
    (hwf : WF m_getKey m_hash cap buckets) :
    clearLoop buckets = List.replicate cap Bucket.new ++ [Bucket.setEnd Bucket.new] := by
  obtain ⟨hl, hget⟩ := clear_foldl buckets (buckets.length - 1) (by omega)
  have hc : buckets.length - 1 = cap := by rw [hwf.len]; omega
  apply List.ext_getElem?
  intro j
  unfold clearLoop
  refine (hget j).trans ?_
  rw [hc]
  by_cases hj : j < cap
  · rw [if_pos hj, fresh_getElem?_lt cap hj]
  · rw [if_neg hj]
    by_cases hjc : j = cap
    · subst hjc
      rw [hwf.last, fresh_getElem?_last]
    · rw [List.getElem?_eq_none (by rw [hwf.len]; omega),
        List.getElem?_eq_none (by rw [fresh_length]; omega)]

/-- The call `clear()` on an allocated table leaves the freshly allocated array of the same capacity. -/
theorem clear_alloc {t : hash_table V} (h : Alloc m_getKey m_hash t) :
    clear t = { m_buckets := List.replicate (t.m_buckets.length - 1) Bucket.new
                  ++ [Bucket.setEnd Bucket.new],
                m_filledCount := 0 } := by
  unfold clear
  rw [h.isEmpty]
  simp only [Bool.false_eq_true, if_false]
  rw [clearLoop_eq h.wf]

theorem clear_inv {t : hash_table V} (h : Inv m_getKey m_hash t) :
    Inv m_getKey m_hash (clear t) := by
  rcases h with ⟨h0, h1⟩ | ha
  · left
    have : clear t = t := by
      unfold clear
      rw [h0]
      rfl
    rw [this]
    exact ⟨h0, h1⟩
  · right
    rw [clear_alloc ha]
    obtain ⟨k, hk3, hk, hcap⟩ := ha.wf.pow
    rw [hcap]
    exact alloc_fresh hk3 hk

/-- An occupied position exists only in an allocated table. -/
theorem Inv.alloc_of_occupied {t : hash_table V} (h : Inv m_getKey m_hash t) {pos : Nat}
    (ho : Occupied t pos) : Alloc m_getKey m_hash t := by
  rcases h with ⟨h0, _⟩ | ha
  · obtain ⟨b, v, hb, _⟩ := ho
    rw [h0] at hb
    simp at hb
  · exact ha

end Clear

section ReachableInv

variable {V K : Type} {m_getKey : V → K} {m_hash : K → Nat} [DecidableEq K]

theorem insert_eq (t : hash_table V) (v : V) :
    insert m_getKey m_hash t v = doInsert m_getKey m_hash (62 + 2) t v := rfl

theorem insertOK_insert : InsertOK m_getKey m_hash (insert m_getKey m_hash) :=
  doInsert_noGrow 63

theorem insert_inv {t : hash_table V} (h : Inv m_getKey m_hash t) {v : V}
    {r : hash_table V × Nat × Bool} (hrun : insert m_getKey m_hash t v = some r) :
    Alloc m_getKey m_hash r.1 := by
  obtain ⟨t1, pos, b⟩ := r
  rw [insert_eq] at hrun
  exact (doInsert_spec 62 h v hrun).1

theorem checkCapacity_inv {t : hash_table V} (h : Inv m_getKey m_hash t) {add : Nat}
    {t1 : hash_table V} (hrun : checkCapacity m_getKey m_hash t add = some t1) :
    Alloc m_getKey m_hash t1 :=
  (checkCapacityWith_some insertOK_insert h hrun).1

theorem reserve_inv {t : hash_table V} (h : Inv m_getKey m_hash t) {n : Nat}
    {t1 : hash_table V} (hrun : reserve m_getKey m_hash t n = some t1) :
    Inv m_getKey m_hash t1 := by
  unfold reserve at hrun
  by_cases hn : n > t.m_filledCount
  · rw [if_pos hn] at hrun
    exact Or.inr (checkCapacity_inv h hrun)
  · rw [if_neg hn] at hrun
    rw [← Option.some.inj hrun]; exact h

theorem new_inv {n : Nat} {t : hash_table V} (hrun : hash_table.new m_getKey m_hash n = some t) :
    Inv m_getKey m_hash t := by
  unfold hash_table.new at hrun
  have h0 : Inv m_getKey m_hash ({ m_buckets := [], m_filledCount := 0 } : hash_table V) :=
    Or.inl ⟨rfl, rfl⟩
  by_cases hn : n ≠ 0
  · rw [if_pos hn] at hrun
    exact Or.inr (checkCapacity_inv h0 hrun)
  · rw [if_neg hn] at hrun
    rw [← Option.some.inj hrun]; exact h0

/-- Every reachable table satisfies the table invariant. -/
theorem Reachable.inv {t : hash_table V} (h : Reachable m_getKey m_hash t) :
    Inv m_getKey m_hash t := by
  induction h with
  | construct n t hrun => exact new_inv hrun
  | insert t v t1 pos b _ hrun ih => exact Or.inr (insert_inv ih hrun)
  | erase t pos t1 ret _ ho hrun ih =>
    obtain ⟨b, v, hb, hv⟩ := ho
    obtain ⟨t2, ret2, hrun2, h2, _⟩ := erase_spec (ih.alloc_of_occupied ⟨b, v, hb, hv⟩) hb hv
    rw [hrun2] at hrun
    have := Option.some.inj hrun
    rw [Prod.mk.injEq] at this
    rw [← this.1]
    exact Or.inr h2
  | clear t _ ih => exact clear_inv ih
  | reserve t n t1 _ hrun ih => exact reserve_inv ih hrun

end ReachableInv

end flat_hash


namespace flat_hash

open hash_table

section TableLevel

variable {V K : Type} {m_getKey : V → K} {m_hash : K → Nat}

theorem hashBucket_word {cap : Nat} {buckets : List (Bucket V)}
    (h : WF m_getKey m_hash cap buckets) (x : Nat) :
    hashBucket buckets ((x % WordSize) ||| FilledHashBit) = x % cap := by
  rw [hashBucket_eq h]
  obtain ⟨k, _, hk, hcap⟩ := h.pow
  unfold FilledHashBit
  rw [hcap, or_pow_mod_pow _ 63 k (by omega)]
  have : (2:Nat) ^ k ∣ WordSize := Nat.pow_dvd_pow 2 (by omega)
  exact Nat.mod_mod_of_dvd _ this

theorem holdsAt_of_filled {t : hash_table V} {pos : Nat} {v : V}
    (h : t.m_buckets[pos]? = some (filledBucket m_getKey m_hash v)) : HoldsAt t pos v :=
  ⟨_, h, valuePtr_filledBucket v⟩

theorem HoldsAt.stored {t : hash_table V} {pos : Nat} {v : V} (h : HoldsAt t pos v) :
    Stored t v := by
  obtain ⟨b, hb, hv⟩ := h
  exact mem_elems_of_getElem? hb hv

/-- In a table with pairwise distinct keys a stored element is determined by its key. -/
theorem eq_of_key_eq {l : List V} (hnd : (l.map m_getKey).Nodup) {x y : V}
    (hx : x ∈ l) (hy : y ∈ l) (hk : m_getKey x = m_getKey y) : x = y :=
  List.inj_on_of_nodup_map hnd hx hy hk

variable [DecidableEq K]

/-- The call `find(key)` returns; the result is `end()` exactly when no stored element
has the key, and otherwise a position that holds an element with the key. -/
theorem find_spec {t : hash_table V} (h : Inv m_getKey m_hash t) (key : K) :
    ∃ r, find m_getKey m_hash t key = some r ∧
      (r = t.end_ ↔ ¬ ∃ y, Stored t y ∧ m_getKey y = key) ∧
      (r ≠ t.end_ → ∃ y, HoldsAt t r y ∧ m_getKey y = key) := by
  rcases h with ⟨h0, _⟩ | ha
  · refine ⟨t.end_, ?_, ?_, fun hc => absurd rfl hc⟩
    · unfold find; rw [h0]; rfl
    · refine ⟨fun _ => ?_, fun _ => rfl⟩
      rintro ⟨y, hy, _⟩
      unfold Stored at hy
      rw [h0] at hy
      exact absurd hy (List.not_mem_nil y)
  · have hwf := ha.wf
    have h8 := hwf.cap_pos
    have hend : t.end_ = t.m_buckets.length - 1 := rfl
    have ht : m_hash key % (t.m_buckets.length - 1) < t.m_buckets.length - 1 :=
      Nat.mod_lt _ (by omega)
    obtain ⟨e, he, hempty⟩ := exists_empty hwf (by rw [← ha.count]; exact ha.load)
    have hde : dist (t.m_buckets.length - 1) (m_hash key % (t.m_buckets.length - 1)) e
        < t.m_buckets.length - 1 := dist_lt (by omega)
    have hfind : find m_getKey m_hash t key
        = findLoop m_getKey t.m_buckets key ((m_hash key % WordSize) ||| FilledHashBit)
            (m_hash key % (t.m_buckets.length - 1)) t.m_buckets.length
            (m_hash key % (t.m_buckets.length - 1)) := by
      unfold find
      rw [ha.isEmpty]
      simp only [Bool.false_eq_true, if_false, hashBucket_word hwf]
    obtain ⟨r, hr, hres⟩ := findLoop_returns hwf key ((m_hash key % WordSize) ||| FilledHashBit)
      (m_hash key % (t.m_buckets.length - 1)) ht he hempty
      (dist (t.m_buckets.length - 1) (m_hash key % (t.m_buckets.length - 1)) e)
      (m_hash key % (t.m_buckets.length - 1)) t.m_buckets.length ht
      (by rw [dist_self ht]; exact Nat.zero_add _) (by omega)
    refine ⟨r, hfind.trans hr, ?_, ?_⟩
    · constructor
      · intro hre
        rintro ⟨y, hy, hk⟩
        obtain ⟨i, b, hb, hv⟩ := exists_of_mem_elems hy
        obtain ⟨hi, hbv⟩ := occupied_filled hwf hb hv
        subst hbv
        subst hk
        have hdl : dist (t.m_buckets.length - 1)
            (m_hash (m_getKey y) % (t.m_buckets.length - 1)) i
            < t.m_buckets.length - 1 := dist_lt (by omega)
        obtain ⟨r2, z, hr2, hlt, _, _⟩ := findLoop_present hwf ha.rh hi hb
          (dist (t.m_buckets.length - 1) (m_hash (m_getKey y) % (t.m_buckets.length - 1)) i) 0
          (m_hash (m_getKey y) % (t.m_buckets.length - 1)) t.m_buckets.length
          (Nat.zero_add _) ht (dist_self ht) (by omega)
        have : findLoop m_getKey t.m_buckets (m_getKey y)
            ((m_hash (m_getKey y) % WordSize) ||| FilledHashBit)
            (m_hash (m_getKey y) % (t.m_buckets.length - 1)) t.m_buckets.length
            (m_hash (m_getKey y) % (t.m_buckets.length - 1)) = some r2 := hr2
        rw [this] at hr
        have := Option.some.inj hr
        omega
      · intro habs
        rcases hres with hc | ⟨_, y, hy, hk⟩
        · rw [hend]; exact hc
        · exact absurd ⟨y, (holdsAt_of_filled hy).stored, hk⟩ habs
    · intro hne
      rcases hres with hc | ⟨_, y, hy, hk⟩
      · exact absurd (by rw [hend]; exact hc) hne
      · exact ⟨y, holdsAt_of_filled hy, hk⟩

/-- The call `insert(value)` when it returns. -/
theorem insert_spec {t : hash_table V} (h : Inv m_getKey m_hash t) (v : V)
    {t1 : hash_table V} {pos : Nat} {b : Bool}
    (hrun : insert m_getKey m_hash t v = some (t1, pos, b)) :
    Alloc m_getKey m_hash t1 ∧ pos < t1.m_buckets.length - 1 ∧
    (b = true →
      (∀ y, y ∈ elems t.m_buckets → m_getKey y ≠ m_getKey v) ∧
      (elems t1.m_buckets).Perm (v :: elems t.m_buckets) ∧
      t1.m_buckets[pos]? = some (filledBucket m_getKey m_hash v) ∧
      t1.m_filledCount = t.m_filledCount + 1) ∧
    (b = false →
      (elems t1.m_buckets).Perm (elems t.m_buckets) ∧ t1.m_filledCount = t.m_filledCount ∧
      ∃ y, t1.m_buckets[pos]? = some (filledBucket m_getKey m_hash y) ∧
        m_getKey y = m_getKey v) ∧
    (∃ k j, (if ¬ t.m_buckets.isEmpty then t.m_buckets.length - 1 else MinCapacity) = 2 ^ k ∧
      t1.m_buckets.length - 1 = 2 ^ (k + j) ∧
      (∀ i, i < j → 10 * (t.m_filledCount + 1) > 7 * 2 ^ (k + i)) ∧
      (j = 0 → t.m_buckets ≠ [] → t1.m_buckets.length = t.m_buckets.length)) ∧
    10 * (t.m_filledCount + 1) ≤ 7 * (t1.m_buckets.length - 1) := by
  rw [insert_eq] at hrun
  exact doInsert_spec 62 h v hrun

/-- The call `insert(value)` returns when an array of twice the current length can be allocated. -/
theorem insert_returns {t : hash_table V} (h : Inv m_getKey m_hash t) (v : V)
    (hmem : 2 * t.m_buckets.length ≤ MaxBuckets) :
    ∃ r, insert m_getKey m_hash t v = some r :=
  doInsert_returns 62 h v hmem

/-- The flag returned by `insert` is `false` exactly when the key was stored. -/
theorem insert_flag {t : hash_table V} (h : Inv m_getKey m_hash t) (v : V)
    {t1 : hash_table V} {pos : Nat} {b : Bool}
    (hrun : insert m_getKey m_hash t v = some (t1, pos, b)) :
    b = false ↔ ∃ y, Stored t y ∧ m_getKey y = m_getKey v := by
  obtain ⟨_, _, htrue, hfalse, _⟩ := insert_spec h v hrun
  constructor
  · intro hb
    obtain ⟨hperm, _, y, hy, hk⟩ := hfalse hb
    exact ⟨y, hperm.subset ((holdsAt_of_filled hy).stored), hk⟩
  · rintro ⟨y, hy, hk⟩
    cases hb : b with
    | false => rfl
    | true => exact absurd hk ((htrue hb).1 y hy)

/-- A newly constructed table stores nothing. -/
theorem new_elems {n : Nat} {t : hash_table V}
    (hrun : hash_table.new m_getKey m_hash n = some t) : elems t.m_buckets = [] := by
  unfold hash_table.new at hrun
  have h0 : Inv m_getKey m_hash ({ m_buckets := [], m_filledCount := 0 } : hash_table V) :=
    Or.inl ⟨rfl, rfl⟩
  by_cases hn : n ≠ 0
  · rw [if_pos hn] at hrun
    have := (checkCapacityWith_some insertOK_insert h0 hrun).2.1
    exact List.Perm.eq_nil this
  · rw [if_neg hn] at hrun
    rw [← Option.some.inj hrun]; rfl

/-- A sequence of inserts of elements whose keys are pairwise distinct and not
yet stored adds exactly these elements. -/
theorem insertSeq_spec :
    ∀ (vs : List V) (t : hash_table V), Inv m_getKey m_hash t →
      ((elems t.m_buckets ++ vs).map m_getKey).Nodup →
      ∀ t1, insertSeq m_getKey m_hash t vs = some t1 →
        Inv m_getKey m_hash t1 ∧ (elems t1.m_buckets).Perm (elems t.m_buckets ++ vs) := by
  intro vs
  induction vs with
  | nil =>
    intro t h _ t1 hrun
    have : t = t1 := Option.some.inj hrun
    subst this
    exact ⟨h, by rw [List.append_nil]⟩
  | cons v vs ih =>
    intro t h hnd t1 hrun
    unfold insertSeq at hrun
    rw [List.foldlM_cons] at hrun
    cases hi : insert m_getKey m_hash t v with
    | none =>
      rw [hi] at hrun
      exact Option.noConfusion hrun
    | some r =>
      obtain ⟨t2, pos, b⟩ := r
      rw [hi] at hrun
      simp only [Option.map_some', Option.bind_eq_bind, Option.some_bind] at hrun
      obtain ⟨h2, _, htrue, _, _⟩ := insert_spec h v hi
      have hb : b = true := by
        cases hb : b with
        | true => rfl
        | false =>
          obtain ⟨y, hy, hk⟩ := (insert_flag h v hi).1 hb
          rw [List.map_append, List.map_cons] at hnd
          have := (List.nodup_append.1 hnd).2.2
          exact absurd (List.mem_cons_self _ _)
            (fun hmem => this (List.mem_map_of_mem m_getKey hy) (hk ▸ hmem))
      obtain ⟨_, hperm, _, _⟩ := htrue hb
      have hp : (elems t2.m_buckets ++ vs).Perm (elems t.m_buckets ++ v :: vs) :=
        (hperm.append_right _).trans (List.perm_middle.symm)
      obtain ⟨h3, hp3⟩ := ih t2 (Or.inr h2) (((hp.map m_getKey).nodup_iff).2 hnd) t1 hrun
      exact ⟨h3, hp3.trans hp⟩

theorem reachable_insertSeq :
    ∀ (vs : List V) (t : hash_table V), Reachable m_getKey m_hash t →
      ∀ t1, insertSeq m_getKey m_hash t vs = some t1 → Reachable m_getKey m_hash t1 := by
  intro vs
  induction vs with
  | nil =>
    intro t h t1 hrun
    have : t = t1 := Option.some.inj hrun
    subst this
    exact h
  | cons v vs ih =>
    intro t h t1 hrun
    unfold insertSeq at hrun
    rw [List.foldlM_cons] at hrun
    cases hi : insert m_getKey m_hash t v with
    | none =>
      rw [hi] at hrun
      exact Option.noConfusion hrun
    | some r =>
      obtain ⟨t2, pos, b⟩ := r
      rw [hi] at hrun
      simp only [Option.map_some', Option.bind_eq_bind, Option.some_bind] at hrun
      exact ih t2 (Reachable.insert t v t2 pos b h hi) t1 hrun

end TableLevel

end flat_hash


namespace flat_hash

open hash_table

section Iteration

variable {V K : Type} {m_getKey : V → K} {m_hash : K → Nat}

/-- Skipping Empty buckets does not change the elements ahead. -/
theorem elems_drop_skip (buckets : List (Bucket V)) :
    ∀ (n i j : Nat), i + n = j → j ≤ buckets.length →
      (∀ l, i ≤ l → l < j → buckets[l]? = some Bucket.new) →
      elems (buckets.drop i) = elems (buckets.drop j) := by
  intro n
  induction n with
  | zero =>
    intro i j hij _ _
    have : i = j := by omega
    rw [this]
  | succ n ih =>
    intro i j hij hj hnew
    have hi : i < buckets.length := by omega
    have h0 := hnew i (Nat.le_refl _) (by omega)
    obtain ⟨_, hb⟩ := List.getElem?_eq_some.1 h0
    rw [List.drop_eq_getElem_cons hi, hb]
    have : elems ((Bucket.new : Bucket V) :: List.drop (i + 1) buckets)
        = elems (List.drop (i + 1) buckets) := by
      simp only [elems, List.filterMap_cons, valuePtr_new]
    rw [this]
    exact ih (i + 1) j (by omega) hj (fun l h1 h2 => hnew l (by omega) h2)

theorem elems_drop_filled {buckets : List (Bucket V)} {i : Nat} {v : V}
    (h : buckets[i]? = some (filledBucket m_getKey m_hash v)) :
    elems (buckets.drop i) = v :: elems (buckets.drop (i + 1)) := by
  obtain ⟨hi, hb⟩ := List.getElem?_eq_some.1 h
  rw [List.drop_eq_getElem_cons hi, hb]
  simp only [elems, List.filterMap_cons, valuePtr_filledBucket]

theorem elems_drop_last {cap : Nat} {buckets : List (Bucket V)}
    (hwf : WF m_getKey m_hash cap buckets) : elems (buckets.drop cap) = [] := by
  obtain ⟨hi, hb⟩ := List.getElem?_eq_some.1 hwf.last
  rw [List.drop_eq_getElem_cons hi, hb]
  have : List.drop (cap + 1) buckets = [] := List.drop_of_length_le (by rw [hwf.len])
  rw [this]
  simp only [elems, List.filterMap_cons, valuePtr_setEnd, List.filterMap_nil]

/-- Walking with `++` from a valid position reaches `end()`, having visited
exactly the Filled buckets from that position on, in increasing order. -/
theorem walkFrom_spec {t : hash_table V} (ha : Alloc m_getKey m_hash t) :
    ∀ (fuel pos : Nat), pos ≤ t.m_buckets.length - 1 → t.m_buckets.length - 1 - pos < fuel →
      (pos = t.m_buckets.length - 1 ∨
        ∃ v, t.m_buckets[pos]? = some (filledBucket m_getKey m_hash v)) →
      ∃ L, walkFrom t fuel pos = some L ∧
        L.length = (elems (t.m_buckets.drop pos)).length ∧
        (∀ q, q ∈ L → pos ≤ q ∧ ∃ v, t.m_buckets[q]? = some (filledBucket m_getKey m_hash v)) ∧
        L.Nodup ∧
        (∀ q v, pos ≤ q → t.m_buckets[q]? = some (filledBucket m_getKey m_hash v) → q ∈ L) := by
  have hwf := ha.wf
  have h8 := hwf.cap_pos
  intro fuel
  induction fuel with
  | zero => intro pos _ hf; omega
  | succ f ih =>
    intro pos hpos hf hvalid
    rw [walkFrom]
    by_cases hend : pos = t.end_
    · rw [if_pos hend]
      have hpc : pos = t.m_buckets.length - 1 := hend
      refine ⟨[], rfl, ?_, fun q hq => absurd hq (List.not_mem_nil q), List.nodup_nil, ?_⟩
      · rw [hpc, elems_drop_last hwf]; rfl
      · intro q v hq hv
        obtain ⟨hlt, _⟩ := occupied_filled hwf hv (valuePtr_filledBucket v)
        omega
    · rw [if_neg hend]
      have hpc : pos ≠ t.m_buckets.length - 1 := hend
      rcases hvalid with hv | ⟨v, hv⟩
      · exact absurd hv hpc
      · obtain ⟨j, hj, hj1, hj2, hskip, hjv⟩ := scanIterator_spec hwf (pos + 1) (by omega)
        obtain ⟨L, hL, hlen, hmem, hnd, hall⟩ := ih j hj2 (by omega) hjv
        have hnext : t.next pos = some j := hj
        rw [hnext]
        simp only [hL, Option.map_some']
        refine ⟨pos :: L, rfl, ?_, ?_, ?_, ?_⟩
        · rw [List.length_cons, hlen, elems_drop_filled hv, List.length_cons,
            elems_drop_skip t.m_buckets (j - (pos + 1)) (pos + 1) j (by omega)
              (by rw [hwf.len]; omega) hskip]
        · intro q hq
          rcases List.mem_cons.1 hq with hqp | hqL
          · rw [hqp]; exact ⟨Nat.le_refl _, v, hv⟩
          · obtain ⟨h1, h2⟩ := hmem q hqL
            exact ⟨by omega, h2⟩
        · rw [List.nodup_cons]
          refine ⟨fun hin => ?_, hnd⟩
          have := (hmem pos hin).1
          omega
        · intro q w hq hw
          by_cases hqp : q = pos
          · rw [hqp]; exact List.mem_cons_self _ _
          · apply List.mem_cons_of_mem
            apply hall q w _ hw
            by_contra hlt
            have hn := hskip q (by omega) (by omega)
            rw [hn] at hw
            exact filledBucket_ne_new w (Option.some.inj hw).symm

/-- Walking from `begin()` with `++` until `end()` visits every Filled bucket
exactly once, and nothing else. -/
theorem positions_spec {t : hash_table V} (h : Inv m_getKey m_hash t) :
    ∃ L, positions t = some L ∧ L.length = t.m_filledCount ∧
      (∀ q, q ∈ L → ∃ v, HoldsAt t q v) ∧ L.Nodup ∧
      (∀ q v, HoldsAt t q v → q ∈ L) := by
  rcases h with ⟨h0, h1⟩ | ha
  · refine ⟨[], ?_, by rw [h1]; rfl, fun q hq => absurd hq (List.not_mem_nil q),
      List.nodup_nil, ?_⟩
    · unfold positions hash_table.begin
      rw [h0]
      simp [walkFrom]
    · intro q v hq
      obtain ⟨b, hb, _⟩ := hq
      rw [h0] at hb
      simp at hb
  · have hwf := ha.wf
    have h8 := hwf.cap_pos
    obtain ⟨j, hj, _, hj2, hskip, hjv⟩ := scanIterator_spec hwf 0 (by omega)
    obtain ⟨L, hL, hlen, hmem, hnd, hall⟩ :=
      walkFrom_spec ha (t.m_buckets.length + 1) j hj2 (by omega) hjv
    refine ⟨L, ?_, ?_, ?_, hnd, ?_⟩
    · unfold positions hash_table.begin
      rw [ha.isEmpty]
      simp only [Bool.false_eq_true, if_false, hj]
      exact hL
    · rw [hlen, ha.count,
        ← elems_drop_skip t.m_buckets j 0 j (by omega) (by rw [hwf.len]; omega) hskip]
      rfl
    · intro q hq
      obtain ⟨_, v, hv⟩ := hmem q hq
      exact ⟨v, holdsAt_of_filled hv⟩
    · intro q v hq
      obtain ⟨b, hb, hv⟩ := hq
      obtain ⟨_, hbv⟩ := occupied_filled hwf hb hv
      subst hbv
      apply hall q v _ hb
      by_contra hlt
      have hn := hskip q (by omega) (by omega)
      rw [hn] at hb
      exact filledBucket_ne_new v (Option.some.inj hb).symm

end Iteration

section Totality

variable {V K : Type} {m_getKey : V → K} {m_hash : K → Nat} [DecidableEq K]

/-- An `insert` at most doubles the capacity, and after a doubling the bucket
array is at most three buckets per element long. -/
theorem insert_length_le {t : hash_table V} (h : Inv m_getKey m_hash t) (v : V)
    {t1 : hash_table V} {pos : Nat} {b : Bool}
    (hrun : insert m_getKey m_hash t v = some (t1, pos, b)) :
    t1.m_filledCount ≤ t.m_filledCount + 1 ∧
    t1.m_buckets.length ≤ 2 * t.m_buckets.length + 9 ∧
    (t1.m_buckets.length ≤ t.m_buckets.length ∨
      t1.m_buckets.length ≤ 3 * t1.m_filledCount + 9) := by
  obtain ⟨h1, _, htrue, hfalse, ⟨k, j, hstart, hcap, hmin, hj0⟩, hroom⟩ := insert_spec h v hrun
  have h8 := h1.wf.cap_pos
  have hcnt : t.m_filledCount ≤ t1.m_filledCount ∧ t1.m_filledCount ≤ t.m_filledCount + 1 := by
    cases hb : b with
    | true => rw [(htrue hb).2.2.2]; omega
    | false => rw [(hfalse hb).2.1]; omega
  refine ⟨hcnt.2, ?_⟩
  rcases h with ⟨h0, hc0⟩ | ha
  · rw [h0] at hstart
    have hk : k = 3 := Nat.pow_right_injective (Nat.le_refl 2) hstart.symm
    subst hk
    have hj : j = 0 := by
      by_contra hne
      have h2 : 10 * (t.m_filledCount + 1) > 7 * 2 ^ 3 := hmin 0 (by omega)
      rw [hc0] at h2
      norm_num at h2
    subst hj
    have : t1.m_buckets.length - 1 = 8 := by rw [hcap]; norm_num
    exact ⟨by omega, Or.inr (by omega)⟩
  · rw [ha.isEmpty] at hstart
    simp only [Bool.false_eq_true, not_false_eq_true, if_true] at hstart
    by_cases hj : j = 0
    · rw [hj0 hj ha.ne_nil]
      exact ⟨by omega, Or.inl (Nat.le_refl _)⟩
    · have hload := ha.load
      have hj1 : j = 1 := by
        by_contra hne
        have h2 := hmin 1 (by omega)
        have hp : 2 ^ (k + 1) = 2 * 2 ^ k := by rw [Nat.pow_succ]; omega
        rw [hp, ← hstart] at h2
        have hc8 := ha.wf.cap_pos
        omega
      subst hj1
      have h2 : 10 * (t.m_filledCount + 1) > 7 * 2 ^ k := hmin 0 (by omega)
      have hp : 2 ^ (k + 1) = 2 * 2 ^ k := by rw [Nat.pow_succ]; omega
      rw [hp] at hcap
      generalize 2 ^ k = c at hcap h2 hstart
      exact ⟨by omega, Or.inr (by omega)⟩

/-- A sequence of inserts returns when the bucket array it can need fits the
allocation limit twice over. -/
theorem insertSeq_returns :
    ∀ (vs : List V) (t : hash_table V) (M : Nat), Inv m_getKey m_hash t →
      t.m_buckets.length ≤ M → 3 * (t.m_filledCount + vs.length) + 9 ≤ M →
      2 * M ≤ MaxBuckets →
      ∃ t1, insertSeq m_getKey m_hash t vs = some t1 := by
  intro vs
  induction vs with
  | nil => intro t M _ _ _ _; exact ⟨t, rfl⟩
  | cons v vs ih =>
    intro t M h hlen hcnt hM
    obtain ⟨⟨t1, pos, b⟩, hr⟩ := insert_returns h v (by omega)
    obtain ⟨hc1, _, hl1⟩ := insert_length_le h v hr
    rw [List.length_cons] at hcnt
    obtain ⟨t2, h2⟩ := ih t1 M (Or.inr (insert_inv h hr))
      (by rcases hl1 with hl | hl <;> omega) (by omega) hM
    refine ⟨t2, ?_⟩
    unfold insertSeq
    rw [List.foldlM_cons, hr]
    simp only [Option.map_some', Option.bind_eq_bind, Option.some_bind]
    exact h2

end Totality

end flat_hash


namespace flat_hash

open hash_table

section Claims

variable {V K : Type} [DecidableEq K]

/-! ## The sample tables are reachable -/

theorem sampleSmall_reachable : Reachable (id : Nat → Nat) id sampleSmall :=
  reachable_insertSeq [42, 63] _ (Reachable.construct 0 _ rfl) _ (by decide)

theorem sampleFive_reachable : Reachable (id : Nat → Nat) id sampleFive :=
  reachable_insertSeq [42, 63, 8, 16, 24] _ (Reachable.construct 0 _ rfl) _ (by decide)

theorem sampleFour_reachable : Reachable (id : Nat → Nat) id sampleFour :=
  reachable_insertSeq [42, 63, 8, 16] _ (Reachable.construct 0 _ rfl) _ (by decide)

theorem sampleGrown_reachable : Reachable (id : Nat → Nat) id sampleGrown :=
  reachable_insertSeq [42, 63, 8, 16, 24, 7] _ (Reachable.construct 0 _ rfl) _ (by decide)

/-! ## The contracts -/

/-- C1 (round trip).  For every key projection and hash function, every newly
constructed table and every sequence `vs` of elements with pairwise distinct
keys: inserting the elements of `vs` one after the other returns whenever the
bucket arrays this can need fit the allocation limit; and once they have been
inserted, `find` of the key of any element `v` of `vs` returns a position that
is not `end()` and holds `v`, whatever capacity doublings the inserts have
triggered. -/
theorem C1_round_trip (m_getKey : V → K) (m_hash : K → Nat) (bucketCount : Nat)
    (t0 : hash_table V) (vs : List V)
    (hnew : hash_table.new m_getKey m_hash bucketCount = some t0)
    (hdistinct : (vs.map m_getKey).Nodup) :
    (2 * t0.m_buckets.length ≤ MaxBuckets → 6 * vs.length + 18 ≤ MaxBuckets →
      ∃ t, insertSeq m_getKey m_hash t0 vs = some t) ∧
    ∀ (t : hash_table V) (v : V), insertSeq m_getKey m_hash t0 vs = some t → v ∈ vs →
      ∃ r, find m_getKey m_hash t (m_getKey v) = some r ∧ r ≠ t.end_ ∧ HoldsAt t r v := by
  have h0 := new_inv hnew
  have he := new_elems hnew
  constructor
  · intro hm1 hm2
    have hc : t0.m_filledCount = 0 := by rw [h0.count, he]; rfl
    exact insertSeq_returns vs t0 (max t0.m_buckets.length (3 * vs.length + 9)) h0
      (Nat.le_max_left _ _) (by rw [hc, Nat.zero_add]; exact Nat.le_max_right _ _)
      (by rcases Nat.le_total t0.m_buckets.length (3 * vs.length + 9) with hle | hle
          · rw [Nat.max_eq_right hle]; omega
          · rw [Nat.max_eq_left hle]; omega)
  · intro t v hins hv
    obtain ⟨h1, hperm⟩ := insertSeq_spec vs t0 h0
      (by rw [he, List.nil_append]; exact hdistinct) t hins
    rw [he, List.nil_append] at hperm
    have hvin : v ∈ elems t.m_buckets := hperm.symm.subset hv
    obtain ⟨r, hr, hiff, hhold⟩ := find_spec h1 (m_getKey v)
    have hne : r ≠ t.end_ := fun hc => (hiff.1 hc) ⟨v, hvin, rfl⟩
    obtain ⟨y, hy, hk⟩ := hhold hne
    have : y = v := eq_of_key_eq h1.nodup hy.stored hvin hk
    exact ⟨r, hr, hne, this ▸ hy⟩

/-- Witness for C1: the six inserts 42, 63, 8, 16, 24, 7 into a default-constructed
`hash_set<int>` double the capacity once; 24 is found afterwards. -/
theorem C1_round_trip_witness :
    hash_table.new (id : Nat → Nat) id 0 = some { m_buckets := [], m_filledCount := 0 } ∧
    (([42, 63, 8, 16, 24, 7] : List Nat).map id).Nodup ∧
    insertSeq (id : Nat → Nat) id { m_buckets := [], m_filledCount := 0 }
      [42, 63, 8, 16, 24, 7] = some sampleGrown ∧
    (24 : Nat) ∈ ([42, 63, 8, 16, 24, 7] : List Nat) ∧
    ∃ r, find (id : Nat → Nat) id sampleGrown (id 24) = some r ∧ r ≠ sampleGrown.end_ ∧
      HoldsAt sampleGrown r 24 :=
  ⟨by decide, by decide, by decide, by decide,
    (C1_round_trip id id 0 { m_buckets := [], m_filledCount := 0 }
      [42, 63, 8, 16, 24, 7] (by decide) (by decide)).2 sampleGrown 24 (by decide) (by decide)⟩

/-- C2 (lookup).  For every reachable table and every key, `find` returns; it
returns `end()` if and only if no stored element has that key; and a position
other than `end()` that it returns holds (is Filled with) an element with that
key. -/
theorem C2_find_end_iff_absent (m_getKey : V → K) (m_hash : K → Nat) (t : hash_table V)
    (key : K) (h : Reachable m_getKey m_hash t) :
    ∃ r, find m_getKey m_hash t key = some r ∧
      (r = t.end_ ↔ ¬ ∃ y, Stored t y ∧ m_getKey y = key) ∧
      (r ≠ t.end_ → ∃ y, HoldsAt t r y ∧ m_getKey y = key) :=
  find_spec h.inv key

/-- Witness for C2: the lookup of 41 in the table holding 42, 63, 8, 16 and 24. -/
theorem C2_find_end_iff_absent_witness :
    Reachable (id : Nat → Nat) id sampleFive ∧
    ∃ r, find (id : Nat → Nat) id sampleFive 41 = some r ∧
      (r = sampleFive.end_ ↔ ¬ ∃ y, Stored sampleFive y ∧ id y = 41) ∧
      (r ≠ sampleFive.end_ → ∃ y, HoldsAt sampleFive r y ∧ id y = 41) :=
  ⟨sampleFive_reachable, C2_find_end_iff_absent id id sampleFive 41 sampleFive_reachable⟩

/-- C3 (duplicate report).  For every reachable table `t` and element `v`:
`insert(v)` returns whenever a bucket array of twice the current length can be
allocated; and when it returns, `inserted` is `false` if and only if an element
with the key of `v` was stored in `t`, in which case the returned position
holds that element. -/
theorem C3_insert_reports_duplicate (m_getKey : V → K) (m_hash : K → Nat) (t : hash_table V)
    (v : V) (h : Reachable m_getKey m_hash t) :
    (2 * t.m_buckets.length ≤ MaxBuckets → ∃ r, insert m_getKey m_hash t v = some r) ∧
    ∀ (t1 : hash_table V) (pos : Nat) (inserted : Bool),
      insert m_getKey m_hash t v = some (t1, pos, inserted) →
      (inserted = false ↔ ∃ y, Stored t y ∧ m_getKey y = m_getKey v) ∧
      (inserted = false →
        ∃ y, Stored t y ∧ m_getKey y = m_getKey v ∧ HoldsAt t1 pos y) := by
  refine ⟨insert_returns h.inv v, ?_⟩
  intro t1 pos b hrun
  refine ⟨insert_flag h.inv v hrun, ?_⟩
  intro hb
  obtain ⟨_, _, _, hfalse, _⟩ := insert_spec h.inv v hrun
  obtain ⟨hperm, _, y, hy, hk⟩ := hfalse hb
  exact ⟨y, hperm.subset (holdsAt_of_filled hy).stored, hk, holdsAt_of_filled hy⟩

/-- Witness for C3: `insert(42)` into the table holding 42 and 63. -/
theorem C3_insert_reports_duplicate_witness :
    Reachable (id : Nat → Nat) id sampleSmall ∧
    insert (id : Nat → Nat) id sampleSmall 42 = some (sampleSmall, 2, false) ∧
    (false = false ↔ ∃ y, Stored sampleSmall y ∧ id y = id 42) ∧
    (false = false → ∃ y, Stored sampleSmall y ∧ id y = id 42 ∧ HoldsAt sampleSmall 2 y) :=
  ⟨sampleSmall_reachable, by decide,
    (C3_insert_reports_duplicate id id sampleSmall 42 sampleSmall_reachable).2
      sampleSmall 2 false (by decide)⟩

/-- C4 (no duplicates).  For every reachable table: an `insert(v)` followed by
an `insert` of an element with the same key both return whenever a bucket
array of four times the current length can be allocated; and when they have
returned, the second one has reported `inserted = false` and has left `size()`
as it was after the first. -/
theorem C4_no_duplicates (m_getKey : V → K) (m_hash : K → Nat) (t : hash_table V) (v v' : V)
    (h : Reachable m_getKey m_hash t) (hkey : m_getKey v' = m_getKey v) :
    (4 * t.m_buckets.length + 18 ≤ MaxBuckets →
      ∃ r1 r2, insert m_getKey m_hash t v = some r1 ∧
        insert m_getKey m_hash r1.1 v' = some r2) ∧
    ∀ (t1 : hash_table V) (pos1 : Nat) (inserted1 : Bool)
      (t2 : hash_table V) (pos2 : Nat) (inserted2 : Bool),
      insert m_getKey m_hash t v = some (t1, pos1, inserted1) →
      insert m_getKey m_hash t1 v' = some (t2, pos2, inserted2) →
      inserted2 = false ∧ t2.size = t1.size := by
  constructor
  · intro hmem
    obtain ⟨⟨t1, pos1, b1⟩, hr1⟩ := insert_returns h.inv v (by omega)
    obtain ⟨_, hl, _⟩ := insert_length_le h.inv v hr1
    obtain ⟨r2, hr2⟩ := insert_returns (Or.inr (insert_inv h.inv hr1)) v'
      (by show 2 * t1.m_buckets.length ≤ MaxBuckets; omega)
    exact ⟨(t1, pos1, b1), r2, hr1, hr2⟩
  · intro t1 pos1 inserted1 t2 pos2 inserted2 h1 h2
    have hi1 : Inv m_getKey m_hash t1 := Or.inr (insert_inv h.inv h1)
    obtain ⟨_, _, htrue, hfalse, _⟩ := insert_spec h.inv v h1
    have hstored : ∃ y, Stored t1 y ∧ m_getKey y = m_getKey v' := by
      cases hb : inserted1 with
      | true =>
        obtain ⟨_, hperm, _, _⟩ := htrue hb
        exact ⟨v, hperm.symm.subset (List.mem_cons_self _ _), hkey.symm⟩
      | false =>
        obtain ⟨_, _, y, hy, hk⟩ := hfalse hb
        exact ⟨y, (holdsAt_of_filled hy).stored, hk.trans hkey.symm⟩
    have hb2 : inserted2 = false := (insert_flag hi1 v' h2).2 hstored
    obtain ⟨_, _, _, hfalse2, _⟩ := insert_spec hi1 v' h2
    exact ⟨hb2, (hfalse2 hb2).2.1⟩

/-- Witness for C4: 7 inserted twice into a default-constructed `hash_set<int>`. -/
theorem C4_no_duplicates_witness :
    Reachable (id : Nat → Nat) id { m_buckets := [], m_filledCount := 0 } ∧
    id 7 = id 7 ∧
    insert (id : Nat → Nat) id { m_buckets := [], m_filledCount := 0 } 7
      = some (sampleSeven, 7, true) ∧
    insert (id : Nat → Nat) id sampleSeven 7 = some (sampleSeven, 7, false) ∧
    false = false ∧ sampleSeven.size = sampleSeven.size :=
  ⟨Reachable.construct 0 _ rfl, rfl, by decide, by decide,
    (C4_no_duplicates id id { m_buckets := [], m_filledCount := 0 } 7 7
      (Reachable.construct 0 _ rfl) rfl).2 sampleSeven 7 true sampleSeven 7 false
      (by decide) (by decide)⟩

/-- C5 (returned position).  For every reachable table `t` and element `v` whose
key is not stored in `t`: `insert(v)` returns whenever a bucket array of twice
the current length can be allocated; and when it returns, `inserted` is `true`
and the returned position holds `v` itself in the resulting table. -/
theorem C5_insert_position_holds_value (m_getKey : V → K) (m_hash : K → Nat)
    (t : hash_table V) (v : V) (h : Reachable m_getKey m_hash t)
    (habsent : ∀ y, Stored t y → m_getKey y ≠ m_getKey v) :
    (2 * t.m_buckets.length ≤ MaxBuckets → ∃ r, insert m_getKey m_hash t v = some r) ∧
    ∀ (t1 : hash_table V) (pos : Nat) (inserted : Bool),
      insert m_getKey m_hash t v = some (t1, pos, inserted) →
      inserted = true ∧ HoldsAt t1 pos v := by
  refine ⟨insert_returns h.inv v, ?_⟩
  intro t1 pos b hrun
  have hb : b = true := by
    cases hb : b with
    | true => rfl
    | false =>
      obtain ⟨y, hy, hk⟩ := (insert_flag h.inv v hrun).1 hb
      exact absurd hk (habsent y hy)
  obtain ⟨_, _, htrue, _, _⟩ := insert_spec h.inv v hrun
  exact ⟨hb, holdsAt_of_filled (htrue hb).2.2.1⟩

/-- Witness for C5: `insert(24)` into the table holding 42, 63, 8 and 16 evicts
42 from bucket 2 to bucket 3; the returned position 2 holds 24. -/
theorem C5_insert_position_holds_value_witness :
    Reachable (id : Nat → Nat) id sampleFour ∧
    (∀ y, Stored sampleFour y → id y ≠ id 24) ∧
    insert (id : Nat → Nat) id sampleFour 24 = some (sampleFive, 2, true) ∧
    true = true ∧ HoldsAt sampleFive 2 24 :=
  have habsent : ∀ y, Stored sampleFour y → id y ≠ id 24 := by
    intro y hy
    have : y ∈ ([8, 16, 42, 63] : List Nat) := hy
    intro hc
    rw [show y = 24 from hc] at this
    exact absurd this (by decide)
  ⟨sampleFour_reachable, habsent, by decide,
    (C5_insert_position_holds_value id id sampleFour 24 sampleFour_reachable habsent).2
      sampleFive 2 true (by decide)⟩

end Claims

end flat_hash


namespace flat_hash

open hash_table

section Claims2

variable {V K : Type} [DecidableEq K]

/-- C6 (deletion correctness).  For every reachable table and stored key `k`:
`find(k)` and `erase` at the position it returns both return; afterwards
`find(k)` is `end()`, and for every element stored before whose key is not `k`,
`find` of its key returns a position that is not `end()` and holds that same
element. -/
theorem C6_erase_then_find (m_getKey : V → K) (m_hash : K → Nat) (t : hash_table V) (k : K)
    (h : Reachable m_getKey m_hash t) (hk : ∃ y, Stored t y ∧ m_getKey y = k) :
    ∃ p t1 ret, find m_getKey m_hash t k = some p ∧ erase t p = some (t1, ret) ∧
      find m_getKey m_hash t1 k = some t1.end_ ∧
      ∀ y', Stored t y' → m_getKey y' ≠ k →
        ∃ q, find m_getKey m_hash t1 (m_getKey y') = some q ∧ q ≠ t1.end_ ∧
          HoldsAt t1 q y' := by
  obtain ⟨p, hp, hiff, hhold⟩ := find_spec h.inv k
  have hpe : p ≠ t.end_ := fun hc => (hiff.1 hc) hk
  obtain ⟨y, ⟨b, hb, hv⟩, hky⟩ := hhold hpe
  have ha := h.inv.alloc_of_occupied ⟨b, y, hb, hv⟩
  obtain ⟨t1, ret, hrun, h1, _, hperm, _⟩ := erase_spec ha hb hv
  have hnd : ((y :: elems t1.m_buckets).map m_getKey).Nodup :=
    ((hperm.map m_getKey).nodup_iff).1 ha.nodup
  rw [List.map_cons, List.nodup_cons] at hnd
  have habs : ¬ ∃ z, Stored t1 z ∧ m_getKey z = k := by
    rintro ⟨z, hz, hkz⟩
    exact hnd.1 (by rw [hky, ← hkz]; exact List.mem_map_of_mem m_getKey hz)
  obtain ⟨r, hr, hiff1, _⟩ := find_spec (Or.inr h1) k
  have hre : r = t1.end_ := hiff1.2 habs
  refine ⟨p, t1, ret, hp, hrun, by rw [hr, hre], ?_⟩
  intro y' hy' hne
  have hy1 : y' ∈ elems t1.m_buckets := by
    rcases List.mem_cons.1 (hperm.subset hy') with hyy | hin
    · exact absurd (by rw [hyy, hky]) hne
    · exact hin
  obtain ⟨q, hq, hiffq, hholdq⟩ := find_spec (Or.inr h1) (m_getKey y')
  have hqe : q ≠ t1.end_ := fun hc => (hiffq.1 hc) ⟨y', hy1, rfl⟩
  obtain ⟨z, hz, hkz⟩ := hholdq hqe
  have : z = y' := eq_of_key_eq h1.nodup hz.stored hy1 hkz
  exact ⟨q, hq, hqe, this ▸ hz⟩

/-- Witness for C6: erasing 8 from the table holding 42, 63, 8, 16 and 24, where
16 and 24 are shifted back. -/
theorem C6_erase_then_find_witness :
    Reachable (id : Nat → Nat) id sampleFive ∧
    (∃ y, Stored sampleFive y ∧ id y = 8) ∧
    ∃ p t1 ret, find (id : Nat → Nat) id sampleFive 8 = some p ∧
      erase sampleFive p = some (t1, ret) ∧
      find (id : Nat → Nat) id t1 8 = some t1.end_ ∧
      ∀ y', Stored sampleFive y' → id y' ≠ 8 →
        ∃ q, find (id : Nat → Nat) id t1 (id y') = some q ∧ q ≠ t1.end_ ∧ HoldsAt t1 q y' :=
  have hstored : ∃ y, Stored sampleFive y ∧ id y = 8 :=
    ⟨8, (by decide : (8 : Nat) ∈ elems sampleFive.m_buckets), rfl⟩
  ⟨sampleFive_reachable, hstored,
    C6_erase_then_find id id sampleFive 8 sampleFive_reachable hstored⟩

/-- A run keeps the table invariant, and its counters add up to the size. -/
theorem run_inv_size {m_getKey : V → K} {m_hash : K → Nat} {t : hash_table V} {i e : Nat}
    (h : Run m_getKey m_hash t i e) :
    Inv m_getKey m_hash t ∧ t.m_filledCount + e = i := by
  induction h with
  | construct n t hrun =>
    have h0 := new_inv hrun
    refine ⟨h0, ?_⟩
    rw [h0.count, new_elems hrun]; rfl
  | insert t i e v t1 pos b _ hrun ih =>
    obtain ⟨h1, _, htrue, hfalse, _⟩ := insert_spec ih.1 v hrun
    refine ⟨Or.inr h1, ?_⟩
    cases hb : b with
    | true =>
      rw [(htrue hb).2.2.2]
      simp only [if_true]
      omega
    | false =>
      rw [(hfalse hb).2.1]
      simp only [Bool.false_eq_true, if_false]
      exact ih.2
  | erase t i e pos t1 ret _ ho hrun ih =>
    obtain ⟨b, v, hb, hv⟩ := ho
    obtain ⟨t2, ret2, hrun2, h2, _, _, hcnt, _⟩ :=
      erase_spec (ih.1.alloc_of_occupied ⟨b, v, hb, hv⟩) hb hv
    rw [hrun2] at hrun
    have := Option.some.inj hrun
    rw [Prod.mk.injEq] at this
    rw [← this.1]
    exact ⟨Or.inr h2, by omega⟩

/-- C7 (size invariant).  At every point of a run of `insert` and
single-position `erase` calls on a newly constructed table, `size()` plus the
number of erases performed equals the number of inserts that reported
`inserted = true`. -/
theorem C7_size_invariant (m_getKey : V → K) (m_hash : K → Nat) (t : hash_table V)
    (inserts erases : Nat) (h : Run m_getKey m_hash t inserts erases) :
    t.size + erases = inserts ∧ t.size = inserts - erases :=
  ⟨(run_inv_size h).2, by have := (run_inv_size h).2; unfold size; omega⟩

/-- Witness for C7: insert 42, insert 63, erase 42 on a default-constructed
`hash_set<int>`: two successful inserts, one erase, size 1. -/
theorem C7_size_invariant_witness :
    Run (id : Nat → Nat) id sampleErased 2 1 ∧
    sampleErased.size + 1 = 2 ∧ sampleErased.size = 2 - 1 :=
  have hrun : Run (id : Nat → Nat) id sampleErased 2 1 :=
    Run.erase sampleSmall 2 0 2 sampleErased 7
      (Run.insert sampleOne 1 0 63 sampleSmall 7 true
        (Run.insert { m_buckets := [], m_filledCount := 0 } 0 0 42 sampleOne 2 true
          (Run.construct 0 _ rfl) (by decide))
        (by decide))
      ⟨⟨2 ^ 63 + 42, some 42⟩, 42, by decide, by decide⟩ (by decide)
  ⟨hrun, C7_size_invariant id id sampleErased 2 1 hrun⟩

/-- C8 (iteration completeness).  For every reachable table, walking from
`begin()` with `++` until `end()` returns and visits exactly `size()`
positions, no position twice; every visited position holds a stored element;
and every stored element is held by a visited position. -/
theorem C8_iteration_complete (m_getKey : V → K) (m_hash : K → Nat) (t : hash_table V)
    (h : Reachable m_getKey m_hash t) :
    ∃ L, positions t = some L ∧ L.length = t.size ∧ L.Nodup ∧
      (∀ q, q ∈ L → ∃ v, HoldsAt t q v ∧ Stored t v) ∧
      (∀ v, Stored t v → ∃ q, q ∈ L ∧ HoldsAt t q v) := by
  obtain ⟨L, hL, hlen, hmem, hnd, hall⟩ := positions_spec h.inv
  refine ⟨L, hL, hlen, hnd, ?_, ?_⟩
  · intro q hq
    obtain ⟨v, hv⟩ := hmem q hq
    exact ⟨v, hv, hv.stored⟩
  · intro v hv
    obtain ⟨i, b, hb, hbv⟩ := exists_of_mem_elems hv
    exact ⟨i, hall i v ⟨b, hb, hbv⟩, ⟨b, hb, hbv⟩⟩

/-- Witness for C8: the walk over the table holding 42, 63, 8, 16, 24 and 7. -/
theorem C8_iteration_complete_witness :
    Reachable (id : Nat → Nat) id sampleGrown ∧
    positions sampleGrown = some [0, 7, 8, 9, 10, 15] ∧
    ∃ L, positions sampleGrown = some L ∧ L.length = sampleGrown.size ∧ L.Nodup ∧
      (∀ q, q ∈ L → ∃ v, HoldsAt sampleGrown q v ∧ Stored sampleGrown v) ∧
      (∀ v, Stored sampleGrown v → ∃ q, q ∈ L ∧ HoldsAt sampleGrown q v) :=
  ⟨sampleGrown_reachable, by decide,
    C8_iteration_complete id id sampleGrown sampleGrown_reachable⟩

/-- C9 (load factor bound).  For every reachable table, `10 * size()` is at
most `7 * capacity`, the capacity being the length of the bucket array minus 1;
a table without a bucket array has size 0. -/
theorem C9_load_factor_bound (m_getKey : V → K) (m_hash : K → Nat) (t : hash_table V)
    (h : Reachable m_getKey m_hash t) :
    10 * t.size ≤ 7 * (t.m_buckets.length - 1) ∧ (t.m_buckets.length = 0 → t.size = 0) := by
  rcases h.inv with ⟨h0, h1⟩ | ha
  · refine ⟨?_, fun _ => h1⟩
    show 10 * t.m_filledCount ≤ _
    rw [h1]; omega
  · refine ⟨ha.load, fun hl => ?_⟩
    have := ha.wf.cap_pos
    omega

/-- Witness for C9: five elements in eight buckets. -/
theorem C9_load_factor_bound_witness :
    Reachable (id : Nat → Nat) id sampleFive ∧
    10 * sampleFive.size ≤ 7 * (sampleFive.m_buckets.length - 1) ∧
    (sampleFive.m_buckets.length = 0 → sampleFive.size = 0) :=
  ⟨sampleFive_reachable, C9_load_factor_bound id id sampleFive sampleFive_reachable⟩

/-- C10, as stated, fails: `insert(24)` into the reachable table holding 42, 63,
8, 16 and 24 in eight buckets finds 24 stored and leaves `size()` at 5, so the
size after the call over the capacity before it is 5/8, not above 0.7; yet the
call has doubled the capacity to 16. -/
theorem C10_counterexample :
    Reachable (id : Nat → Nat) id sampleFive ∧
    sampleFive.m_buckets ≠ [] ∧
    insert (id : Nat → Nat) id sampleFive 24 = some (sampleRehashed, 9, false) ∧
    10 * sampleRehashed.size ≤ 7 * (sampleFive.m_buckets.length - 1) ∧
    sampleRehashed.m_buckets.length - 1 ≠ sampleFive.m_buckets.length - 1 ∧
    sampleFive.m_buckets.length - 1 = 8 ∧ sampleRehashed.m_buckets.length - 1 = 16 :=
  ⟨sampleFive_reachable, by decide, by decide, by decide, by decide, by decide, by decide⟩

/-- C10 (amended).  For every reachable table with an allocated bucket array
and every element `v`, when `insert(v)` returns: if the size before the call
plus one, over the capacity before the call, is at most 0.7, the capacity is
unchanged; otherwise the capacity has grown.  The test is made before the key
is looked up, also for a key that is already stored. -/
theorem C10_growth_only_when_needed (m_getKey : V → K) (m_hash : K → Nat) (t : hash_table V)
    (v : V) (t1 : hash_table V) (pos : Nat) (inserted : Bool)
    (h : Reachable m_getKey m_hash t) (halloc : t.m_buckets ≠ [])
    (hrun : insert m_getKey m_hash t v = some (t1, pos, inserted)) :
    (10 * (t.size + 1) ≤ 7 * (t.m_buckets.length - 1) →
      t1.m_buckets.length - 1 = t.m_buckets.length - 1) ∧
    (10 * (t.size + 1) > 7 * (t.m_buckets.length - 1) →
      t.m_buckets.length - 1 < t1.m_buckets.length - 1) := by
  obtain ⟨_, _, _, _, ⟨k, j, hstart, hcap, hmin, hj0⟩, hroom⟩ := insert_spec h.inv v hrun
  have hne : t.m_buckets.isEmpty = false := by
    cases hb : t.m_buckets with
    | nil => exact absurd hb halloc
    | cons a l => rfl
  rw [hne] at hstart
  simp only [Bool.false_eq_true, not_false_eq_true, if_true] at hstart
  constructor
  · intro hle
    have hj : j = 0 := by
      by_contra hc
      have h2 : 10 * (t.m_filledCount + 1) > 7 * (t.m_buckets.length - 1) := by
        rw [hstart]; exact hmin 0 (by omega)
      unfold size at hle
      omega
    rw [hj0 hj halloc]
  · intro hgt
    rw [hcap, hstart]
    apply Nat.pow_lt_pow_right (by norm_num)
    by_contra hc
    have hj : j = 0 := by omega
    rw [hj0 hj halloc] at hroom
    unfold size at hgt
    omega

/-- Witness for C10 (amended): `insert(8)` into the table holding 42 and 63 keeps
the capacity 8. -/
theorem C10_growth_only_when_needed_witness :
    Reachable (id : Nat → Nat) id sampleSmall ∧ sampleSmall.m_buckets ≠ [] ∧
    insert (id : Nat → Nat) id sampleSmall 8 = some (sampleThree, 0, true) ∧
    (10 * (sampleSmall.size + 1) ≤ 7 * (sampleSmall.m_buckets.length - 1) →
      sampleThree.m_buckets.length - 1 = sampleSmall.m_buckets.length - 1) ∧
    (10 * (sampleSmall.size + 1) > 7 * (sampleSmall.m_buckets.length - 1) →
      sampleSmall.m_buckets.length - 1 < sampleThree.m_buckets.length - 1) :=
  ⟨sampleSmall_reachable, by decide, by decide,
    C10_growth_only_when_needed id id sampleSmall 8 sampleThree 0 true sampleSmall_reachable
      (by decide) (by decide)⟩

end Claims2

end flat_hash


namespace flat_hash

open hash_table

section EraseFrame

variable {V K : Type} {m_getKey : V → K} {m_hash : K → Nat}

theorem ne_new_of_valuePtr {b : Bucket V} {v : V} (h : b.valuePtr = some v) :
    b ≠ Bucket.new := by
  intro hb
  rw [hb, valuePtr_new] at h
  exact Option.noConfusion h

/-- The backward shift writes only buckets that hold an element: an Empty bucket stays Empty. -/
theorem eraseLoop_frame :
    ∀ (fuel : Nat) (buckets : List (Bucket V)) (cur : Nat) (b1 : List (Bucket V)) (cur1 : Nat),
      eraseLoop fuel buckets cur = some (b1, cur1) →
      buckets[cur]? ≠ some Bucket.new →
      ∀ i : Nat, buckets[i]? = some Bucket.new → b1[i]? = some Bucket.new := by
  intro fuel
  induction fuel with
  | zero => intro buckets cur b1 cur1 h; exact Option.noConfusion h
  | succ f ih =>
    intro buckets cur b1 cur1 h hcur i hi
    rw [eraseLoop] at h
    cases hn : buckets[hashBucket buckets (cur + 1)]? with
    | none => rw [hn] at h; exact Option.noConfusion h
    | some nb =>
      rw [hn] at h
      simp only at h
      cases hv : nb.valuePtr with
      | none =>
        rw [hv] at h
        simp only at h
        rw [← (Prod.mk.inj (Option.some.inj h)).1]
        exact hi
      | some nptr =>
        rw [hv] at h
        simp only at h
        by_cases hpos : bucketError buckets (hashBucket buckets (cur + 1)) nb.hash > 0
        · rw [if_pos hpos] at h
          have hic : cur ≠ i := by
            intro hc
            rw [hc] at hcur
            exact hcur hi
          apply ih _ _ _ _ h
          · by_cases hcn : cur = hashBucket buckets (cur + 1)
            · rw [← hcn]
              by_cases hlt : cur < buckets.length
              · rw [List.getElem?_set_self hlt]
                intro hc
                have := congrArg Bucket.value (Option.some.inj hc)
                exact Option.noConfusion this
              · rw [List.getElem?_eq_none (by rw [List.length_set]; omega)]
                exact fun hc => Option.noConfusion hc
            · rw [List.getElem?_set_ne hcn, hn]
              intro hc
              exact ne_new_of_valuePtr hv (Option.some.inj hc)
          · rw [List.getElem?_set_ne hic]
            exact hi
        · rw [if_neg hpos] at h
          rw [← (Prod.mk.inj (Option.some.inj h)).1]
          exact hi

/-- What `erase(pos)` leaves around `pos`: Empty buckets stay Empty, the buckets
from `pos` up to the returned position are Empty, and the returned position is
`end()` or holds an element. -/
theorem erase_frame {t : hash_table V} (h : Alloc m_getKey m_hash t) {pos : Nat} {b : Bucket V}
    {v : V} (hb : t.m_buckets[pos]? = some b) (hv : b.valuePtr = some v)
    {t1 : hash_table V} {ret : Nat} (hrun : erase t pos = some (t1, ret)) :
    (∀ i : Nat, t.m_buckets[i]? = some Bucket.new → t1.m_buckets[i]? = some Bucket.new) ∧
    (∀ l : Nat, pos ≤ l → l < ret → t1.m_buckets[l]? = some Bucket.new) ∧
    (ret = t.m_buckets.length - 1 ∨
      ∃ w, t1.m_buckets[ret]? = some (filledBucket m_getKey m_hash w)) := by
  obtain ⟨t2, ret2, hrun2, h2, hlen2, _, _, hle1, hle2⟩ := erase_spec h hb hv
  rw [hrun] at hrun2
  have heq := Prod.mk.inj (Option.some.inj hrun2)
  have ht : t1 = t2 := heq.1
  have hr : ret = ret2 := heq.2
  subst ht
  subst hr
  unfold erase at hrun
  simp only [hb] at hrun
  cases hl : eraseLoop t.m_buckets.length t.m_buckets pos with
  | none => rw [hl] at hrun; exact Option.noConfusion hrun
  | some r =>
    obtain ⟨b1, cur1⟩ := r
    rw [hl] at hrun
    simp only at hrun
    cases hc : b1[cur1]? with
    | none => rw [hc] at hrun; exact Option.noConfusion hrun
    | some bb =>
      rw [hc] at hrun
      simp only [setEmpty_eq_new] at hrun
      cases hs : scanIterator (b1.set cur1 Bucket.new) pos with
      | none => rw [hs] at hrun; exact Option.noConfusion hrun
      | some it =>
        rw [hs] at hrun
        simp only at hrun
        have heq2 := Prod.mk.inj (Option.some.inj hrun)
        have hbk : t1.m_buckets = b1.set cur1 Bucket.new := by rw [← heq2.1]
        have hit : it = ret := heq2.2
        subst hit
        have hwf1 := h2.wf
        rw [hlen2] at hwf1
        obtain ⟨j, hj, _, _, hskip, hjv⟩ := scanIterator_spec hwf1 pos
          (by have := occupied_filled h.wf hb hv; omega)
        rw [hbk, hs] at hj
        have hji : it = j := Option.some.inj hj
        subst hji
        refine ⟨?_, hskip, hjv⟩
        intro i hi
        rw [hbk]
        by_cases hic : cur1 = i
        · subst hic
          obtain ⟨hlt, _⟩ := List.getElem?_eq_some.1 hc
          exact List.getElem?_set_self hlt
        · rw [List.getElem?_set_ne hic]
          exact eraseLoop_frame _ _ _ _ _ hl
            (by rw [hb]; exact fun hc2 => ne_new_of_valuePtr hv (Option.some.inj hc2)) i hi

/-- An allocated table whose buckets before the End bucket are all Empty stores nothing. -/
theorem elems_nil_of_all_new {cap : Nat} {buckets : List (Bucket V)}
    (hwf : WF m_getKey m_hash cap buckets)
    (hnew : ∀ i : Nat, i < cap → buckets[i]? = some Bucket.new) : elems buckets = [] := by
  have h1 := elems_drop_skip buckets cap 0 cap (by omega) (by rw [hwf.len]; omega)
    (fun l _ hl => hnew l hl)
  rw [List.drop_zero] at h1
  rw [h1, elems_drop_last hwf]

/-- The loop of `erase(first, end())` started at a position with only Empty
buckets before it: it returns `end()` and leaves the table without elements. -/
theorem eraseRangeLoop_to_end {cap : Nat} :
    ∀ (n fuel : Nat) (t : hash_table V) (first : Nat), Alloc m_getKey m_hash t →
      t.m_buckets.length - 1 = cap → t.m_filledCount = n → n < fuel → first ≤ cap →
      (∀ i : Nat, i < first → t.m_buckets[i]? = some Bucket.new) →
      (first = cap ∨ ∃ v, t.m_buckets[first]? = some (filledBucket m_getKey m_hash v)) →
      ∃ t1, eraseRangeLoop fuel t first cap = some (t1, cap) ∧ Alloc m_getKey m_hash t1 ∧
        t1.m_buckets.length = t.m_buckets.length ∧ t1.m_filledCount = 0 := by
  intro n
  induction n with
  | zero =>
    intro fuel t first h hcap hn hf hfirst hnew hvalid
    obtain ⟨f, rfl⟩ : ∃ f, fuel = f + 1 := ⟨fuel - 1, by omega⟩
    rcases hvalid with hv | ⟨v, hv⟩
    · refine ⟨t, ?_, h, rfl, hn⟩
      rw [eraseRangeLoop, if_neg (by rw [hv]; exact fun hc => hc rfl), hv]
    · have := mem_elems_of_getElem? hv (valuePtr_filledBucket v)
      have hc := h.count
      rw [hn] at hc
      rw [List.eq_nil_of_length_eq_zero hc.symm] at this
      exact absurd this (List.not_mem_nil v)
  | succ n ih =>
    intro fuel t first h hcap hn hf hfirst hnew hvalid
    obtain ⟨f, rfl⟩ : ∃ f, fuel = f + 1 := ⟨fuel - 1, by omega⟩
    rcases hvalid with hv | ⟨v, hv⟩
    · exfalso
      have hwf := h.wf
      rw [hcap] at hwf
      have := elems_nil_of_all_new hwf (by rw [← hv]; exact hnew)
      have hc := h.count
      rw [this, hn] at hc
      exact Nat.succ_ne_zero n hc
    · have hwf := h.wf
      rw [hcap] at hwf
      obtain ⟨hlt, _⟩ := occupied_filled hwf hv (valuePtr_filledBucket v)
      obtain ⟨t1, ret, hrun, h1, hlen1, _, hcnt, hr1, hr2⟩ :=
        erase_spec h hv (valuePtr_filledBucket v)
      obtain ⟨hkeep, hskip, hret⟩ := erase_frame h hv (valuePtr_filledBucket v) hrun
      rw [hcap] at hr2 hret
      obtain ⟨t2, hrun2, h2, hlen2, hcnt2⟩ := ih f t1 ret h1 (by rw [hlen1]; exact hcap)
        (by omega) (by omega) hr2
        (by
          intro i hi
          by_cases hif : i < first
          · exact hkeep i (hnew i hif)
          · exact hskip i (by omega) hi)
        hret
      refine ⟨t2, ?_, h2, by rw [hlen2, hlen1], hcnt2⟩
      rw [eraseRangeLoop, if_pos (by omega), hrun]
      exact hrun2

end EraseFrame

end flat_hash


namespace flat_hash

open hash_table

section IterationValues

variable {V K : Type} {m_getKey : V → K} {m_hash : K → Nat}

theorem deref_filled {t : hash_table V} {p : Nat} {v : V}
    (h : t.m_buckets[p]? = some (filledBucket m_getKey m_hash v)) : t.deref p = some v := by
  unfold deref
  rw [h]
  exact valuePtr_filledBucket v

/-- The elements met by a walk with `++` from a valid position are the stored
elements from that position on, in bucket order. -/
theorem walkFrom_values {t : hash_table V} (ha : Alloc m_getKey m_hash t) :
    ∀ (fuel pos : Nat), pos ≤ t.m_buckets.length - 1 → t.m_buckets.length - 1 - pos < fuel →
      (pos = t.m_buckets.length - 1 ∨
        ∃ v, t.m_buckets[pos]? = some (filledBucket m_getKey m_hash v)) →
      ∃ L, walkFrom t fuel pos = some L ∧
        L.mapM (fun p => t.deref p) = some (elems (t.m_buckets.drop pos)) := by
  have hwf := ha.wf
  have h8 := hwf.cap_pos
  intro fuel
  induction fuel with
  | zero => intro pos _ hf; omega
  | succ f ih =>
    intro pos hpos hf hvalid
    rw [walkFrom]
    by_cases hend : pos = t.end_
    · rw [if_pos hend]
      have hpc : pos = t.m_buckets.length - 1 := hend
      refine ⟨[], rfl, ?_⟩
      rw [hpc, elems_drop_last hwf]
      rfl
    · rw [if_neg hend]
      have hpc : pos ≠ t.m_buckets.length - 1 := hend
      rcases hvalid with hv | ⟨v, hv⟩
      · exact absurd hv hpc
      · obtain ⟨j, hj, hj1, hj2, hskip, hjv⟩ := scanIterator_spec hwf (pos + 1) (by omega)
        obtain ⟨L, hL, hvals⟩ := ih j hj2 (by omega) hjv
        have hnext : t.next pos = some j := hj
        rw [hnext]
        simp only [hL, Option.map_some']
        refine ⟨pos :: L, rfl, ?_⟩
        rw [List.mapM_cons, deref_filled hv, hvals, elems_drop_filled hv,
          elems_drop_skip t.m_buckets (j - (pos + 1)) (pos + 1) j (by omega)
            (by rw [hwf.len]; omega) hskip]
        rfl

/-- The position `begin()` returns and the elements from it on. -/
theorem begin_spec {t : hash_table V} (h : Inv m_getKey m_hash t) :
    ∃ j, t.begin = some j ∧ elems (t.m_buckets.drop j) = elems t.m_buckets ∧
      j ≤ t.m_buckets.length - 1 ∧
      (elems (t.m_buckets.drop j) = [] ∨
        ∃ y, t.m_buckets[j]? = some (filledBucket m_getKey m_hash y)) ∧
      (j = t.m_buckets.length - 1 ∨
        ∃ y, t.m_buckets[j]? = some (filledBucket m_getKey m_hash y)) := by
  rcases h with ⟨h0, _⟩ | ha
  · refine ⟨0, ?_, by rw [h0]; rfl, Nat.zero_le _, Or.inl (by rw [h0]; rfl),
      Or.inl (by rw [h0]; rfl)⟩
    unfold hash_table.begin end_
    rw [h0]
    rfl
  · have hwf := ha.wf
    obtain ⟨j, hj, _, hj2, hskip, hjv⟩ := scanIterator_spec hwf 0 (Nat.zero_le _)
    have hdrop : elems (t.m_buckets.drop j) = elems t.m_buckets := by
      have := elems_drop_skip t.m_buckets j 0 j (by omega) (by rw [hwf.len]; omega) hskip
      rw [List.drop_zero] at this
      exact this.symm
    refine ⟨j, ?_, hdrop, hj2, ?_, hjv⟩
    · unfold hash_table.begin
      rw [ha.isEmpty]
      simpa using hj
    · rcases hjv with hc | hf
      · left
        rw [hc, elems_drop_last hwf]
      · exact Or.inr hf

/-- Walking a table from `begin()` to `end()` meets its stored elements in bucket order. -/
theorem iterValues_eq {t : hash_table V} (h : Inv m_getKey m_hash t) :
    iterValues t = some (elems t.m_buckets) := by
  obtain ⟨j, hj, hdrop, hj2, _, hjv⟩ := begin_spec h
  rcases h with ⟨h0, _⟩ | ha
  · unfold iterValues positions
    rw [hj]
    simp only
    have hj0 : j = 0 := by rw [h0] at hj2; simpa using hj2
    subst hj0
    have : walkFrom t (t.m_buckets.length + 1) 0 = some [] := by
      rw [walkFrom, if_pos (by unfold end_; rw [h0]; rfl)]
    rw [this, h0]
    rfl
  · obtain ⟨L, hL, hvals⟩ := walkFrom_values ha (t.m_buckets.length + 1) j hj2 (by omega) hjv
    unfold iterValues positions
    rw [hj]
    simp only
    rw [hL]
    simp only
    rw [hvals, hdrop]

end IterationValues

section Equality

variable {V K : Type} {m_getKey : V → K} {m_hash : K → Nat} [DecidableEq V]

/-- The comparison loop of `operator==`, started at valid positions with equally
many elements ahead, tells whether the elements ahead are the same sequence. -/
theorem operatorEqLoop_spec {a b : hash_table V} (ha : Alloc m_getKey m_hash a)
    (hb : Inv m_getKey m_hash b) :
    ∀ (fuel i j : Nat), i ≤ a.m_buckets.length - 1 → a.m_buckets.length - 1 - i < fuel →
      (i = a.m_buckets.length - 1 ∨
        ∃ x, a.m_buckets[i]? = some (filledBucket m_getKey m_hash x)) →
      (elems (a.m_buckets.drop i)).length = (elems (b.m_buckets.drop j)).length →
      (elems (b.m_buckets.drop j) = [] ∨
        ∃ y, b.m_buckets[j]? = some (filledBucket m_getKey m_hash y)) →
      operatorEqLoop a b fuel i j
        = some (decide (elems (a.m_buckets.drop i) = elems (b.m_buckets.drop j))) := by
  have hwf := ha.wf
  intro fuel
  induction fuel with
  | zero => intro i _ _ hf; omega
  | succ f ih =>
    intro i j hi hf hvalid hlen hjvalid
    rw [operatorEqLoop]
    by_cases hend : i = a.end_
    · rw [if_neg (fun hc => hc hend)]
      have hic : i = a.m_buckets.length - 1 := hend
      rw [hic, elems_drop_last hwf] at hlen ⊢
      rw [List.eq_nil_of_length_eq_zero hlen.symm]
      rfl
    · rw [if_pos hend]
      have hic : i ≠ a.m_buckets.length - 1 := hend
      rcases hvalid with hv | ⟨x, hx⟩
      · exact absurd hv hic
      · rw [elems_drop_filled hx] at hlen ⊢
        rcases hjvalid with hnil | ⟨y, hy⟩
        · rw [hnil] at hlen
          exact absurd hlen (by simp)
        · have hballoc : Alloc m_getKey m_hash b := by
            rcases hb with ⟨h0, _⟩ | hb
            · rw [h0] at hy; simp at hy
            · exact hb
          have hwfb := hballoc.wf
          obtain ⟨hjlt, _⟩ := occupied_filled hwfb hy (valuePtr_filledBucket y)
          rw [elems_drop_filled hy] at hlen ⊢
          rw [deref_filled hx, deref_filled hy]
          simp only
          by_cases hxy : x = y
          · rw [if_neg (fun hc => hc hxy)]
            obtain ⟨i1, hi1, hi1a, hi1b, hskipa, hi1v⟩ :=
              scanIterator_spec hwf (i + 1) (by omega)
            obtain ⟨j1, hj1, hj1a, hj1b, hskipb, hj1v⟩ :=
              scanIterator_spec hwfb (j + 1) (by omega)
            have hna : a.next i = some i1 := hi1
            have hnb : b.next j = some j1 := hj1
            rw [hna, hnb]
            simp only
            have hea := elems_drop_skip a.m_buckets (i1 - (i + 1)) (i + 1) i1 (by omega)
              (by rw [hwf.len]; omega) hskipa
            have heb := elems_drop_skip b.m_buckets (j1 - (j + 1)) (j + 1) j1 (by omega)
              (by rw [hwfb.len]; omega) hskipb
            rw [ih i1 j1 hi1b (by omega) hi1v
              (by rw [← hea, ← heb]; simpa using hlen)
              (by
                rcases hj1v with hc | hfj
                · left; rw [hc, elems_drop_last hwfb]
                · exact Or.inr hfj)]
            rw [← hea, ← heb, hxy]
            simp
          · rw [if_pos hxy]
            simp [hxy]

/-- The call `operator==` on two tables that satisfy the invariant returns, and
tells whether they have the same size and store the same sequence of elements
in bucket order. -/
theorem operatorEq_spec {a b : hash_table V} (ha : Inv m_getKey m_hash a)
    (hb : Inv m_getKey m_hash b) :
    operatorEq a b
      = some (decide (a.size = b.size ∧ elems a.m_buckets = elems b.m_buckets)) := by
  unfold operatorEq
  by_cases hs : a.size = b.size
  · rw [if_neg (fun hc => hc hs)]
    obtain ⟨i, hi, hdi, hi2, _, hiv⟩ := begin_spec ha
    obtain ⟨j, hj, hdj, _, hjv, _⟩ := begin_spec hb
    rw [hi, hj]
    simp only
    have hlen : (elems a.m_buckets).length = (elems b.m_buckets).length := by
      rw [← ha.count, ← hb.count]; exact hs
    rcases ha with ⟨h0, _⟩ | haa
    · have hi0 : i = 0 := by rw [h0] at hi2; simpa using hi2
      subst hi0
      have he : elems a.m_buckets = [] := by rw [h0]; rfl
      rw [he] at hlen ⊢
      rw [List.eq_nil_of_length_eq_zero hlen.symm, operatorEqLoop,
        if_neg (fun hc => hc (by unfold end_; rw [h0]; rfl))]
      simp [hs]
    · rw [operatorEqLoop_spec haa hb (a.m_buckets.length + 1) i j hi2 (by omega) hiv
        (by rw [hdi, hdj]; exact hlen) hjv, hdi, hdj]
      simp [hs]
  · rw [if_pos hs]
    simp [hs]

end Equality

end flat_hash


namespace flat_hash

open hash_table

section Reserve

variable {V K : Type} {m_getKey : V → K} {m_hash : K → Nat} [DecidableEq K]

/-- The call `reserve(n)` for an `n` above the size, when it returns: the table
is allocated, keeps its elements and size, and `n` elements fit under the load
bound. -/
theorem reserve_spec {t : hash_table V} (h : Inv m_getKey m_hash t) {n : Nat}
    (hn : n < WordSize) (hlt : t.m_filledCount < n) {t1 : hash_table V}
    (hrun : reserve m_getKey m_hash t n = some t1) :
    Alloc m_getKey m_hash t1 ∧ 10 * n ≤ 7 * (t1.m_buckets.length - 1) ∧
      t1.m_filledCount = t.m_filledCount ∧
      (elems t1.m_buckets).Perm (elems t.m_buckets) := by
  unfold reserve at hrun
  rw [if_pos hlt] at hrun
  obtain ⟨h1, hperm, hcnt, hroom, _⟩ := checkCapacityWith_some insertOK_insert h hrun
  have e : t.m_filledCount + (n - t.m_filledCount) = n := by omega
  rw [e, Nat.mod_eq_of_lt hn] at hroom
  exact ⟨h1, hroom, hcnt, hperm⟩

/-- The capacity after `reserve(n)` is the capacity before times a power of two. -/
theorem reserve_capacity {t : hash_table V} (h : Alloc m_getKey m_hash t) {n : Nat}
    {t1 : hash_table V} (hrun : reserve m_getKey m_hash t n = some t1) :
    ∃ j, t1.m_buckets.length - 1 = (t.m_buckets.length - 1) * 2 ^ j := by
  unfold reserve at hrun
  by_cases hlt : n > t.m_filledCount
  · rw [if_pos hlt] at hrun
    obtain ⟨_, _, _, _, k, j, hstart, hcap, _⟩ :=
      checkCapacityWith_some insertOK_insert (Or.inr h) hrun
    rw [h.isEmpty] at hstart
    simp only [Bool.false_eq_true, not_false_eq_true, if_true] at hstart
    exact ⟨j, by rw [hcap, hstart, Nat.pow_add]⟩
  · rw [if_neg hlt] at hrun
    rw [← Option.some.inj hrun]
    exact ⟨0, by simp⟩

/-- The capacity after `insert(v)` is the capacity before times a power of two. -/
theorem insert_capacity {t : hash_table V} (h : Alloc m_getKey m_hash t) (v : V)
    {t1 : hash_table V} {pos : Nat} {b : Bool}
    (hrun : insert m_getKey m_hash t v = some (t1, pos, b)) :
    ∃ j, t1.m_buckets.length - 1 = (t.m_buckets.length - 1) * 2 ^ j := by
  obtain ⟨_, _, _, _, ⟨k, j, hstart, hcap, _⟩, _⟩ := insert_spec (Or.inr h) v hrun
  rw [h.isEmpty] at hstart
  simp only [Bool.false_eq_true, not_false_eq_true, if_true] at hstart
  exact ⟨j, by rw [hcap, hstart, Nat.pow_add]⟩

/-- An `insert` into an allocated table with room for one more element keeps the bucket array's length. -/
theorem insert_same_length {t : hash_table V} (h : Alloc m_getKey m_hash t) (v : V)
    (hroom : 10 * (t.m_filledCount + 1) ≤ 7 * (t.m_buckets.length - 1))
    {t1 : hash_table V} {pos : Nat} {b : Bool}
    (hrun : insert m_getKey m_hash t v = some (t1, pos, b)) :
    t1.m_buckets.length = t.m_buckets.length := by
  obtain ⟨_, _, _, _, ⟨k, j, hstart, _, hmin, hj0⟩, _⟩ := insert_spec (Or.inr h) v hrun
  rw [h.isEmpty] at hstart
  simp only [Bool.false_eq_true, not_false_eq_true, if_true] at hstart
  have hj : j = 0 := by
    by_contra hc
    have h2 : 10 * (t.m_filledCount + 1) > 7 * (t.m_buckets.length - 1) := by
      rw [hstart]; exact hmin 0 (by omega)
    omega
  exact hj0 hj h.ne_nil

/-- The size does not decrease along a sequence of inserts. -/
theorem insertSeq_count_le :
    ∀ (vs : List V) (t t2 : hash_table V), Inv m_getKey m_hash t →
      insertSeq m_getKey m_hash t vs = some t2 → t.m_filledCount ≤ t2.m_filledCount := by
  intro vs
  induction vs with
  | nil =>
    intro t t2 _ hrun
    have : t = t2 := Option.some.inj hrun
    rw [this]
  | cons v vs ih =>
    intro t t2 h hrun
    unfold insertSeq at hrun
    rw [List.foldlM_cons] at hrun
    cases hi : insert m_getKey m_hash t v with
    | none => rw [hi] at hrun; exact Option.noConfusion hrun
    | some r =>
      obtain ⟨t1, pos, b⟩ := r
      rw [hi] at hrun
      simp only [Option.map_some', Option.bind_eq_bind, Option.some_bind] at hrun
      obtain ⟨h1, _, htrue, hfalse, _⟩ := insert_spec h v hi
      have := ih t1 t2 (Or.inr h1) hrun
      cases hb : b with
      | true => have := (htrue hb).2.2.2; omega
      | false => have := (hfalse hb).2.1; omega

/-- A sequence of inserts that ends below `n` elements, in a table where `n`
elements fit under the load bound, keeps the bucket array's length. -/
theorem insertSeq_same_length (n : Nat) :
    ∀ (vs : List V) (t t2 : hash_table V), Alloc m_getKey m_hash t →
      10 * n ≤ 7 * (t.m_buckets.length - 1) →
      insertSeq m_getKey m_hash t vs = some t2 → t2.m_filledCount < n →
      t2.m_buckets.length = t.m_buckets.length ∧ Alloc m_getKey m_hash t2 := by
  intro vs
  induction vs with
  | nil =>
    intro t t2 h _ hrun _
    have : t = t2 := Option.some.inj hrun
    rw [← this]
    exact ⟨rfl, h⟩
  | cons v vs ih =>
    intro t t2 h hroom hrun hlt
    have hle := insertSeq_count_le (v :: vs) t t2 (Or.inr h) hrun
    unfold insertSeq at hrun
    rw [List.foldlM_cons] at hrun
    cases hi : insert m_getKey m_hash t v with
    | none => rw [hi] at hrun; exact Option.noConfusion hrun
    | some r =>
      obtain ⟨t1, pos, b⟩ := r
      rw [hi] at hrun
      simp only [Option.map_some', Option.bind_eq_bind, Option.some_bind] at hrun
      have hl1 := insert_same_length h v (by omega) hi
      have h1 := insert_inv (Or.inr h) hi
      obtain ⟨hl2, h2⟩ := ih t1 t2 h1 (by rw [hl1]; exact hroom) hrun hlt
      exact ⟨hl2.trans hl1, h2⟩

end Reserve

end flat_hash


namespace flat_hash

open hash_table

section MoreClaims

variable {V K : Type} [DecidableEq K]

/-! ## More reachable sample tables -/

theorem sampleWrap_reachable : Reachable (id : Nat → Nat) id sampleWrap :=
  reachable_insertSeq [7, 15] _ (Reachable.construct 0 _ rfl) _ (by decide)

theorem sampleWrapCopy_reachable : Reachable (id : Nat → Nat) id sampleWrapCopy :=
  reachable_insertSeq [15, 7] _ (Reachable.construct 0 _ rfl) _ (by decide)

theorem sampleRun_reachable : Reachable (id : Nat → Nat) id sampleRun :=
  reachable_insertSeq [8, 16, 24] _ (Reachable.construct 0 _ rfl) _ (by decide)

theorem sampleEmpty_reachable :
    Reachable (id : Nat → Nat) id ({ m_buckets := [], m_filledCount := 0 } : hash_table Nat) :=
  Reachable.construct 0 _ rfl

/-- A reachable table with a bucket array satisfies the invariant of allocated tables. -/
theorem Reachable.alloc {m_getKey : V → K} {m_hash : K → Nat} {t : hash_table V}
    (hr : Reachable m_getKey m_hash t) (ha : t.m_buckets ≠ []) : Alloc m_getKey m_hash t := by
  rcases hr.inv with ⟨h0, _⟩ | h
  · exact absurd h0 ha
  · exact h

/-- A table that satisfies the invariant and has size 0 reports every key as absent. -/
theorem find_of_count_zero {m_getKey : V → K} {m_hash : K → Nat} {t : hash_table V}
    (h : Inv m_getKey m_hash t) (h0 : t.m_filledCount = 0) (key : K) :
    find m_getKey m_hash t key = some t.end_ := by
  obtain ⟨r, hr, hiff, _⟩ := find_spec h key
  have hnil : elems t.m_buckets = [] := by
    have := h.count
    rw [h0] at this
    exact List.length_eq_zero.1 this.symm
  have : r = t.end_ := by
    rw [hiff]
    rintro ⟨y, hy, _⟩
    unfold Stored at hy
    rw [hnil] at hy
    exact absurd hy (List.not_mem_nil y)
  rw [hr, this]

/-! ## Capacity -/

/-- C11 (capacity only doubles).  For every reachable table with an allocated
bucket array: an `insert` that returns and a `reserve` that returns leave a
capacity that is the capacity before the call times `2 ^ k` for some `k`, hence
not a smaller one; an `erase` at a valid occupied position and a `clear` leave
the capacity as it was. -/
theorem C11_capacity_only_doubles (m_getKey : V → K) (m_hash : K → Nat) (t : hash_table V)
    (hr : Reachable m_getKey m_hash t) (ha : t.m_buckets ≠ []) :
    (∀ v t1 pos b, insert m_getKey m_hash t v = some (t1, pos, b) →
      (∃ k, t1.m_buckets.length - 1 = (t.m_buckets.length - 1) * 2 ^ k) ∧
        t.m_buckets.length - 1 ≤ t1.m_buckets.length - 1) ∧
    (∀ n t1, reserve m_getKey m_hash t n = some t1 →
      (∃ k, t1.m_buckets.length - 1 = (t.m_buckets.length - 1) * 2 ^ k) ∧
        t.m_buckets.length - 1 ≤ t1.m_buckets.length - 1) ∧
    (∀ pos t1 ret, Occupied t pos → erase t pos = some (t1, ret) →
      t1.m_buckets.length - 1 = t.m_buckets.length - 1) ∧
    (clear t).m_buckets.length - 1 = t.m_buckets.length - 1 := by
  have h := hr.alloc ha
  refine ⟨?_, ?_, ?_, ?_⟩
  · intro v t1 pos b hrun
    obtain ⟨k, hk⟩ := insert_capacity h v hrun
    exact ⟨⟨k, hk⟩, by rw [hk]; exact Nat.le_mul_of_pos_right _ (Nat.pow_pos (by norm_num))⟩
  · intro n t1 hrun
    obtain ⟨k, hk⟩ := reserve_capacity h hrun
    exact ⟨⟨k, hk⟩, by rw [hk]; exact Nat.le_mul_of_pos_right _ (Nat.pow_pos (by norm_num))⟩
  · intro pos t1 ret ho hrun
    obtain ⟨b, v, hb, hv⟩ := ho
    obtain ⟨t2, ret2, hrun2, _, hlen, _⟩ := erase_spec h hb hv
    rw [hrun] at hrun2
    have := (Prod.mk.inj (Option.some.inj hrun2)).1
    rw [this, hlen]
  · rw [clear_alloc h]
    show (List.replicate (t.m_buckets.length - 1) (Bucket.new : Bucket V)
      ++ [Bucket.setEnd Bucket.new]).length - 1 = _
    rw [fresh_length]
    exact Nat.add_sub_cancel _ _

/-- The sixth insert into `sampleFive` doubles the capacity from 8 to 16. -/
theorem C11_capacity_only_doubles_witness :
    Reachable (id : Nat → Nat) id sampleFive ∧ sampleFive.m_buckets ≠ [] ∧
    insert (id : Nat → Nat) id sampleFive 7 = some (sampleGrown, 7, true) ∧
    sampleFive.m_buckets.length - 1 = 8 ∧ sampleGrown.m_buckets.length - 1 = 16 ∧
    ((∃ k, sampleGrown.m_buckets.length - 1 = (sampleFive.m_buckets.length - 1) * 2 ^ k) ∧
      sampleFive.m_buckets.length - 1 ≤ sampleGrown.m_buckets.length - 1) :=
  ⟨sampleFive_reachable, by decide, by decide, by decide, by decide,
    (C11_capacity_only_doubles id id sampleFive sampleFive_reachable (by decide)).1
      7 sampleGrown 7 true (by decide)⟩

/-- C12 (reserve, then no growth).  For every reachable table `t` and every
`n` of type `size_t`: after `reserve(n)` has returned `t1`, every sequence
of inserts that ends with fewer than `n` elements keeps the capacity of `t1`,
and so does one more insert, the one that may bring the size to `n`. -/
theorem C12_reserve_then_no_growth (m_getKey : V → K) (m_hash : K → Nat)
    (t : hash_table V) (n : Nat) (t1 : hash_table V) (vs : List V) (t2 : hash_table V)
    (v : V) (t3 : hash_table V) (pos : Nat) (b : Bool)
    (hr : Reachable m_getKey m_hash t) (hn : n < WordSize)
    (hres : reserve m_getKey m_hash t n = some t1)
    (hseq : insertSeq m_getKey m_hash t1 vs = some t2) (hlt : t2.size < n)
    (hins : insert m_getKey m_hash t2 v = some (t3, pos, b)) :
    t2.m_buckets.length - 1 = t1.m_buckets.length - 1 ∧
      t3.m_buckets.length - 1 = t1.m_buckets.length - 1 ∧ t3.size ≤ n := by
  have hinv := hr.inv
  have hinv1 := reserve_inv hinv hres
  have hle := insertSeq_count_le vs t1 t2 hinv1 hseq
  have hlt1 : t.m_filledCount < n := by
    by_contra hc
    unfold reserve at hres
    rw [if_neg hc] at hres
    have : t = t1 := Option.some.inj hres
    subst this
    unfold size at hlt
    omega
  obtain ⟨h1, hroom, _, _⟩ := reserve_spec hinv hn hlt1 hres
  obtain ⟨hl2, h2⟩ := insertSeq_same_length n vs t1 t2 h1 hroom hseq hlt
  unfold size at hlt
  have hl3 := insert_same_length h2 v (by rw [hl2]; omega) hins
  obtain ⟨_, _, htrue, hfalse, _⟩ := insert_spec (Or.inr h2) v hins
  refine ⟨by rw [hl2], by rw [hl3, hl2], ?_⟩
  unfold size
  cases hb : b with
  | true => have := (htrue hb).2.2.2; omega
  | false => have := (hfalse hb).2.1; omega

/-- After `reserve(6)` on a default-constructed set, inserting 42, 63, 8, 16, 24
and then 7 keeps the sixteen buckets that `reserve` allocated. -/
theorem C12_reserve_then_no_growth_witness :
    Reachable (id : Nat → Nat) id ({ m_buckets := [], m_filledCount := 0 } : hash_table Nat) ∧
    6 < WordSize ∧
    reserve (id : Nat → Nat) id { m_buckets := [], m_filledCount := 0 } 6 = some sampleReserved ∧
    insertSeq (id : Nat → Nat) id sampleReserved [42, 63, 8, 16, 24] = some sampleRehashed ∧
    sampleRehashed.size < 6 ∧
    insert (id : Nat → Nat) id sampleRehashed 7 = some (sampleGrown, 7, true) ∧
    sampleReserved.m_buckets.length - 1 = 16 ∧
    (sampleRehashed.m_buckets.length - 1 = sampleReserved.m_buckets.length - 1 ∧
      sampleGrown.m_buckets.length - 1 = sampleReserved.m_buckets.length - 1 ∧
      sampleGrown.size ≤ 6) :=
  ⟨sampleEmpty_reachable, by decide, by decide, by decide, by decide, by decide, by decide,
    C12_reserve_then_no_growth id id { m_buckets := [], m_filledCount := 0 } 6 sampleReserved
      [42, 63, 8, 16, 24] sampleRehashed 7 sampleGrown 7 true
      sampleEmpty_reachable (by decide) (by decide) (by decide) (by decide) (by decide)⟩

/-! ## Clearing -/

/-- C13 (clear).  For every reachable table, after `clear()` the size is 0,
`find` returns `end()` for every key, every bucket other than the last one is
Empty and holds no element, the last one (in a table with a bucket array) is
the End bucket, and the bucket array has the length it had before the call. -/
theorem C13_clear_empties_keeps_capacity (m_getKey : V → K) (m_hash : K → Nat)
    (t : hash_table V) (hr : Reachable m_getKey m_hash t) :
    (clear t).size = 0 ∧
    (∀ key, find m_getKey m_hash (clear t) key = some (clear t).end_) ∧
    (∀ i : Nat, i + 1 < (clear t).m_buckets.length →
      ∃ b, (clear t).m_buckets[i]? = some b ∧ b.isEmpty = true ∧ b.valuePtr = none) ∧
    (t.m_buckets ≠ [] →
      ∃ b, (clear t).m_buckets[(clear t).end_]? = some b ∧ b.isEnd = true) ∧
    (clear t).m_buckets.length = t.m_buckets.length := by
  have hc := clear_inv hr.inv
  rcases hr.inv with ⟨h0, h1⟩ | h
  · have e : clear t = t := by
      unfold clear
      rw [h0]
      rfl
    rw [e]
    refine ⟨h1, fun key => find_of_count_zero hr.inv h1 key, ?_, fun hc => absurd h0 hc, rfl⟩
    intro i hi
    rw [h0] at hi
    exact absurd hi (by simp)
  · have e := clear_alloc h
    have hlen : (clear t).m_buckets.length = t.m_buckets.length := by
      rw [e]
      show (List.replicate (t.m_buckets.length - 1) (Bucket.new : Bucket V)
        ++ [Bucket.setEnd Bucket.new]).length = _
      rw [fresh_length]
      have := h.wf.len
      omega
    have hsz : (clear t).m_filledCount = 0 := by rw [e]
    refine ⟨hsz, fun key => find_of_count_zero hc hsz key, ?_, ?_, hlen⟩
    · intro i hi
      refine ⟨Bucket.new, ?_, rfl, valuePtr_new⟩
      rw [hlen] at hi
      rw [e]
      exact fresh_getElem?_lt _ (by omega)
    · intro _
      refine ⟨Bucket.setEnd Bucket.new, ?_, rfl⟩
      unfold end_
      rw [hlen, e]
      exact fresh_getElem?_last _

/-- Clearing `sampleFive` leaves eight Empty buckets and the End bucket. -/
theorem C13_clear_empties_keeps_capacity_witness :
    Reachable (id : Nat → Nat) id sampleFive ∧ clear sampleFive = sampleCleared ∧
    sampleFive.size = 5 ∧
    ((clear sampleFive).size = 0 ∧
    (∀ key, find (id : Nat → Nat) id (clear sampleFive) key = some (clear sampleFive).end_) ∧
    (∀ i : Nat, i + 1 < (clear sampleFive).m_buckets.length →
      ∃ b, (clear sampleFive).m_buckets[i]? = some b ∧ b.isEmpty = true ∧ b.valuePtr = none) ∧
    (sampleFive.m_buckets ≠ [] →
      ∃ b, (clear sampleFive).m_buckets[(clear sampleFive).end_]? = some b ∧ b.isEnd = true) ∧
    (clear sampleFive).m_buckets.length = sampleFive.m_buckets.length) :=
  ⟨sampleFive_reachable, by decide, by decide,
    C13_clear_empties_keeps_capacity id id sampleFive sampleFive_reachable⟩

end MoreClaims

end flat_hash


namespace flat_hash

open hash_table

section ErasePositions

variable {V K : Type} [DecidableEq K]

/-! ## The position returned by erase -/

/-- C14 (position returned by `erase`): the code differs.  The reachable set
`sampleWrap` (after `insert` of 7 and 15) iterates as 15 (bucket 0), 7 (bucket 7),
so 7 is its last element in iteration order.  The call `erase` at position 7
returns position 7, which is not `end()` (position 8): the backward shift has
moved 15 from bucket 0 round the array end into bucket 7, and the returned
position holds 15, the element that came before the erased one. -/
theorem C14_erase_last_returns_wrapped_element :
    Reachable (id : Nat → Nat) id sampleWrap ∧
    positions sampleWrap = some [0, 7] ∧
    iterValues sampleWrap = some [15, 7] ∧
    Occupied sampleWrap 7 ∧
    erase sampleWrap 7 = some (sampleWrapErased, 7) ∧
    sampleWrap.end_ = 8 ∧ sampleWrapErased.end_ = 8 ∧
    deref sampleWrapErased 7 = some 15 :=
  ⟨sampleWrap_reachable, by decide, by decide,
    ⟨⟨2 ^ 63 + 7, some 7⟩, 7, by decide, by decide⟩, by decide, by decide, by decide, by decide⟩

/-- C15 (range erase): the code differs.  In the reachable set `sampleRun`
(8, 16 and 24 in buckets 0, 1 and 2) the range from `begin()` (position 0) to
`++begin()` (position 1) holds the one element 8.  The loop of
`erase(first, last)` compares with the position `last` taken before the first
erase: every `erase` at position 0 shifts the next element into bucket 0 and
returns position 0, so 8, 16 and 24 are erased in turn; the third `erase`
returns `end()` (position 8), which still differs from `last`, and the fourth
`erase` is at the End bucket, which it overwrites before scanning past the
array.  The call has no result. -/
theorem C15_erase_range_overruns :
    Reachable (id : Nat → Nat) id sampleRun ∧
    sampleRun.begin = some 0 ∧ sampleRun.next 0 = some 1 ∧
    iterValues sampleRun = some [8, 16, 24] ∧
    erase sampleRun 0 = some (sampleRunTwo, 0) ∧
    erase sampleRunTwo 0 = some (sampleRunOne, 0) ∧
    erase sampleRunOne 0 = some (sampleCleared, 8) ∧
    sampleCleared.end_ = 8 ∧
    erase sampleCleared 8 = none ∧
    eraseRange sampleRun 0 1 = none :=
  ⟨sampleRun_reachable, by decide, by decide, by decide, by decide, by decide, by decide,
    by decide, by decide, by decide⟩

/-- C16 (erase everything).  For every reachable table with an allocated
bucket array, `begin()` returns a position `p`, and `erase(begin(), end())`
returns: its result is `end()`, of the table before and of the table after the
call, the size is 0 and `find` returns `end()` for every key. -/
theorem C16_erase_begin_to_end (m_getKey : V → K) (m_hash : K → Nat) (t : hash_table V)
    (hr : Reachable m_getKey m_hash t) (ha : t.m_buckets ≠ []) :
    ∃ p t1, t.begin = some p ∧ eraseRange t p t.end_ = some (t1, t.end_) ∧
      t1.end_ = t.end_ ∧ t1.size = 0 ∧
      ∀ key, find m_getKey m_hash t1 key = some t1.end_ := by
  have h := hr.alloc ha
  have hwf := h.wf
  obtain ⟨j, hj, _, hj2, hskip, hjv⟩ := scanIterator_spec hwf 0 (Nat.zero_le _)
  have hload := h.load
  obtain ⟨t1, hrun, h1, hlen, hcnt⟩ :=
    eraseRangeLoop_to_end t.m_filledCount (t.m_buckets.length + 1) t j h rfl rfl (by omega) hj2
      (fun i hi => hskip i (Nat.zero_le _) hi) hjv
  refine ⟨j, t1, ?_, hrun, ?_, hcnt, fun key => find_of_count_zero (Or.inr h1) hcnt key⟩
  · unfold hash_table.begin
    rw [h.isEmpty]
    simpa using hj
  · unfold end_
    rw [hlen]

/-- The call `erase(begin(), end())` on `sampleFive` leaves eight Empty buckets. -/
theorem C16_erase_begin_to_end_witness :
    Reachable (id : Nat → Nat) id sampleFive ∧ sampleFive.m_buckets ≠ [] ∧
    sampleFive.begin = some 0 ∧ sampleFive.end_ = 8 ∧
    eraseRange sampleFive 0 8 = some (sampleCleared, 8) ∧
    ∃ p t1, sampleFive.begin = some p ∧
      eraseRange sampleFive p sampleFive.end_ = some (t1, sampleFive.end_) ∧
      t1.end_ = sampleFive.end_ ∧ t1.size = 0 ∧
      ∀ key, find (id : Nat → Nat) id t1 key = some t1.end_ :=
  ⟨sampleFive_reachable, by decide, by decide, by decide, by decide,
    C16_erase_begin_to_end id id sampleFive sampleFive_reachable (by decide)⟩

end ErasePositions

section EqualityClaims

variable {V K : Type} [DecidableEq K] [DecidableEq V]

/-! ## Equality -/

/-- C17 (structural equality).  For any two reachable tables `a` and `b`,
`a == b` returns, and it returns true exactly when the sizes are equal and the
walks of `a` and of `b` from `begin()` to `end()` meet the same sequence of
elements; `a != b` returns the negation; tables of different sizes are
unequal. -/
theorem C17_structural_equality (m_getKey : V → K) (m_hash : K → Nat) (a b : hash_table V)
    (ha : Reachable m_getKey m_hash a) (hb : Reachable m_getKey m_hash b) :
    ∃ r, operatorEq a b = some r ∧ operatorNe a b = some (!r) ∧
      (r = true ↔ a.size = b.size ∧ iterValues a = iterValues b) ∧
      (a.size ≠ b.size → r = false) := by
  have hs := operatorEq_spec ha.inv hb.inv
  refine ⟨_, hs, ?_, ?_, ?_⟩
  · unfold operatorNe
    rw [hs]
    rfl
  · rw [iterValues_eq ha.inv, iterValues_eq hb.inv, decide_eq_true_iff]
    constructor
    · rintro ⟨h1, h2⟩
      exact ⟨h1, by rw [h2]⟩
    · rintro ⟨h1, h2⟩
      exact ⟨h1, Option.some.inj h2⟩
  · intro hne
    rw [decide_eq_false_iff_not]
    exact fun hc => hne hc.1

/-- The set `sampleSmall` equals itself. -/
theorem C17_structural_equality_witness :
    Reachable (id : Nat → Nat) id sampleSmall ∧
    operatorEq sampleSmall sampleSmall = some true ∧
    ∃ r, operatorEq sampleSmall sampleSmall = some r ∧
      operatorNe sampleSmall sampleSmall = some (!r) ∧
      (r = true ↔ sampleSmall.size = sampleSmall.size ∧
        iterValues sampleSmall = iterValues sampleSmall) ∧
      (sampleSmall.size ≠ sampleSmall.size → r = false) :=
  ⟨sampleSmall_reachable, by decide,
    C17_structural_equality id id sampleSmall sampleSmall sampleSmall_reachable
      sampleSmall_reachable⟩

/-- C18 (a copy equals its original): the code differs.  The set `sampleWrap`
is built from a default-constructed set by `insert` of 7 and 15, and iterates
as 15, 7.  Inserting 15 and 7 in this order into a fresh set, with or without
the `reserve` of the range constructor, gives `sampleWrapCopy`, where 15 sits
in bucket 7 and 7 has wrapped round to bucket 0: the copy iterates as 7, 15,
and `operator==` on the original and the copy returns false. -/
theorem C18_copy_differs_from_original :
    hash_table.new (id : Nat → Nat) id 0 = some { m_buckets := [], m_filledCount := 0 } ∧
    insertSeq (id : Nat → Nat) id { m_buckets := [], m_filledCount := 0 } [7, 15]
      = some sampleWrap ∧
    iterValues sampleWrap = some [15, 7] ∧
    insertSeq (id : Nat → Nat) id { m_buckets := [], m_filledCount := 0 } [15, 7]
      = some sampleWrapCopy ∧
    copyOf (id : Nat → Nat) id sampleWrap = some sampleWrapCopy ∧
    iterValues sampleWrapCopy = some [7, 15] ∧
    operatorEq sampleWrap sampleWrapCopy = some false :=
  ⟨by decide, by decide, by decide, by decide, by decide, by decide, by decide⟩

/-- C19 (an assigned table equals its source): the code differs.  For the
reachable sets `a = sampleWrap` and `b = sampleSmall`, the copy assignment
`b = a` returns `sampleWrapCopy`, and so does the assignment to a
default-constructed set; `a == b` and `b == a` then return false, and
`a != b` returns true. -/
theorem C19_assigned_differs_from_source :
    Reachable (id : Nat → Nat) id sampleWrap ∧
    Reachable (id : Nat → Nat) id sampleSmall ∧
    assign (id : Nat → Nat) id sampleSmall sampleWrap = some sampleWrapCopy ∧
    assign (id : Nat → Nat) id { m_buckets := [], m_filledCount := 0 } sampleWrap
      = some sampleWrapCopy ∧
    operatorEq sampleWrap sampleWrapCopy = some false ∧
    operatorEq sampleWrapCopy sampleWrap = some false ∧
    operatorNe sampleWrap sampleWrapCopy = some true :=
  ⟨sampleWrap_reachable, sampleSmall_reachable, by decide, by decide, by decide, by decide,
    by decide⟩

/-- C20 (equality depends on the insertion order).  There are two sets built
from a default-constructed set by inserting the same two keys, 7 and 15, in
the two possible orders: they store the same elements, iterate in different
orders, and `operator==` on them returns false. -/
theorem C20_same_keys_unequal_tables :
    ∃ (vs1 vs2 : List Nat) (t0 a b : hash_table Nat),
      hash_table.new (id : Nat → Nat) id 0 = some t0 ∧
      vs1.Nodup ∧ vs1.Perm vs2 ∧ vs1 ≠ vs2 ∧
      insertSeq (id : Nat → Nat) id t0 vs1 = some a ∧
      insertSeq (id : Nat → Nat) id t0 vs2 = some b ∧
      (∀ k, Stored a k ↔ k ∈ vs1) ∧ (∀ k, Stored b k ↔ k ∈ vs1) ∧
      a.size = b.size ∧
      iterValues a ≠ iterValues b ∧
      operatorEq a b = some false :=
  ⟨[7, 15], [15, 7], { m_buckets := [], m_filledCount := 0 }, sampleWrap, sampleWrapCopy,
    by decide, by decide, List.Perm.swap 15 7 [], by decide, by decide, by decide,
    fun k => by
      show k ∈ [15, 7] ↔ k ∈ [7, 15]
      simp only [List.mem_cons, List.mem_singleton, List.not_mem_nil, or_false]
      exact Or.comm,
    fun k => Iff.rfl, by decide, by decide, by decide⟩

end EqualityClaims

end flat_hash


namespace flat_hash

open hash_table

section Shape

variable {V K : Type}

/-! ## The doubling loop returns -/

/-- The doubling loop started at `2 ^ k` returns when some `2 ^ (k + g)` below
the word size satisfies the load bound, after at most `g` doublings. -/
theorem growLoop_returns {n : Nat} :
    ∀ (g fuel k : Nat), k + g ≤ 63 → 10 * n ≤ 7 * 2 ^ (k + g) → g < fuel →
      ∃ j, j ≤ g ∧ growLoop n fuel (2 ^ k) = some (2 ^ (k + j)) := by
  intro g
  induction g with
  | zero =>
    intro fuel k _ h hf
    obtain ⟨f, rfl⟩ : ∃ f, fuel = f + 1 := ⟨fuel - 1, by omega⟩
    exact ⟨0, Nat.le_refl _, growLoop_noop h f⟩
  | succ g ih =>
    intro fuel k hk h hf
    obtain ⟨f, rfl⟩ : ∃ f, fuel = f + 1 := ⟨fuel - 1, by omega⟩
    by_cases hg : 10 * n > 7 * 2 ^ k
    · have hz : 2 ^ k * 2 % WordSize = 2 ^ (k + 1) := by
        rw [← Nat.pow_succ]
        exact Nat.mod_eq_of_lt (two_pow_lt_WordSize (by omega))
      have h1 : 10 * n ≤ 7 * 2 ^ (k + 1 + g) := by
        rw [show k + 1 + g = k + (g + 1) by omega]
        exact h
      obtain ⟨j, hj, hr⟩ := ih f (k + 1) (by omega) h1 (by omega)
      refine ⟨j + 1, by omega, ?_⟩
      rw [growLoop, if_pos hg, hz, hr, show k + 1 + j = k + (j + 1) by omega]
    · exact ⟨0, Nat.zero_le _, growLoop_noop (by omega) f⟩

/-! ## Hash words -/

theorem or_filledHashBit_ne_zero (h : Nat) : h ||| FilledHashBit ≠ 0 := by
  intro hc
  have := or_pow_and_pow_ne_zero h 63
  unfold FilledHashBit at hc
  rw [hc] at this
  exact this (by simp)

theorem or_filledHashBit_ne_one (h : Nat) : h ||| FilledHashBit ≠ 1 := by
  intro hc
  have := or_pow_and_pow_ne_zero h 63
  unfold FilledHashBit at hc
  rw [hc] at this
  exact this (by decide)

theorem isEnd_filledBucket {m_getKey : V → K} {m_hash : K → Nat} (v : V) :
    (filledBucket m_getKey m_hash v).isEnd = false := by
  simp only [Bucket.isEnd, filledBucket, hashWord, EndHashValue]
  rw [beq_eq_false_iff_ne]
  exact or_filledHashBit_ne_one _

/-- The kinds of bucket in an allocated array: Empty before the last index,
Filled before the last index, or End at the last index. -/
theorem WF.classify {m_getKey : V → K} {m_hash : K → Nat} {cap : Nat}
    {buckets : List (Bucket V)} (hwf : WF m_getKey m_hash cap buckets) {i : Nat} {b : Bucket V}
    (hb : buckets[i]? = some b) :
    (i < cap ∧ b = Bucket.new) ∨ (i < cap ∧ ∃ v, b = filledBucket m_getKey m_hash v) ∨
      (i = cap ∧ b = Bucket.setEnd Bucket.new) := by
  obtain ⟨hlt, _⟩ := List.getElem?_eq_some.1 hb
  rw [hwf.len] at hlt
  by_cases hic : i = cap
  · right; right
    subst hic
    rw [hwf.last] at hb
    exact ⟨rfl, (Option.some.inj hb).symm⟩
  · have hi : i < cap := by omega
    rcases hwf.slots i hi with h0 | ⟨v, hv⟩
    · left
      rw [h0] at hb
      exact ⟨hi, (Option.some.inj hb).symm⟩
    · right; left
      rw [hv] at hb
      exact ⟨hi, v, (Option.some.inj hb).symm⟩

/-- An allocated table has its one End bucket at the final index. -/
theorem Alloc.sentinelLast {m_getKey : V → K} {m_hash : K → Nat} {t : hash_table V}
    (h : Alloc m_getKey m_hash t) : SentinelLast t := by
  refine ⟨⟨Bucket.setEnd Bucket.new, h.wf.last, rfl⟩, ?_⟩
  intro i b hb he
  rcases h.wf.classify hb with ⟨_, h0⟩ | ⟨_, v, hv⟩ | ⟨hi, _⟩
  · have hn : (Bucket.new : Bucket V).isEnd = false := rfl
    rw [h0, hn] at he
    exact Bool.noConfusion he
  · rw [hv, isEnd_filledBucket] at he
    exact Bool.noConfusion he
  · exact hi

end Shape

section Growth

variable {V K : Type} [DecidableEq K]

/-! ## Growth -/

/-- C21 (`checkCapacity`), with the precondition that it needs.  For every
reachable table and every `additional` such that some capacity `c0 * 2 ^ g`
within the allocation limit satisfies the load bound, where `c0` is the
capacity before the call, or `MinCapacity` without a bucket array:
`checkCapacity(additional)` returns; afterwards
`(m_filledCount + additional) / capacity ≤ 0.7`; the capacity is `c0 * 2 ^ k`
for the least `k` that satisfies this bound; with a bucket array and `k = 0`
the table is left as it was; and in every case size and elements are kept. -/
theorem C21_checkCapacity_doubles_to_fit (m_getKey : V → K) (m_hash : K → Nat)
    (t : hash_table V) (additional g : Nat) (hr : Reachable m_getKey m_hash t)
    (hfit : 10 * (t.m_filledCount + additional) ≤
      7 * ((if ¬ t.m_buckets.isEmpty then t.m_buckets.length - 1 else MinCapacity) * 2 ^ g))
    (hmax : (if ¬ t.m_buckets.isEmpty then t.m_buckets.length - 1 else MinCapacity) * 2 ^ g + 1
      ≤ MaxBuckets) :
    ∃ t1 k, checkCapacity m_getKey m_hash t additional = some t1 ∧
      10 * (t1.m_filledCount + additional) ≤ 7 * (t1.m_buckets.length - 1) ∧
      t1.m_buckets.length - 1 =
        (if ¬ t.m_buckets.isEmpty then t.m_buckets.length - 1 else MinCapacity) * 2 ^ k ∧
      (∀ i, i < k → 10 * (t.m_filledCount + additional) >
        7 * ((if ¬ t.m_buckets.isEmpty then t.m_buckets.length - 1 else MinCapacity) * 2 ^ i)) ∧
      (k = 0 → t.m_buckets ≠ [] → t1 = t) ∧
      t1.m_filledCount = t.m_filledCount ∧ (elems t1.m_buckets).Perm (elems t.m_buckets) := by
  obtain ⟨k0, hk3, _, hstart, _⟩ := hr.inv.start
  rw [hstart, ← Nat.pow_add] at hfit hmax
  have hkg : k0 + g ≤ 47 := pow_le_of_succ_le_MaxBuckets hmax
  have h47 : 2 ^ (k0 + g) ≤ 2 ^ 47 := Nat.pow_le_pow_right (by norm_num) hkg
  have hW : (2:Nat) ^ 47 < WordSize := by unfold WordSize; norm_num
  have hmod : (t.m_filledCount + additional) % WordSize = t.m_filledCount + additional :=
    Nat.mod_eq_of_lt (by omega)
  obtain ⟨j, hj, hg⟩ := @growLoop_returns (t.m_filledCount + additional) g 65 k0
    (by omega) hfit (by omega)
  have hmaxj : 2 ^ (k0 + j) + 1 ≤ MaxBuckets := by
    have : 2 ^ (k0 + j) ≤ 2 ^ 47 := Nat.pow_le_pow_right (by norm_num) (by omega)
    unfold MaxBuckets
    omega
  rw [← hmod] at hg
  obtain ⟨t1, hrun⟩ := checkCapacityWith_returns
    (insertOK_insert : InsertOK m_getKey m_hash (insert m_getKey m_hash)) hr.inv hstart (by omega : 3 ≤ k0 + j) (by omega) hg hmaxj
  obtain ⟨_, hperm, hcnt, hroom, k1, j1, hstart1, hcap, hmin, hj0⟩ :=
    checkCapacityWith_some insertOK_insert hr.inv hrun
  rw [hmod] at hroom
  refine ⟨t1, j1, hrun, by rw [hcnt]; exact hroom, ?_, ?_, hj0, hcnt, hperm⟩
  · rw [hcap, hstart1, Nat.pow_add]
  · intro i hi
    have := hmin i hi
    rw [hmod, Nat.pow_add] at this
    rw [hstart1]
    exact this

/-- The call `checkCapacity(6)` on `sampleFive` doubles the capacity once, to 16. -/
theorem C21_checkCapacity_doubles_to_fit_witness :
    Reachable (id : Nat → Nat) id sampleFive ∧
    checkCapacity (id : Nat → Nat) id sampleFive 6 = some sampleRehashed ∧
    sampleRehashed.m_buckets.length - 1 = 16 ∧
    ∃ t1 k, checkCapacity (id : Nat → Nat) id sampleFive 6 = some t1 ∧
      10 * (t1.m_filledCount + 6) ≤ 7 * (t1.m_buckets.length - 1) ∧
      t1.m_buckets.length - 1 =
        (if ¬ sampleFive.m_buckets.isEmpty then sampleFive.m_buckets.length - 1
          else MinCapacity) * 2 ^ k ∧
      (∀ i, i < k → 10 * (sampleFive.m_filledCount + 6) >
        7 * ((if ¬ sampleFive.m_buckets.isEmpty then sampleFive.m_buckets.length - 1
          else MinCapacity) * 2 ^ i)) ∧
      (k = 0 → sampleFive.m_buckets ≠ [] → t1 = sampleFive) ∧
      t1.m_filledCount = sampleFive.m_filledCount ∧
      (elems t1.m_buckets).Perm (elems sampleFive.m_buckets) :=
  ⟨sampleFive_reachable, by decide, by decide,
    C21_checkCapacity_doubles_to_fit id id sampleFive 6 1 sampleFive_reachable
      (by decide) (by decide)⟩

/-- C21, the claim as it stands, fails: on the reachable set `sampleFive`
(5 elements, capacity 8) the call `checkCapacity(2 ^ 63)` does not return.  The
numerator `5 + 2 ^ 63` exceeds `0.7 * newSize` for every `newSize` up to
`2 ^ 63`; the next doubling wraps `newSize` to 0, where the quotient is
infinite and `newSize *= 2` changes nothing. -/
theorem C21_counterexample :
    Reachable (id : Nat → Nat) id sampleFive ∧
    1 ≤ 2 ^ 63 ∧ 2 ^ 63 < WordSize ∧
    growLoop (5 + 2 ^ 63) 65 8 = none ∧
    (∀ fuel, growLoop (5 + 2 ^ 63) fuel 0 = none) ∧
    checkCapacity (id : Nat → Nat) id sampleFive (2 ^ 63) = none :=
  ⟨sampleFive_reachable, by decide, by decide, by decide,
    fun fuel => growLoop_zero (by decide) fuel, by decide⟩

/-! ## The bucket index of a hash word -/

/-- C22 (`hashBucket`).  For every bucket array of length `2 ^ k + 1` that a
`size_t` can measure and every hash word `h`: `hashBucket(h)` is `h` masked
with the array length minus 2, which is `h & (capacity - 1)` and `h mod
capacity`; it is below the capacity and so never the index of the last
bucket. -/
theorem C22_hashBucket_mask (buckets : List (Bucket V)) (k h : Nat)
    (hlen : buckets.length = 2 ^ k + 1) (hsz : buckets.length < WordSize) :
    hashBucket buckets h = h &&& (buckets.length - 2) ∧
    hashBucket buckets h = h &&& (2 ^ k - 1) ∧
    hashBucket buckets h = h % 2 ^ k ∧
    hashBucket buckets h < 2 ^ k ∧ hashBucket buckets h < buckets.length - 1 := by
  have hpos : 0 < 2 ^ k := Nat.pow_pos (by norm_num)
  have e : (buckets.length + WordSize - 2) % WordSize = 2 ^ k - 1 := by
    have : buckets.length + WordSize - 2 = (2 ^ k - 1) + WordSize := by omega
    rw [this, Nat.add_mod_right]
    exact Nat.mod_eq_of_lt (by omega)
  have e2 : buckets.length - 2 = 2 ^ k - 1 := by omega
  have hmod : hashBucket buckets h = h % 2 ^ k := by
    unfold hashBucket
    rw [e, Nat.and_pow_two_sub_one_eq_mod]
  have hlt : h % 2 ^ k < 2 ^ k := Nat.mod_lt _ hpos
  refine ⟨?_, ?_, hmod, by rw [hmod]; exact hlt, by rw [hmod]; omega⟩
  · rw [e2, hmod, Nat.and_pow_two_sub_one_eq_mod]
  · rw [hmod, Nat.and_pow_two_sub_one_eq_mod]

/-- In the nine buckets of `sampleFive` the hash word of 42 has bucket index 2. -/
theorem C22_hashBucket_mask_witness :
    sampleFive.m_buckets.length = 2 ^ 3 + 1 ∧ sampleFive.m_buckets.length < WordSize ∧
    hashBucket sampleFive.m_buckets (2 ^ 63 + 42) = 2 ∧
    (hashBucket sampleFive.m_buckets (2 ^ 63 + 42)
        = (2 ^ 63 + 42) &&& (sampleFive.m_buckets.length - 2) ∧
      hashBucket sampleFive.m_buckets (2 ^ 63 + 42) = (2 ^ 63 + 42) &&& (2 ^ 3 - 1) ∧
      hashBucket sampleFive.m_buckets (2 ^ 63 + 42) = (2 ^ 63 + 42) % 2 ^ 3 ∧
      hashBucket sampleFive.m_buckets (2 ^ 63 + 42) < 2 ^ 3 ∧
      hashBucket sampleFive.m_buckets (2 ^ 63 + 42) < sampleFive.m_buckets.length - 1) :=
  ⟨by decide, by decide, by decide,
    C22_hashBucket_mask sampleFive.m_buckets 3 (2 ^ 63 + 42) (by decide) (by decide)⟩

end Growth

end flat_hash


namespace flat_hash

open hash_table

section StateInvariants

variable {V K : Type} [DecidableEq K]

/-! ## The End bucket -/

/-- C23 (sentinel).  In every reachable table with an allocated bucket array
the bucket at the final index is End and no other bucket is; the same holds of
the table after an `insert`, after an `erase` at a valid occupied position,
after `clear` and after `checkCapacity` (growth), and `erase` and `clear` leave
the final index where it was. -/
theorem C23_sentinel_last (m_getKey : V → K) (m_hash : K → Nat) (t : hash_table V)
    (hr : Reachable m_getKey m_hash t) (ha : t.m_buckets ≠ []) :
    SentinelLast t ∧
    (∀ v t1 pos b, insert m_getKey m_hash t v = some (t1, pos, b) → SentinelLast t1) ∧
    (∀ pos t1 ret, Occupied t pos → erase t pos = some (t1, ret) →
      SentinelLast t1 ∧ t1.end_ = t.end_) ∧
    (SentinelLast (clear t) ∧ (clear t).end_ = t.end_) ∧
    (∀ n t1, checkCapacity m_getKey m_hash t n = some t1 → SentinelLast t1) := by
  have h := hr.alloc ha
  refine ⟨h.sentinelLast, ?_, ?_, ?_, ?_⟩
  · intro v t1 pos b hrun
    exact (insert_inv (Or.inr h) hrun).sentinelLast
  · intro pos t1 ret ho hrun
    obtain ⟨b, v, hb, hv⟩ := ho
    obtain ⟨t2, ret2, hrun2, h2, hlen, _⟩ := erase_spec h hb hv
    rw [hrun] at hrun2
    have e := (Prod.mk.inj (Option.some.inj hrun2)).1
    subst e
    refine ⟨h2.sentinelLast, ?_⟩
    unfold end_
    rw [hlen]
  · have hc : Alloc m_getKey m_hash (clear t) := by
      rw [clear_alloc h]
      obtain ⟨k, hk3, hk, hcap⟩ := h.wf.pow
      rw [hcap]
      exact alloc_fresh hk3 hk
    refine ⟨hc.sentinelLast, ?_⟩
    unfold end_
    rw [clear_alloc h]
    show (List.replicate (t.m_buckets.length - 1) (Bucket.new : Bucket V)
      ++ [Bucket.setEnd Bucket.new]).length - 1 = _
    rw [fresh_length]
    exact Nat.add_sub_cancel _ _
  · intro n t1 hrun
    exact (checkCapacity_inv (Or.inr h) hrun).sentinelLast

/-- The End bucket of `sampleFive` is its ninth bucket, and it stays the last
bucket of the seventeen that the sixth insert leaves. -/
theorem C23_sentinel_last_witness :
    Reachable (id : Nat → Nat) id sampleFive ∧ sampleFive.m_buckets ≠ [] ∧
    sampleFive.end_ = 8 ∧ sampleGrown.end_ = 16 ∧
    insert (id : Nat → Nat) id sampleFive 7 = some (sampleGrown, 7, true) ∧
    SentinelLast sampleFive ∧ SentinelLast sampleGrown :=
  ⟨sampleFive_reachable, by decide, by decide, by decide, by decide,
    (C23_sentinel_last id id sampleFive sampleFive_reachable (by decide)).1,
    (C23_sentinel_last id id sampleFive sampleFive_reachable (by decide)).2.1
      7 sampleGrown 7 true (by decide)⟩

/-! ## The shape of the bucket array -/

/-- C24 (shape).  In every reachable table the bucket array has length 0, or
length `capacity + 1` for a capacity that is a power of two and at least
`MinCapacity = 8`. -/
theorem C24_bucket_array_shape (m_getKey : V → K) (m_hash : K → Nat) (t : hash_table V)
    (hr : Reachable m_getKey m_hash t) :
    t.m_buckets.length = 0 ∨
      ∃ k, t.m_buckets.length = 2 ^ k + 1 ∧ MinCapacity ≤ 2 ^ k ∧ 3 ≤ k := by
  rcases hr.inv with ⟨h0, _⟩ | h
  · left
    rw [h0]
    rfl
  · right
    obtain ⟨k, hk3, _, hcap⟩ := h.wf.pow
    have h8 := h.wf.cap_pos
    have hlen := h.wf.len
    refine ⟨k, by rw [← hcap]; exact hlen, ?_, hk3⟩
    rw [← hcap]
    exact h8

/-- The bucket array of `sampleFive` has `2 ^ 3 + 1` buckets. -/
theorem C24_bucket_array_shape_witness :
    Reachable (id : Nat → Nat) id sampleFive ∧ sampleFive.m_buckets.length = 9 ∧
    (sampleFive.m_buckets.length = 0 ∨
      ∃ k, sampleFive.m_buckets.length = 2 ^ k + 1 ∧ MinCapacity ≤ 2 ^ k ∧ 3 ≤ k) :=
  ⟨sampleFive_reachable, by decide,
    C24_bucket_array_shape id id sampleFive sampleFive_reachable⟩

/-! ## The encoding of the hash word -/

/-- C25 (hash word encoding).  The word that `setFilled` stores for a 64-bit
hash `h` is `h | 2 ^ 63`: a 64-bit word that is neither `EmptyHashValue` (0)
nor `EndHashValue` (1).  In every reachable table the word of every bucket is
0, 1 or has the filled bit set, and of the three tests `isEmpty`, `isEnd` and
`valuePtr` non-null exactly one succeeds. -/
theorem C25_hash_word_encoding (m_getKey : V → K) (m_hash : K → Nat) (t : hash_table V)
    (hr : Reachable m_getKey m_hash t) :
    (∀ (b : Bucket V) (h : Nat) (v : V), h < WordSize →
      (b.setFilled h v).hash = h ||| 2 ^ 63 ∧ (b.setFilled h v).hash < WordSize ∧
      (b.setFilled h v).hash ≠ EmptyHashValue ∧ (b.setFilled h v).hash ≠ EndHashValue ∧
      (b.setFilled h v).hash &&& FilledHashBit ≠ 0) ∧
    (∀ (i : Nat) (b : Bucket V), t.m_buckets[i]? = some b →
      (b.hash = 0 ∨ b.hash = 1 ∨ b.hash &&& FilledHashBit ≠ 0) ∧
      ((b.isEmpty = true ∧ b.isEnd = false ∧ b.valuePtr = none) ∨
       (b.isEmpty = false ∧ b.isEnd = true ∧ b.valuePtr = none) ∨
       (b.isEmpty = false ∧ b.isEnd = false ∧ ∃ v, b.valuePtr = some v))) := by
  constructor
  · intro b h v hh
    refine ⟨rfl, ?_, or_filledHashBit_ne_zero h, or_filledHashBit_ne_one h,
      or_pow_and_pow_ne_zero h 63⟩
    show h ||| 2 ^ 63 < 2 ^ 64
    exact Nat.or_lt_two_pow hh (by norm_num)
  · intro i b hb
    rcases hr.inv with ⟨h0, _⟩ | h
    · rw [h0] at hb
      exact absurd hb (by simp)
    · rcases h.wf.classify hb with ⟨_, h0⟩ | ⟨_, v, hv⟩ | ⟨_, he⟩
      · subst h0
        exact ⟨Or.inl rfl, Or.inl ⟨rfl, rfl, valuePtr_new⟩⟩
      · subst hv
        refine ⟨Or.inr (Or.inr ?_), Or.inr (Or.inr ⟨isEmpty_filledBucket v,
          isEnd_filledBucket v, v, valuePtr_filledBucket v⟩)⟩
        exact or_pow_and_pow_ne_zero _ 63
      · subst he
        exact ⟨Or.inr (Or.inl rfl), Or.inr (Or.inl ⟨rfl, rfl, valuePtr_setEnd _⟩)⟩

/-- The word stored with 42 in `sampleFive` is `42 | 2 ^ 63`, and its bucket passes
only the `valuePtr` test. -/
theorem C25_hash_word_encoding_witness :
    Reachable (id : Nat → Nat) id sampleFive ∧
    sampleFive.m_buckets[3]? = some ⟨42 ||| 2 ^ 63, some 42⟩ ∧
    ((42 ||| 2 ^ 63 = 0 ∨ 42 ||| 2 ^ 63 = 1 ∨ (42 ||| 2 ^ 63) &&& FilledHashBit ≠ 0) ∧
      (((⟨42 ||| 2 ^ 63, some 42⟩ : Bucket Nat).isEmpty = true ∧
          (⟨42 ||| 2 ^ 63, some 42⟩ : Bucket Nat).isEnd = false ∧
          (⟨42 ||| 2 ^ 63, some 42⟩ : Bucket Nat).valuePtr = none) ∨
       ((⟨42 ||| 2 ^ 63, some 42⟩ : Bucket Nat).isEmpty = false ∧
          (⟨42 ||| 2 ^ 63, some 42⟩ : Bucket Nat).isEnd = true ∧
          (⟨42 ||| 2 ^ 63, some 42⟩ : Bucket Nat).valuePtr = none) ∨
       ((⟨42 ||| 2 ^ 63, some 42⟩ : Bucket Nat).isEmpty = false ∧
          (⟨42 ||| 2 ^ 63, some 42⟩ : Bucket Nat).isEnd = false ∧
          ∃ v, (⟨42 ||| 2 ^ 63, some 42⟩ : Bucket Nat).valuePtr = some v))) :=
  ⟨sampleFive_reachable, by decide,
    (C25_hash_word_encoding id id sampleFive sampleFive_reachable).2 3
      ⟨42 ||| 2 ^ 63, some 42⟩ (by decide)⟩

end StateInvariants

end flat_hash


namespace flat_hash

open hash_table

section Facades

variable {V K M : Type} [DecidableEq K]

/-! ## Access by key -/

theorem sampleMap_reachable :
    Reachable (fun value : Nat × Nat => value.1) id sampleMap :=
  reachable_insertSeq [(42, 100), (63, 200)] _ (Reachable.construct 0 _ rfl) _ (by decide)

theorem deref_of_holdsAt {t : hash_table V} {pos : Nat} {v : V} (h : HoldsAt t pos v) :
    t.deref pos = some v := by
  obtain ⟨b, hb, hv⟩ := h
  unfold deref
  rw [hb]
  exact hv

/-- The lookup and the removal that `erase(key)` is made of: `find` returns
`end()` and the key is absent, or `find` returns another position, `erase` at
it returns, and the key is absent afterwards. -/
theorem erase_found_spec {m_getKey : V → K} {m_hash : K → Nat} {t : hash_table V}
    (h : Inv m_getKey m_hash t) (key : K) :
    ∃ i, find m_getKey m_hash t key = some i ∧
      ((i = t.end_ ∧ ¬ ∃ y, Stored t y ∧ m_getKey y = key) ∨
       (i ≠ t.end_ ∧ ∃ y t1 ret, Stored t y ∧ m_getKey y = key ∧
          erase t i = some (t1, ret) ∧ Inv m_getKey m_hash t1 ∧
          t1.m_filledCount + 1 = t.m_filledCount ∧
          (elems t.m_buckets).Perm (y :: elems t1.m_buckets) ∧
          find m_getKey m_hash t1 key = some t1.end_)) := by
  obtain ⟨p, hp, hiff, hhold⟩ := find_spec h key
  refine ⟨p, hp, ?_⟩
  by_cases hpe : p = t.end_
  · exact Or.inl ⟨hpe, hiff.1 hpe⟩
  · right
    obtain ⟨y, ⟨b, hb, hv⟩, hky⟩ := hhold hpe
    have ha := h.alloc_of_occupied ⟨b, y, hb, hv⟩
    obtain ⟨t1, ret, hrun, h1, _, hperm, hcnt, _⟩ := erase_spec ha hb hv
    have hnd : ((y :: elems t1.m_buckets).map m_getKey).Nodup :=
      ((hperm.map m_getKey).nodup_iff).1 ha.nodup
    rw [List.map_cons, List.nodup_cons] at hnd
    have habs : ¬ ∃ z, Stored t1 z ∧ m_getKey z = key := by
      rintro ⟨z, hz, hkz⟩
      exact hnd.1 (by rw [hky, ← hkz]; exact List.mem_map_of_mem m_getKey hz)
    obtain ⟨r, hr, hiff1, _⟩ := find_spec (Or.inr h1) key
    have hre : r = t1.end_ := hiff1.2 habs
    exact ⟨hpe, y, t1, ret, mem_elems_of_getElem? hb hv, hky, hrun, Or.inr h1, hcnt, hperm,
      by rw [hr, hre]⟩

/-- C26 (`hash_map::at`).  For every map whose table satisfies the table
invariant, as every reachable table does, and every key: `at(key)` returns or
throws, without a change to the table; it throws `std::out_of_range` exactly
when no entry with the key is stored, and otherwise returns the mapped value of
the stored entry with that key. -/
theorem C26_at_throws_iff_absent (m_hash : K → Nat) (t : hash_table (K × M)) (key : K)
    (h : Inv (fun value : K × M => value.1) m_hash t) :
    ∃ r, hash_map.at_ m_hash t key = some (t, r) ∧
      (r = Except.error Exception.out_of_range ↔ ¬ ∃ e, Stored t e ∧ e.1 = key) ∧
      (∀ e, Stored t e → e.1 = key → r = Except.ok e.2) := by
  obtain ⟨p, hp, hiff, hhold⟩ := find_spec h key
  unfold hash_map.at_
  rw [hp]
  simp only
  by_cases hpe : p = t.end_
  · rw [if_pos hpe]
    refine ⟨_, rfl, ⟨fun _ => hiff.1 hpe, fun _ => rfl⟩, ?_⟩
    intro e he hk
    exact absurd ⟨e, he, hk⟩ (hiff.1 hpe)
  · rw [if_neg hpe]
    obtain ⟨y, hy, hky⟩ := hhold hpe
    rw [deref_of_holdsAt hy]
    refine ⟨_, rfl, ⟨fun hc => Except.noConfusion hc, fun hn => absurd ⟨y, hy.stored, hky⟩ hn⟩, ?_⟩
    intro e he hk
    have : e = y := eq_of_key_eq h.nodup he hy.stored (hk.trans hky.symm)
    rw [this]

/-- In `sampleMap` the key 42 has the mapped value 100. -/
theorem C26_at_throws_iff_absent_witness :
    Inv (fun value : Nat × Nat => value.1) id sampleMap ∧
    hash_map.at_ id sampleMap 42 = some (sampleMap, Except.ok 100) ∧
    hash_map.at_ id sampleMap 8 = some (sampleMap, Except.error Exception.out_of_range) ∧
    ∃ r, hash_map.at_ id sampleMap 42 = some (sampleMap, r) ∧
      (r = Except.error Exception.out_of_range ↔ ¬ ∃ e, Stored sampleMap e ∧ e.1 = 42) ∧
      (∀ e, Stored sampleMap e → e.1 = 42 → r = Except.ok e.2) :=
  ⟨sampleMap_reachable.inv, rfl, rfl,
    C26_at_throws_iff_absent id sampleMap 42 sampleMap_reachable.inv⟩

/-- C27 (`hash_map::operator[]`).  For every map whose table satisfies the
table invariant and every key, when an array of twice the current length can
be allocated: `m[key]` returns, and the position it refers to holds an entry
with this key and the returned mapped value.  If the key is stored, the table
is unchanged and the entry is the stored one.  If it is not, the value is
`mapped_type()`, the size has grown by exactly 1, and the table holds the old
entries and the new one. -/
theorem C27_index_finds_or_inserts [Inhabited M] (m_hash : K → Nat) (t : hash_table (K × M))
    (key : K) (h : Inv (fun value : K × M => value.1) m_hash t)
    (hmem : 2 * t.m_buckets.length ≤ MaxBuckets) :
    ∃ t1 pos m, hash_map.operatorIndex m_hash t key = some (t1, pos, m) ∧
      HoldsAt t1 pos (key, m) ∧
      ((∃ e, Stored t e ∧ e.1 = key) → t1 = t ∧ Stored t (key, m)) ∧
      ((¬ ∃ e, Stored t e ∧ e.1 = key) →
        m = default ∧ t1.size = t.size + 1 ∧
        (elems t1.m_buckets).Perm ((key, default) :: elems t.m_buckets)) := by
  obtain ⟨p, hp, hiff, hhold⟩ := find_spec h key
  unfold hash_map.operatorIndex
  rw [hp]
  simp only
  by_cases hpe : p = t.end_
  · rw [if_neg (fun hc => hc hpe)]
    have habs := hiff.1 hpe
    obtain ⟨⟨t1, pos, b⟩, hi⟩ := insert_returns h (key, (default : M)) hmem
    obtain ⟨_, _, htrue, _⟩ := insert_spec h (key, (default : M)) hi
    have hb : b = true := by
      cases hb : b with
      | true => rfl
      | false =>
        rw [hb] at hi
        exact absurd ((insert_flag h (key, (default : M)) hi).1 rfl) habs
    obtain ⟨_, hperm, hpos, hcnt⟩ := htrue hb
    have hhold1 : HoldsAt t1 pos (key, (default : M)) := holdsAt_of_filled hpos
    rw [hi]
    simp only
    rw [deref_of_holdsAt hhold1]
    exact ⟨t1, pos, default, rfl, hhold1, fun hc => absurd hc habs,
      fun _ => ⟨rfl, hcnt, hperm⟩⟩
  · rw [if_pos hpe]
    obtain ⟨y, hy, hky⟩ := hhold hpe
    rw [deref_of_holdsAt hy]
    have hy2 : y = (key, y.2) := by
      rw [← hky]
    have hhold1 : HoldsAt t p (key, y.2) := by
      rw [← hy2]
      exact hy
    exact ⟨t, p, y.2, rfl, hhold1, fun _ => ⟨rfl, hhold1.stored⟩,
      fun hn => absurd ⟨y, hy.stored, hky⟩ hn⟩

/-- In `sampleMap` the call `m[8]` inserts the entry (8, 0) into bucket 0. -/
theorem C27_index_finds_or_inserts_witness :
    Inv (fun value : Nat × Nat => value.1) id sampleMap ∧
    2 * sampleMap.m_buckets.length ≤ MaxBuckets ∧
    hash_map.operatorIndex id sampleMap 8 = some (sampleMapIndexed, 0, 0) ∧
    hash_map.operatorIndex id sampleMap 42 = some (sampleMap, 2, 100) ∧
    ∃ t1 pos m, hash_map.operatorIndex id sampleMap 8 = some (t1, pos, m) ∧
      HoldsAt t1 pos (8, m) ∧
      ((∃ e, Stored sampleMap e ∧ e.1 = 8) → t1 = sampleMap ∧ Stored sampleMap (8, m)) ∧
      ((¬ ∃ e, Stored sampleMap e ∧ e.1 = 8) →
        m = default ∧ t1.size = sampleMap.size + 1 ∧
        (elems t1.m_buckets).Perm ((8, default) :: elems sampleMap.m_buckets)) :=
  ⟨sampleMap_reachable.inv, by decide, by decide, by decide,
    C27_index_finds_or_inserts id sampleMap 8 sampleMap_reachable.inv (by decide)⟩

/-- C28 (`erase(key)`).  For every set and every map whose table satisfies
the table invariant, as every reachable table does, and every key:
`erase(key)` returns.  If the key is stored it returns 1, the size has
dropped by 1, `find(key)` returns `end()` afterwards, and the entry with the
key is the one entry that is gone.  If the key is not stored it returns 0 and
leaves the table as it was. -/
theorem C28_erase_by_key (m_hash : K → Nat) (s : hash_table K) (m : hash_table (K × M))
    (key : K) (hs : Inv (fun value : K => value) m_hash s)
    (hm : Inv (fun value : K × M => value.1) m_hash m) :
    (∃ s1 n, hash_set.erase m_hash s key = some (s1, n) ∧
      (Stored s key → n = 1 ∧ s1.size + 1 = s.size ∧
        find (fun value : K => value) m_hash s1 key = some s1.end_ ∧
        (elems s.m_buckets).Perm (key :: elems s1.m_buckets)) ∧
      (¬ Stored s key → n = 0 ∧ s1 = s)) ∧
    (∃ m1 n, hash_map.erase m_hash m key = some (m1, n) ∧
      ((∃ e, Stored m e ∧ e.1 = key) → n = 1 ∧ m1.size + 1 = m.size ∧
        find (fun value : K × M => value.1) m_hash m1 key = some m1.end_ ∧
        ∃ e, e.1 = key ∧ (elems m.m_buckets).Perm (e :: elems m1.m_buckets)) ∧
      ((¬ ∃ e, Stored m e ∧ e.1 = key) → n = 0 ∧ m1 = m)) := by
  constructor
  · obtain ⟨i, hi, hcase⟩ := erase_found_spec hs key
    unfold hash_set.erase
    rw [hi]
    simp only
    rcases hcase with ⟨hie, habs⟩ | ⟨hie, y, t1, ret, hy, hky, hrun, _, hcnt, hperm, hfind⟩
    · rw [if_neg (fun hc => hc hie)]
      exact ⟨s, 0, rfl, fun hst => absurd ⟨key, hst, rfl⟩ habs, fun _ => ⟨rfl, rfl⟩⟩
    · rw [if_pos hie, hrun]
      subst hky
      exact ⟨t1, 1, rfl, fun _ => ⟨rfl, hcnt, hfind, hperm⟩, fun hn => absurd hy hn⟩
  · obtain ⟨i, hi, hcase⟩ := erase_found_spec hm key
    unfold hash_map.erase
    rw [hi]
    simp only
    rcases hcase with ⟨hie, habs⟩ | ⟨hie, y, t1, ret, hy, hky, hrun, _, hcnt, hperm, hfind⟩
    · rw [if_neg (fun hc => hc hie)]
      exact ⟨m, 0, rfl, fun hst => absurd hst habs, fun _ => ⟨rfl, rfl⟩⟩
    · rw [if_pos hie, hrun]
      exact ⟨t1, 1, rfl, fun _ => ⟨rfl, hcnt, hfind, y, hky, hperm⟩,
        fun hn => absurd ⟨y, hy, hky⟩ hn⟩

/-- The call `erase(42)` on the set `sampleSmall` and on the map `sampleMap`. -/
theorem C28_erase_by_key_witness :
    Inv (fun value : Nat => value) id sampleSmall ∧
    Inv (fun value : Nat × Nat => value.1) id sampleMap ∧
    hash_set.erase id sampleSmall 42 = some (sampleErased, 1) ∧
    hash_map.erase id sampleMap 42 = some (sampleMapErased, 1) ∧
    hash_set.erase id sampleSmall 8 = some (sampleSmall, 0) ∧
    ((∃ s1 n, hash_set.erase id sampleSmall 42 = some (s1, n) ∧
      (Stored sampleSmall 42 → n = 1 ∧ s1.size + 1 = sampleSmall.size ∧
        find (fun value : Nat => value) id s1 42 = some s1.end_ ∧
        (elems sampleSmall.m_buckets).Perm (42 :: elems s1.m_buckets)) ∧
      (¬ Stored sampleSmall 42 → n = 0 ∧ s1 = sampleSmall)) ∧
    (∃ m1 n, hash_map.erase id sampleMap 42 = some (m1, n) ∧
      ((∃ e, Stored sampleMap e ∧ e.1 = 42) → n = 1 ∧ m1.size + 1 = sampleMap.size ∧
        find (fun value : Nat × Nat => value.1) id m1 42 = some m1.end_ ∧
        ∃ e, e.1 = 42 ∧ (elems sampleMap.m_buckets).Perm (e :: elems m1.m_buckets)) ∧
      ((¬ ∃ e, Stored sampleMap e ∧ e.1 = 42) → n = 0 ∧ m1 = sampleMap))) :=
  ⟨sampleSmall_reachable.inv, sampleMap_reachable.inv, by decide, by decide, by decide,
    C28_erase_by_key id sampleSmall sampleMap 42 sampleSmall_reachable.inv
      sampleMap_reachable.inv⟩

end Facades

end flat_hash


namespace flat_hash

open hash_table

section Ordering

variable {V K : Type} {m_getKey : V → K} {m_hash : K → Nat}

/-! ## Displacements along a probe run -/

/-- The bucket `s` steps after `t` in a ring of `cap` buckets is at distance `s`. -/
theorem dist_add_mod {cap t s : Nat} (ht : t < cap) (hs : s < cap) :
    dist cap t ((t + s) % cap) = s := by
  by_cases h : t + s < cap
  · rw [Nat.mod_eq_of_lt h, dist_of_le h (by omega)]
    omega
  · have e : (t + s) % cap = t + s - cap := by
      rw [Nat.mod_eq_sub_mod (by omega)]
      exact Nat.mod_eq_of_lt (by omega)
    rw [e, dist_of_gt ht (by omega)]
    omega

/-- The bucket before the one after it. -/
theorem nxt_pred {cap i : Nat} (hi : i < cap) : nxt cap ((i + cap - 1) % cap) = i := by
  by_cases h0 : i = 0
  · subst h0
    have e : (0 + cap - 1) % cap = cap - 1 := by
      rw [Nat.zero_add]
      exact Nat.mod_eq_of_lt (by omega)
    rw [e, nxt_of_eq (by omega)]
  · have e : (i + cap - 1) % cap = i - 1 := by
      have : i + cap - 1 = (i - 1) + cap := by omega
      rw [this, Nat.add_mod_right]
      exact Nat.mod_eq_of_lt (by omega)
    rw [e, nxt_of_lt (by omega)]
    omega

/-- The ideal bucket that `doInsert` computes for a Filled bucket. -/
theorem entryTargetBucket_filled {t : hash_table V}
    (hwf : WF m_getKey m_hash (t.m_buckets.length - 1) t.m_buckets) (v : V) :
    entryTargetBucket t (filledBucket m_getKey m_hash v)
      = m_hash (m_getKey v) % (t.m_buckets.length - 1) :=
  hashBucket_hashWord hwf v

/-- The displacement that `doInsert` computes for a Filled bucket. -/
theorem entryError_filled {t : hash_table V}
    (hwf : WF m_getKey m_hash (t.m_buckets.length - 1) t.m_buckets) {i : Nat}
    (hi : i < t.m_buckets.length - 1) (v : V) :
    entryError t i (filledBucket m_getKey m_hash v)
      = dist (t.m_buckets.length - 1) (m_hash (m_getKey v) % (t.m_buckets.length - 1)) i := by
  unfold entryError
  rw [entryTargetBucket_filled hwf v]
  exact bucketError_idx hwf hi (Nat.mod_lt _ (by have := hwf.cap_pos; omega))

end Ordering

section OrderingClaims

variable {V K : Type} [DecidableEq K]

/-- C29 (a probe run has no gap).  In every reachable table, for every bucket
`b` at index `i` that holds an element `v`, with ideal bucket
`entryTargetBucket` (the bucket index of the hash of the key of `v`) and
displacement `entryError`: going `entryError` buckets on from the ideal bucket,
cyclically, arrives at `i`; each of the `entryError` buckets passed on the way
holds an element; so the number of occupied buckets among them is the
displacement. -/
theorem C29_probe_run_is_filled (m_getKey : V → K) (m_hash : K → Nat) (t : hash_table V)
    (i : Nat) (b : Bucket V) (v : V) (hr : Reachable m_getKey m_hash t)
    (hb : t.m_buckets[i]? = some b) (hv : b.valuePtr = some v) :
    entryTargetBucket t b = hashBucket t.m_buckets (m_hash (m_getKey v)) ∧
    hashBucket t.m_buckets (entryTargetBucket t b + entryError t i b) = i ∧
    (∀ s, s < entryError t i b →
      Occupied t (hashBucket t.m_buckets (entryTargetBucket t b + s))) ∧
    ((List.range (entryError t i b)).filter
      (fun s => (t.deref (hashBucket t.m_buckets (entryTargetBucket t b + s))).isSome)).length
      = entryError t i b := by
  have h := hr.inv.alloc_of_occupied ⟨b, v, hb, hv⟩
  have hwf := h.wf
  have h8 := hwf.cap_pos
  obtain ⟨hi, hbv⟩ := occupied_filled hwf hb hv
  subst hbv
  have hT : m_hash (m_getKey v) % (t.m_buckets.length - 1) < t.m_buckets.length - 1 :=
    Nat.mod_lt _ (by omega)
  have hd : entryError t i (filledBucket m_getKey m_hash v) < t.m_buckets.length - 1 := by
    rw [entryError_filled hwf hi v]
    exact dist_lt (by omega)
  have hocc : ∀ s, s < entryError t i (filledBucket m_getKey m_hash v) →
      Occupied t (hashBucket t.m_buckets
        (entryTargetBucket t (filledBucket m_getKey m_hash v) + s)) := by
    intro s hs
    rw [entryTargetBucket_filled hwf v, hashBucket_eq hwf]
    rw [entryError_filled hwf hi v] at hs hd
    have hc : (m_hash (m_getKey v) % (t.m_buckets.length - 1) + s) % (t.m_buckets.length - 1)
        < t.m_buckets.length - 1 := Nat.mod_lt _ (by omega)
    have hdd := rh_chain hwf h.rh hi hb
      (dist (t.m_buckets.length - 1) (m_hash (m_getKey v) % (t.m_buckets.length - 1)) i - s)
      s _ (by omega) hc (dist_add_mod hT (by omega))
    obtain ⟨w, hw⟩ := filled_of_dd_pos hwf hc (by omega)
    exact ⟨_, w, hw, valuePtr_filledBucket w⟩
  refine ⟨?_, ?_, hocc, ?_⟩
  · rw [entryTargetBucket_filled hwf v, hashBucket_eq hwf]
  · rw [entryTargetBucket_filled hwf v, hashBucket_eq hwf]
    apply dist_inj hT (Nat.mod_lt _ (by omega)) hi
    rw [dist_add_mod hT hd, entryError_filled hwf hi v]
  · have hall : (List.range (entryError t i (filledBucket m_getKey m_hash v))).filter
        (fun s => (t.deref (hashBucket t.m_buckets
          (entryTargetBucket t (filledBucket m_getKey m_hash v) + s))).isSome)
        = List.range (entryError t i (filledBucket m_getKey m_hash v)) := by
      rw [List.filter_eq_self]
      intro s hs
      obtain ⟨b1, w, hb1, hw⟩ := hocc s (List.mem_range.1 hs)
      rw [deref_of_holdsAt ⟨b1, hb1, hw⟩]
      rfl
    rw [hall, List.length_range]

/-- In `sampleFive` the element 24 sits in bucket 2, two buckets after its
ideal bucket 0, and buckets 0 and 1 are occupied. -/
theorem C29_probe_run_is_filled_witness :
    Reachable (id : Nat → Nat) id sampleFive ∧
    sampleFive.m_buckets[2]? = some ⟨2 ^ 63 + 24, some 24⟩ ∧
    (⟨2 ^ 63 + 24, some 24⟩ : Bucket Nat).valuePtr = some 24 ∧
    entryTargetBucket sampleFive ⟨2 ^ 63 + 24, some 24⟩ = 0 ∧
    entryError sampleFive 2 ⟨2 ^ 63 + 24, some 24⟩ = 2 ∧
    ∀ s, s < entryError sampleFive 2 ⟨2 ^ 63 + 24, some 24⟩ →
      Occupied sampleFive (hashBucket sampleFive.m_buckets
        (entryTargetBucket sampleFive ⟨2 ^ 63 + 24, some 24⟩ + s)) :=
  ⟨sampleFive_reachable, by decide, by decide, by decide, by decide,
    (C29_probe_run_is_filled id id sampleFive 2 ⟨2 ^ 63 + 24, some 24⟩ 24
      sampleFive_reachable (by decide) (by decide)).2.2.1⟩

/-- C30 (Robin Hood ordering).  In every reachable table, for every bucket at
index `i` that holds an element with displacement `d > 0`, the bucket
cyclically before it, at index `(i - 1) mod capacity`, holds an element too,
and its displacement is at least `d - 1`. -/
theorem C30_robin_hood_ordering (m_getKey : V → K) (m_hash : K → Nat) (t : hash_table V)
    (i : Nat) (b : Bucket V) (v : V) (hr : Reachable m_getKey m_hash t)
    (hb : t.m_buckets[i]? = some b) (hv : b.valuePtr = some v)
    (hd : 0 < entryError t i b) :
    ∃ b1 v1,
      t.m_buckets[(i + (t.m_buckets.length - 1) - 1) % (t.m_buckets.length - 1)]? = some b1 ∧
      b1.valuePtr = some v1 ∧
      entryError t i b - 1
        ≤ entryError t ((i + (t.m_buckets.length - 1) - 1) % (t.m_buckets.length - 1)) b1 := by
  have h := hr.inv.alloc_of_occupied ⟨b, v, hb, hv⟩
  have hwf := h.wf
  have h8 := hwf.cap_pos
  obtain ⟨hi, hbv⟩ := occupied_filled hwf hb hv
  subst hbv
  have hp : (i + (t.m_buckets.length - 1) - 1) % (t.m_buckets.length - 1)
      < t.m_buckets.length - 1 := Nat.mod_lt _ (by omega)
  have hrh := h.rh _ hp
  rw [nxt_pred hi, dd_of_filled hb, ← entryError_filled hwf hi v] at hrh
  obtain ⟨w, hw⟩ := filled_of_dd_pos hwf hp (by omega)
  rw [dd_of_filled hw, ← entryError_filled hwf hp w] at hrh
  exact ⟨_, w, hw, valuePtr_filledBucket w, by omega⟩

/-- In `sampleFive` the element 24 in bucket 2 has displacement 2, and the
element 16 in bucket 1 before it has displacement 1. -/
theorem C30_robin_hood_ordering_witness :
    Reachable (id : Nat → Nat) id sampleFive ∧
    sampleFive.m_buckets[2]? = some ⟨2 ^ 63 + 24, some 24⟩ ∧
    (⟨2 ^ 63 + 24, some 24⟩ : Bucket Nat).valuePtr = some 24 ∧
    entryError sampleFive 2 ⟨2 ^ 63 + 24, some 24⟩ = 2 ∧
    sampleFive.m_buckets[1]? = some ⟨2 ^ 63 + 16, some 16⟩ ∧
    entryError sampleFive 1 ⟨2 ^ 63 + 16, some 16⟩ = 1 ∧
    ∃ b1 v1,
      sampleFive.m_buckets[(2 + (sampleFive.m_buckets.length - 1) - 1)
        % (sampleFive.m_buckets.length - 1)]? = some b1 ∧
      b1.valuePtr = some v1 ∧
      entryError sampleFive 2 ⟨2 ^ 63 + 24, some 24⟩ - 1
        ≤ entryError sampleFive ((2 + (sampleFive.m_buckets.length - 1) - 1)
          % (sampleFive.m_buckets.length - 1)) b1 :=
  ⟨sampleFive_reachable, by decide, by decide, by decide, by decide, by decide,
    C30_robin_hood_ordering id id sampleFive 2 ⟨2 ^ 63 + 24, some 24⟩ 24
      sampleFive_reachable (by decide) (by decide) (by decide)⟩

end OrderingClaims

end flat_hash


namespace flat_hash

open hash_table

section ProbeWalk

variable {V K : Type} {m_getKey : V → K} {m_hash : K → Nat} [DecidableEq K]

/-! ## The probe walk of find -/

/-- The loop of `find` follows `ProbeReaches`: after `j` iterations without a
`return` it continues from the bucket reached, and it has not returned within
`j` iterations. -/
theorem findLoop_of_probeReaches {t : hash_table V} {key : K} {j c : Nat}
    (h : ProbeReaches m_getKey m_hash t key j c) :
    (∀ fuel, j ≤ fuel →
      findLoop m_getKey t.m_buckets key ((m_hash key % WordSize) ||| FilledHashBit)
          (hashBucket t.m_buckets ((m_hash key % WordSize) ||| FilledHashBit)) fuel
          (hashBucket t.m_buckets ((m_hash key % WordSize) ||| FilledHashBit))
        = findLoop m_getKey t.m_buckets key ((m_hash key % WordSize) ||| FilledHashBit)
          (hashBucket t.m_buckets ((m_hash key % WordSize) ||| FilledHashBit)) (fuel - j) c) ∧
    (∀ fuel, fuel ≤ j →
      findLoop m_getKey t.m_buckets key ((m_hash key % WordSize) ||| FilledHashBit)
          (hashBucket t.m_buckets ((m_hash key % WordSize) ||| FilledHashBit)) fuel
          (hashBucket t.m_buckets ((m_hash key % WordSize) ||| FilledHashBit)) = none) := by
  induction h with
  | start =>
    refine ⟨fun fuel _ => rfl, fun fuel hf => ?_⟩
    have : fuel = 0 := by omega
    subst this
    rfl
  | step j c bucket value _ hb hv hnm hne ih =>
    have hstep : ∀ f, findLoop m_getKey t.m_buckets key
          ((m_hash key % WordSize) ||| FilledHashBit)
          (hashBucket t.m_buckets ((m_hash key % WordSize) ||| FilledHashBit)) (f + 1) c
        = findLoop m_getKey t.m_buckets key ((m_hash key % WordSize) ||| FilledHashBit)
          (hashBucket t.m_buckets ((m_hash key % WordSize) ||| FilledHashBit)) f
          (hashBucket t.m_buckets (c + 1)) := by
      intro f
      rw [findLoop]
      simp only [hb, hv]
      rw [if_neg hnm, if_neg hne]
    constructor
    · intro fuel hf
      rw [ih.1 fuel (by omega), show fuel - j = (fuel - (j + 1)) + 1 by omega, hstep]
    · intro fuel hf
      by_cases hle : fuel ≤ j
      · exact ih.2 fuel hle
      · have : fuel = j + 1 := by omega
        subst this
        rw [ih.1 (j + 1) (by omega), show j + 1 - j = 0 + 1 by omega, hstep]
        rfl

/-- C31 (early exit of `find`).  In every reachable table, if the probe walk
of `find(key)` reaches a bucket `c` that holds an element whose key is not
`key`, and the search displacement `bucketError(c, targetBucket)` is greater
than the displacement `bucketError(c, bucket.hash)` of that element, then no
bucket of the table holds an element with the key `key`; and `find` returns
`end()` there. -/
theorem C31_early_exit_sound (m_getKey : V → K) (m_hash : K → Nat) (t : hash_table V)
    (key : K) (j c : Nat) (b : Bucket V) (v : V) (hr : Reachable m_getKey m_hash t)
    (hreach : ProbeReaches m_getKey m_hash t key j c)
    (hb : t.m_buckets[c]? = some b) (hv : b.valuePtr = some v) (hne : m_getKey v ≠ key)
    (hexit : bucketError t.m_buckets c
        (hashBucket t.m_buckets ((m_hash key % WordSize) ||| FilledHashBit))
      > bucketError t.m_buckets c b.hash) :
    (¬ ∃ (i : Nat) (b1 : Bucket V) (y : V),
      t.m_buckets[i]? = some b1 ∧ b1.valuePtr = some y ∧ m_getKey y = key) ∧
    find m_getKey m_hash t key = some t.end_ := by
  have ha := hr.inv.alloc_of_occupied ⟨b, v, hb, hv⟩
  obtain ⟨r, hfind, hiff, _⟩ := find_spec hr.inv key
  obtain ⟨h1, h2⟩ := findLoop_of_probeReaches hreach
  have hfl : find m_getKey m_hash t key
      = findLoop m_getKey t.m_buckets key ((m_hash key % WordSize) ||| FilledHashBit)
          (hashBucket t.m_buckets ((m_hash key % WordSize) ||| FilledHashBit))
          t.m_buckets.length
          (hashBucket t.m_buckets ((m_hash key % WordSize) ||| FilledHashBit)) := by
    unfold find
    rw [ha.isEmpty]
    simp only [Bool.false_eq_true, if_false]
  have hj : j < t.m_buckets.length := by
    by_contra hc
    rw [hfl, h2 _ (by omega)] at hfind
    exact Option.noConfusion hfind
  have hend : find m_getKey m_hash t key = some t.end_ := by
    rw [hfl, h1 _ (by omega),
      show t.m_buckets.length - j = (t.m_buckets.length - j - 1) + 1 by omega, findLoop]
    simp only [hb, hv]
    rw [if_neg (fun hc => hne hc.2), if_pos hexit]
    rfl
  refine ⟨?_, hend⟩
  rw [hend] at hfind
  have hre : r = t.end_ := (Option.some.inj hfind).symm
  have habs := hiff.1 hre
  rintro ⟨i, b1, y, hb1, hy, hk⟩
  exact habs ⟨y, mem_elems_of_getElem? hb1 hy, hk⟩

end ProbeWalk

end flat_hash


namespace flat_hash

open hash_table

section ProbeSamples

/-- The probe walk of `find(9)` in `sampleFive` starts at bucket 1, passes 16
and 24, and is at bucket 3 after two iterations. -/
theorem sampleFive_probe_nine : ProbeReaches (id : Nat → Nat) id sampleFive 9 2 3 :=
  ProbeReaches.step 1 2 ⟨2 ^ 63 + 24, some 24⟩ 24
    (ProbeReaches.step 0 1 ⟨2 ^ 63 + 16, some 16⟩ 16 ProbeReaches.start
      (by decide) (by decide) (by decide) (by decide))
    (by decide) (by decide) (by decide) (by decide)

/-- In `sampleFive` the walk of `find(9)` meets 42 in bucket 3 with search
displacement 2 and entry displacement 1: the key 9 is not stored. -/
theorem C31_early_exit_sound_witness :
    Reachable (id : Nat → Nat) id sampleFive ∧
    ProbeReaches (id : Nat → Nat) id sampleFive 9 2 3 ∧
    sampleFive.m_buckets[3]? = some ⟨2 ^ 63 + 42, some 42⟩ ∧
    bucketError sampleFive.m_buckets 3
      (hashBucket sampleFive.m_buckets ((id 9 % WordSize) ||| FilledHashBit)) = 2 ∧
    bucketError sampleFive.m_buckets 3 (2 ^ 63 + 42) = 1 ∧
    ((¬ ∃ (i : Nat) (b1 : Bucket Nat) (y : Nat),
      sampleFive.m_buckets[i]? = some b1 ∧ b1.valuePtr = some y ∧ id y = 9) ∧
    find (id : Nat → Nat) id sampleFive 9 = some sampleFive.end_) :=
  ⟨sampleFive_reachable, sampleFive_probe_nine, by decide, by decide, by decide,
    C31_early_exit_sound id id sampleFive 9 2 3 ⟨2 ^ 63 + 42, some 42⟩ 42
      sampleFive_reachable sampleFive_probe_nine (by decide) (by decide) (by decide)
      (by decide)⟩

end ProbeSamples

section InsertWalk

variable {V K : Type} {m_getKey : V → K} {m_hash : K → Nat} [DecidableEq K]

/-! ## The probe loop of doInsert -/

/-- In an allocated table the probe loop of `doInsert` returns within
`capacity` iterations: it meets the key or an Empty bucket. -/
theorem doInsertLoop_within_capacity {t : hash_table V} (h : Alloc m_getKey m_hash t) (v : V) :
    ∃ r, doInsertLoop m_getKey (t.m_buckets.length - 1) t.m_buckets v
      ((m_hash (m_getKey v) % WordSize) ||| FilledHashBit)
      (hashBucket t.m_buckets ((m_hash (m_getKey v) % WordSize) ||| FilledHashBit))
      (hashBucket t.m_buckets ((m_hash (m_getKey v) % WordSize) ||| FilledHashBit))
      NPos = some r := by
  have hwf := h.wf
  have h8 := hwf.cap_pos
  have ht0 : m_hash (m_getKey v) % (t.m_buckets.length - 1) < t.m_buckets.length - 1 :=
    Nat.mod_lt _ (by omega)
  have htb : hashBucket t.m_buckets ((m_hash (m_getKey v) % WordSize) ||| FilledHashBit)
      = m_hash (m_getKey v) % (t.m_buckets.length - 1) := hashBucket_hashWord hwf v
  rw [htb]
  by_cases hex : ∃ y, y ∈ elems t.m_buckets ∧ m_getKey y = m_getKey v
  · obtain ⟨y, hy, hk⟩ := hex
    obtain ⟨i, b, hb, hv⟩ := exists_of_mem_elems hy
    obtain ⟨hi, hbv⟩ := occupied_filled hwf hb hv
    subst hbv
    have hdl : dist (t.m_buckets.length - 1) (m_hash (m_getKey y) % (t.m_buckets.length - 1)) i
        < t.m_buckets.length - 1 := dist_lt (by omega)
    obtain ⟨r, z, hrun, _⟩ :=
      doInsertLoop_present hwf h.rh hi hb v hk
        (dist (t.m_buckets.length - 1) (m_hash (m_getKey y) % (t.m_buckets.length - 1)) i) 0
        (m_hash (m_getKey v) % (t.m_buckets.length - 1)) (t.m_buckets.length - 1)
        (Nat.zero_add _) ht0 (by rw [hk]; exact dist_self ht0) hdl
    exact ⟨_, hrun⟩
  · have habs : ∀ y, y ∈ elems t.m_buckets → m_getKey y ≠ m_getKey v :=
      fun y hy hk => hex ⟨y, hy, hk⟩
    obtain ⟨e, he, hempty⟩ := exists_empty hwf (by rw [← h.count]; exact h.load)
    have hde : dist (t.m_buckets.length - 1) (m_hash (m_getKey v) % (t.m_buckets.length - 1)) e
        < t.m_buckets.length - 1 := dist_lt (by omega)
    have hnd : ((v :: elems t.m_buckets).map m_getKey).Nodup := by
      rw [List.map_cons, List.nodup_cons]
      refine ⟨?_, h.nodup⟩
      intro hmem
      obtain ⟨y, hy, hk⟩ := List.mem_map.1 hmem
      exact habs y hy hk
    obtain ⟨b1, pos, hrun, _⟩ :=
      doInsertLoop_absent v (m_hash (m_getKey v) % (t.m_buckets.length - 1)) e ht0 he
        (dist (t.m_buckets.length - 1) (m_hash (m_getKey v) % (t.m_buckets.length - 1)) e)
        (t.m_buckets.length - 1) t.m_buckets v
        (m_hash (m_getKey v) % (t.m_buckets.length - 1)) NPos hwf h.rh hempty hnd ht0
        (by rw [dist_self ht0]; exact Nat.zero_add _) hde (Nat.le_refl _)
        (by intro i _ _; rw [dist_self ht0]; exact Nat.zero_le _) (Or.inl ⟨rfl, rfl⟩)
    exact ⟨_, hrun⟩

/-- C32 (the probe loop of `doInsert` terminates).  For every reachable
table, after the `checkCapacity(1)` with which `doInsert` starts the size is
below the capacity, some bucket before the End bucket is Empty, and the probe
loop of `doInsert` returns within `capacity` iterations, each of which visits
one bucket. -/
theorem C32_probe_loop_terminates (m_getKey : V → K) (m_hash : K → Nat)
    (t t1 : hash_table V) (value : V) (hr : Reachable m_getKey m_hash t)
    (hcc : checkCapacity m_getKey m_hash t 1 = some t1) :
    t1.m_filledCount < t1.m_buckets.length - 1 ∧
    (∃ (e : Nat) (b : Bucket V),
      e < t1.m_buckets.length - 1 ∧ t1.m_buckets[e]? = some b ∧ b.isEmpty = true) ∧
    ∃ r, doInsertLoop m_getKey (t1.m_buckets.length - 1) t1.m_buckets value
      ((m_hash (m_getKey value) % WordSize) ||| FilledHashBit)
      (hashBucket t1.m_buckets ((m_hash (m_getKey value) % WordSize) ||| FilledHashBit))
      (hashBucket t1.m_buckets ((m_hash (m_getKey value) % WordSize) ||| FilledHashBit))
      NPos = some r := by
  have h1 := checkCapacity_inv hr.inv hcc
  have hload := h1.load
  obtain ⟨e, he, hempty⟩ := exists_empty h1.wf (by rw [← h1.count]; exact hload)
  have h8 := h1.wf.cap_pos
  exact ⟨by omega, ⟨e, Bucket.new, he, hempty, rfl⟩, doInsertLoop_within_capacity h1 value⟩

/-- After `checkCapacity(1)` on `sampleFive` the table `sampleRehashed` has 5
elements in 16 buckets, and the probe loop for 7 returns. -/
theorem C32_probe_loop_terminates_witness :
    Reachable (id : Nat → Nat) id sampleFive ∧
    checkCapacity (id : Nat → Nat) id sampleFive 1 = some sampleRehashed ∧
    (sampleRehashed.m_filledCount < sampleRehashed.m_buckets.length - 1 ∧
    (∃ (e : Nat) (b : Bucket Nat),
      e < sampleRehashed.m_buckets.length - 1 ∧ sampleRehashed.m_buckets[e]? = some b ∧
        b.isEmpty = true) ∧
    ∃ r, doInsertLoop (id : Nat → Nat) (sampleRehashed.m_buckets.length - 1)
      sampleRehashed.m_buckets 7 ((id (id 7) % WordSize) ||| FilledHashBit)
      (hashBucket sampleRehashed.m_buckets ((id (id 7) % WordSize) ||| FilledHashBit))
      (hashBucket sampleRehashed.m_buckets ((id (id 7) % WordSize) ||| FilledHashBit))
      NPos = some r) :=
  ⟨sampleFive_reachable, by decide,
    C32_probe_loop_terminates id id sampleFive sampleRehashed 7 sampleFive_reachable
      (by decide)⟩

end InsertWalk

end flat_hash


namespace flat_hash

open hash_table

section Rehash

variable {V K : Type} {m_getKey : V → K} {m_hash : K → Nat} [DecidableEq K]

/-! ## The re-insertion loop of checkCapacity -/

/-- The loop `for (auto& entry : oldBuckets) if (auto ptr = entry.valuePtr()) insert(*ptr)`
inserts the stored elements in bucket order. -/
theorem foldlM_elems (ins : hash_table V → V → Option (hash_table V × Nat × Bool)) :
    ∀ (l : List (Bucket V)) (acc : hash_table V),
      l.foldlM
          (fun (acc : hash_table V) (entry : Bucket V) =>
            match entry.valuePtr with
            | some v => (ins acc v).map (fun r => r.1)
            | none => some acc) acc
        = (elems l).foldlM (fun acc v => (ins acc v).map (fun r => r.1)) acc := by
  intro l
  induction l with
  | nil => intro acc; rfl
  | cons b l ih =>
    intro acc
    rw [List.foldlM_cons]
    cases hv : b.valuePtr with
    | none =>
      have he : elems (b :: l) = elems l := by
        simp only [elems, List.filterMap_cons, hv]
      rw [he]
      simp only [Option.bind_eq_bind, Option.some_bind]
      exact ih acc
    | some v =>
      have he : elems (b :: l) = v :: elems l := by
        simp only [elems, List.filterMap_cons, hv]
      rw [he, List.foldlM_cons]
      dsimp only
      cases hi : ins acc v with
      | none => rfl
      | some r =>
        simp only [Option.map_some', Option.bind_eq_bind, Option.some_bind]
        exact ih r.1

/-- A sequence of inserts of new keys into a table with room for all of them:
every insert adds its element and none reallocates. -/
theorem insertSeq_no_growth :
    ∀ (vs : List V) (acc t1 : hash_table V), Alloc m_getKey m_hash acc →
      ((elems acc.m_buckets ++ vs).map m_getKey).Nodup →
      10 * (acc.m_filledCount + vs.length) ≤ 7 * (acc.m_buckets.length - 1) →
      insertSeq m_getKey m_hash acc vs = some t1 →
      t1.m_buckets.length = acc.m_buckets.length ∧
        t1.m_filledCount = acc.m_filledCount + vs.length := by
  intro vs
  induction vs with
  | nil =>
    intro acc t1 _ _ _ hrun
    have : acc = t1 := Option.some.inj hrun
    subst this
    exact ⟨rfl, rfl⟩
  | cons v vs ih =>
    intro acc t1 h hnd hroom hrun
    rw [List.length_cons] at hroom
    unfold insertSeq at hrun
    rw [List.foldlM_cons] at hrun
    cases hi : insert m_getKey m_hash acc v with
    | none =>
      rw [hi] at hrun
      exact Option.noConfusion hrun
    | some r =>
      obtain ⟨t2, pos, b⟩ := r
      rw [hi] at hrun
      simp only [Option.map_some', Option.bind_eq_bind, Option.some_bind] at hrun
      have hl2 := insert_same_length h v (by omega) hi
      obtain ⟨h2, _, htrue, _⟩ := insert_spec (Or.inr h) v hi
      have hb : b = true := by
        cases hb : b with
        | true => rfl
        | false =>
          rw [hb] at hi
          obtain ⟨y, hy, hk⟩ := (insert_flag (Or.inr h) v hi).1 rfl
          rw [List.map_append, List.map_cons] at hnd
          have := (List.nodup_append.1 hnd).2.2
          exact absurd (List.mem_cons_self _ _)
            (fun hmem => this (List.mem_map_of_mem m_getKey hy) (hk ▸ hmem))
      obtain ⟨_, hperm, _, hcnt⟩ := htrue hb
      have hnd1 : ((elems t2.m_buckets ++ vs).map m_getKey).Nodup := by
        have hp : (elems t2.m_buckets ++ vs).Perm (elems acc.m_buckets ++ v :: vs) :=
          (hperm.append_right _).trans (List.perm_middle.symm)
        exact ((hp.map m_getKey).nodup_iff).2 hnd
      obtain ⟨hl1, hc1⟩ := ih t2 t1 h2 hnd1 (by rw [hcnt, hl2]; omega) hrun
      exact ⟨hl1.trans hl2, by rw [hc1, hcnt, List.length_cons]; omega⟩

/-- The reallocating branch of `checkCapacity`: the capacity chosen by the
doubling loop, and the table as the result of inserting the old elements, in
bucket order, into a fresh array of that capacity. -/
theorem checkCapacity_realloc {t t1 : hash_table V} (h : Inv m_getKey m_hash t) {add : Nat}
    (hcc : checkCapacity m_getKey m_hash t add = some t1)
    (hgrow : t1.m_buckets.length ≠ t.m_buckets.length) :
    ∃ k, growLoop ((t.m_filledCount + add) % WordSize) 65
        (if ¬ t.m_buckets.isEmpty then t.m_buckets.length - 1 else MinCapacity) = some (2 ^ k) ∧
      3 ≤ k ∧ k ≤ 47 ∧ 10 * t.m_filledCount ≤ 7 * 2 ^ k ∧
      insertSeq m_getKey m_hash
        { m_buckets := List.replicate (2 ^ k) Bucket.new ++ [Bucket.new.setEnd],
          m_filledCount := 0 } (elems t.m_buckets) = some t1 := by
  obtain ⟨k, hk3, hk, hstart, hload⟩ := h.start
  unfold checkCapacity checkCapacityWith at hcc
  simp only [hstart] at hcc
  rw [hstart]
  cases hg : growLoop ((t.m_filledCount + add) % WordSize) 65 (2 ^ k) with
  | none => rw [hg] at hcc; exact Option.noConfusion hcc
  | some newSize =>
    rw [hg] at hcc
    simp only at hcc
    obtain ⟨j, hns, hkj, hle, hmin⟩ := growLoop_spec 65 k newSize (by omega) hg
    by_cases hret : newSize = (t.m_buckets.length + WordSize - 1) % WordSize
    · rw [if_pos hret] at hcc
      have ht := Option.some.inj hcc
      subst ht
      exact absurd rfl hgrow
    · rw [if_neg hret] at hcc
      by_cases hmax : newSize + 1 > MaxBuckets
      · rw [if_pos hmax] at hcc; exact Option.noConfusion hcc
      · rw [if_neg hmax] at hcc
        subst hns
        have hm47 : k + j ≤ 47 := pow_le_of_succ_le_MaxBuckets (by omega)
        have hload2 : 10 * t.m_filledCount ≤ 7 * 2 ^ (k + j) := by
          have : 2 ^ k ≤ 2 ^ (k + j) := Nat.pow_le_pow_right (by norm_num) (by omega)
          omega
        refine ⟨k + j, rfl, by omega, hm47, hload2, ?_⟩
        exact (foldlM_elems (insert m_getKey m_hash) t.m_buckets _).symm.trans hcc

/-- C33 (growth preserves contents).  For every reachable table, when
`checkCapacity` returns with a bucket array of another length: the array is
longer; its capacity is the one the doubling loop has chosen; the table is the
result of inserting the old elements, in bucket order, into a fresh array of
that capacity; every prefix of these insertions leaves the array at that
length and has added one element per insertion; the stored elements are, as a
multiset, the ones stored before, and `m_filledCount` has its old value. -/
theorem C33_growth_preserves_contents (m_getKey : V → K) (m_hash : K → Nat)
    (t t1 : hash_table V) (additional : Nat) (hr : Reachable m_getKey m_hash t)
    (hcc : checkCapacity m_getKey m_hash t additional = some t1)
    (hgrow : t1.m_buckets.length ≠ t.m_buckets.length) :
    (elems t1.m_buckets).Perm (elems t.m_buckets) ∧
    t1.m_filledCount = t.m_filledCount ∧
    t.m_buckets.length < t1.m_buckets.length ∧
    ∃ newSize,
      growLoop ((t.m_filledCount + additional) % WordSize) 65
        (if ¬ t.m_buckets.isEmpty then t.m_buckets.length - 1 else MinCapacity)
        = some newSize ∧
      t1.m_buckets.length = newSize + 1 ∧
      insertSeq m_getKey m_hash
        { m_buckets := List.replicate newSize Bucket.new ++ [Bucket.new.setEnd],
          m_filledCount := 0 } (elems t.m_buckets) = some t1 ∧
      ∀ n t2, insertSeq m_getKey m_hash
          { m_buckets := List.replicate newSize Bucket.new ++ [Bucket.new.setEnd],
            m_filledCount := 0 } ((elems t.m_buckets).take n) = some t2 →
        t2.m_buckets.length = newSize + 1 ∧
          t2.m_filledCount = ((elems t.m_buckets).take n).length := by
  have hinv := hr.inv
  obtain ⟨h1, hperm, hcnt, _⟩ := checkCapacityWith_some insertOK_insert hinv hcc
  obtain ⟨k, hg, hk3, hk47, hload, hseq⟩ := checkCapacity_realloc hinv hcc hgrow
  have hfresh : Alloc m_getKey m_hash
      { m_buckets := List.replicate (2 ^ k) (Bucket.new : Bucket V) ++ [Bucket.new.setEnd],
        m_filledCount := 0 } := alloc_fresh hk3 hk47
  have hprefix : ∀ n t2, insertSeq m_getKey m_hash
        { m_buckets := List.replicate (2 ^ k) Bucket.new ++ [Bucket.new.setEnd],
          m_filledCount := 0 } ((elems t.m_buckets).take n) = some t2 →
      t2.m_buckets.length = 2 ^ k + 1 ∧
        t2.m_filledCount = ((elems t.m_buckets).take n).length := by
    intro n t2 hrun
    have hnd : ((elems (List.replicate (2 ^ k) (Bucket.new : Bucket V)
        ++ [Bucket.new.setEnd]) ++ (elems t.m_buckets).take n).map m_getKey).Nodup := by
      rw [elems_fresh, List.nil_append]
      exact hinv.nodup.sublist ((List.take_sublist n _).map m_getKey)
    have hlen : ((elems t.m_buckets).take n).length ≤ t.m_filledCount := by
      rw [hinv.count]
      exact (List.take_sublist n _).length_le
    obtain ⟨hl, hc⟩ := insertSeq_no_growth _ _ t2 hfresh hnd
      (by
        show 10 * (0 + ((elems t.m_buckets).take n).length)
          ≤ 7 * ((List.replicate (2 ^ k) (Bucket.new : Bucket V)
            ++ [Bucket.new.setEnd]).length - 1)
        rw [fresh_length, Nat.add_sub_cancel]
        omega) hrun
    refine ⟨by rw [hl]; exact fresh_length _, ?_⟩
    rw [hc]
    exact Nat.zero_add _
  have hlen1 : t1.m_buckets.length = 2 ^ k + 1 := by
    have := hprefix (elems t.m_buckets).length t1 (by rw [List.take_length]; exact hseq)
    exact this.1
  have hlt : t.m_buckets.length < t1.m_buckets.length := by
    obtain ⟨k0, _, _, hstart, _⟩ := hinv.start
    have hg0 := hg
    rw [hstart] at hg0
    obtain ⟨j, hj, _⟩ := growLoop_spec 65 k0 (2 ^ k) (by omega) hg0
    have hle : 2 ^ k0 ≤ 2 ^ k := by
      rw [hj]
      exact Nat.pow_le_pow_right (by norm_num) (by omega)
    rcases hinv with ⟨h0, _⟩ | ha
    · rw [h0, hlen1]
      exact Nat.succ_pos _
    · rw [ha.isEmpty] at hstart
      simp only [Bool.false_eq_true, not_false_eq_true, if_true] at hstart
      have hwl := ha.wf.len
      omega
  exact ⟨hperm, hcnt, hlt, 2 ^ k, hg, hlen1, hseq, hprefix⟩

/-- The call `checkCapacity(1)` on `sampleFive` moves its five elements into
sixteen buckets. -/
theorem C33_growth_preserves_contents_witness :
    Reachable (id : Nat → Nat) id sampleFive ∧
    checkCapacity (id : Nat → Nat) id sampleFive 1 = some sampleRehashed ∧
    sampleRehashed.m_buckets.length ≠ sampleFive.m_buckets.length ∧
    elems sampleFive.m_buckets = [8, 16, 24, 42, 63] ∧
    elems sampleRehashed.m_buckets = [16, 8, 24, 42, 63] ∧
    ((elems sampleRehashed.m_buckets).Perm (elems sampleFive.m_buckets) ∧
    sampleRehashed.m_filledCount = sampleFive.m_filledCount ∧
    sampleFive.m_buckets.length < sampleRehashed.m_buckets.length ∧
    ∃ newSize,
      growLoop ((sampleFive.m_filledCount + 1) % WordSize) 65
        (if ¬ sampleFive.m_buckets.isEmpty then sampleFive.m_buckets.length - 1
          else MinCapacity) = some newSize ∧
      sampleRehashed.m_buckets.length = newSize + 1 ∧
      insertSeq (id : Nat → Nat) id
        { m_buckets := List.replicate newSize Bucket.new ++ [Bucket.new.setEnd],
          m_filledCount := 0 } (elems sampleFive.m_buckets) = some sampleRehashed ∧
      ∀ n t2, insertSeq (id : Nat → Nat) id
          { m_buckets := List.replicate newSize Bucket.new ++ [Bucket.new.setEnd],
            m_filledCount := 0 } ((elems sampleFive.m_buckets).take n) = some t2 →
        t2.m_buckets.length = newSize + 1 ∧
          t2.m_filledCount = ((elems sampleFive.m_buckets).take n).length) :=
  ⟨sampleFive_reachable, by decide, by decide, by decide, by decide,
    C33_growth_preserves_contents id id sampleFive sampleRehashed 1 sampleFive_reachable
      (by decide) (by decide)⟩

end Rehash

end flat_hash


namespace flat_hash

open hash_table

section Counting

variable {V K : Type} {m_getKey : V → K} {m_hash : K → Nat}

/-! ## Keys, hash words and the element count -/

theorem index_lt_of_key_eq {buckets : List (Bucket V)}
    (hnd : ((elems buckets).map m_getKey).Nodup)
    {i j : Nat} {bi bj : Bucket V} {vi vj : V}
    (hi : buckets[i]? = some bi) (hvi : bi.valuePtr = some vi)
    (hj : buckets[j]? = some bj) (hvj : bj.valuePtr = some vj)
    (hk : m_getKey vi = m_getKey vj) : ¬ i < j := by
  intro hlt
  have hsplit : elems buckets = elems (buckets.take j) ++ elems (buckets.drop j) := by
    unfold elems
    rw [← List.filterMap_append, List.take_append_drop]
  rw [hsplit, List.map_append] at hnd
  have hdis := (List.nodup_append.1 hnd).2.2
  have h1 : vi ∈ elems (buckets.take j) := by
    apply mem_elems_of_getElem? (i := i) _ hvi
    rw [List.getElem?_take_of_lt hlt]
    exact hi
  have h2 : vj ∈ elems (buckets.drop j) := by
    apply mem_elems_of_getElem? (i := 0) _ hvj
    rw [List.getElem?_drop, Nat.add_zero]
    exact hj
  exact hdis (List.mem_map_of_mem m_getKey h1) (hk ▸ List.mem_map_of_mem m_getKey h2)

/-- Two buckets that hold elements with equal keys are the same bucket. -/
theorem index_eq_of_key_eq {buckets : List (Bucket V)}
    (hnd : ((elems buckets).map m_getKey).Nodup)
    {i j : Nat} {bi bj : Bucket V} {vi vj : V}
    (hi : buckets[i]? = some bi) (hvi : bi.valuePtr = some vi)
    (hj : buckets[j]? = some bj) (hvj : bj.valuePtr = some vj)
    (hk : m_getKey vi = m_getKey vj) : i = j := by
  have h1 := index_lt_of_key_eq hnd hi hvi hj hvj hk
  have h2 := index_lt_of_key_eq hnd hj hvj hi hvi hk.symm
  omega

/-- The number of collected payloads is the number of buckets that have one. -/
theorem length_elems_eq_countP (buckets : List (Bucket V)) :
    (elems buckets).length = buckets.countP (fun b => b.valuePtr.isSome) := by
  induction buckets with
  | nil => rfl
  | cons b l ih =>
    cases hv : b.valuePtr with
    | none =>
      have he : elems (b :: l) = elems l := by
        simp only [elems, List.filterMap_cons, hv]
      rw [he, ih, List.countP_cons_of_neg]
      rw [hv]
      exact Bool.false_ne_true
    | some v =>
      have he : elems (b :: l) = v :: elems l := by
        simp only [elems, List.filterMap_cons, hv]
      rw [he, List.length_cons, ih, List.countP_cons_of_pos]
      rw [hv]
      rfl

end Counting

section CountingClaims

variable {V K : Type} [DecidableEq K]

/-- C34 (distinct keys, hash words).  In every reachable table two buckets
that hold elements with equal keys are one and the same bucket, and the hash
word of every bucket that holds an element `v` is
`m_hash(m_getKey(v)) | 2 ^ 63`. -/
theorem C34_distinct_keys_and_hash_words (m_getKey : V → K) (m_hash : K → Nat)
    (t : hash_table V) (hr : Reachable m_getKey m_hash t) :
    (∀ (i j : Nat) (bi bj : Bucket V) (vi vj : V),
      t.m_buckets[i]? = some bi → bi.valuePtr = some vi →
      t.m_buckets[j]? = some bj → bj.valuePtr = some vj →
      m_getKey vi = m_getKey vj → i = j) ∧
    (∀ (i : Nat) (b : Bucket V) (v : V),
      t.m_buckets[i]? = some b → b.valuePtr = some v →
      b.hash = (m_hash (m_getKey v) % WordSize) ||| 2 ^ 63) := by
  constructor
  · intro i j bi bj vi vj hi hvi hj hvj hk
    exact index_eq_of_key_eq hr.inv.nodup hi hvi hj hvj hk
  · intro i b v hb hv
    have h := hr.inv.alloc_of_occupied ⟨b, v, hb, hv⟩
    obtain ⟨_, hbv⟩ := occupied_filled h.wf hb hv
    rw [hbv]
    rfl

/-- In `sampleFive` the bucket that holds 42 carries the word `42 | 2 ^ 63`. -/
theorem C34_distinct_keys_and_hash_words_witness :
    Reachable (id : Nat → Nat) id sampleFive ∧
    sampleFive.m_buckets[3]? = some ⟨2 ^ 63 + 42, some 42⟩ ∧
    (2 ^ 63 + 42 : Nat) = (id (id 42) % WordSize) ||| 2 ^ 63 ∧
    ((∀ (i j : Nat) (bi bj : Bucket Nat) (vi vj : Nat),
      sampleFive.m_buckets[i]? = some bi → bi.valuePtr = some vi →
      sampleFive.m_buckets[j]? = some bj → bj.valuePtr = some vj →
      id vi = id vj → i = j) ∧
    (∀ (i : Nat) (b : Bucket Nat) (v : Nat),
      sampleFive.m_buckets[i]? = some b → b.valuePtr = some v →
      b.hash = (id (id v) % WordSize) ||| 2 ^ 63)) :=
  ⟨sampleFive_reachable, by decide, by decide,
    C34_distinct_keys_and_hash_words id id sampleFive sampleFive_reachable⟩

/-- C35 (the element count).  In every reachable table `size()`, which is
`m_filledCount`, is the number of buckets that hold an element, and `empty()`
is true exactly when that number is 0. -/
theorem C35_size_counts_filled_buckets (m_getKey : V → K) (m_hash : K → Nat)
    (t : hash_table V) (hr : Reachable m_getKey m_hash t) :
    t.size = t.m_buckets.countP (fun b => b.valuePtr.isSome) ∧
    (t.empty = true ↔ t.m_buckets.countP (fun b => b.valuePtr.isSome) = 0) := by
  have hc : t.m_filledCount = t.m_buckets.countP (fun b => b.valuePtr.isSome) := by
    rw [hr.inv.count, length_elems_eq_countP]
  refine ⟨hc, ?_⟩
  unfold hash_table.empty
  rw [beq_iff_eq, hc]

/-- The table `sampleFive` has size 5 and five buckets that hold an element. -/
theorem C35_size_counts_filled_buckets_witness :
    Reachable (id : Nat → Nat) id sampleFive ∧
    sampleFive.size = 5 ∧ sampleFive.empty = false ∧
    (sampleFive.size = sampleFive.m_buckets.countP (fun b => b.valuePtr.isSome) ∧
    (sampleFive.empty = true ↔
      sampleFive.m_buckets.countP (fun b => b.valuePtr.isSome) = 0)) :=
  ⟨sampleFive_reachable, by decide, by decide,
    C35_size_counts_filled_buckets id id sampleFive sampleFive_reachable⟩

/-- C37 (insert of a stored key).  For every reachable table that stores an
element `y` and every element `v` with the key of `y`, when an array of twice
the current length can be allocated: `insert(v)` returns with `false`; the
stored elements are, as a multiset, the ones stored before, and the size is
the same; the returned position holds `y`; and `y` is the only element stored
afterwards that has this key, so `v` has replaced nothing. -/
theorem C37_insert_of_stored_key (m_getKey : V → K) (m_hash : K → Nat) (t : hash_table V)
    (v y : V) (hr : Reachable m_getKey m_hash t) (hy : Stored t y)
    (hk : m_getKey y = m_getKey v) (hmem : 2 * t.m_buckets.length ≤ MaxBuckets) :
    ∃ t1 pos, insert m_getKey m_hash t v = some (t1, pos, false) ∧
      (elems t1.m_buckets).Perm (elems t.m_buckets) ∧ t1.size = t.size ∧
      HoldsAt t1 pos y ∧
      ∀ z, Stored t1 z → m_getKey z = m_getKey v → z = y := by
  obtain ⟨⟨t1, pos, b⟩, hi⟩ := insert_returns hr.inv v hmem
  have hb : b = false := (insert_flag hr.inv v hi).2 ⟨y, hy, hk⟩
  subst hb
  obtain ⟨h1, _, _, hfalse, _⟩ := insert_spec hr.inv v hi
  obtain ⟨hperm, hcnt, y1, hy1, hk1⟩ := hfalse rfl
  have hy1s : Stored t1 y := hperm.symm.subset hy
  have huniq : ∀ z, Stored t1 z → m_getKey z = m_getKey v → z = y :=
    fun z hz hkz => eq_of_key_eq h1.nodup hz hy1s (hkz.trans hk.symm)
  have hyy : y1 = y := huniq y1 (holdsAt_of_filled hy1).stored hk1
  subst hyy
  exact ⟨t1, pos, hi, hperm, hcnt, holdsAt_of_filled hy1, huniq⟩

/-- The call `insert` of (42, 999) into `sampleMap`, which maps 42 to 100, leaves
the map as it is. -/
theorem C37_insert_of_stored_key_witness :
    Reachable (fun value : Nat × Nat => value.1) id sampleMap ∧
    Stored sampleMap (42, 100) ∧
    2 * sampleMap.m_buckets.length ≤ MaxBuckets ∧
    insert (fun value : Nat × Nat => value.1) id sampleMap (42, 999)
      = some (sampleMap, 2, false) ∧
    ∃ t1 pos, insert (fun value : Nat × Nat => value.1) id sampleMap (42, 999)
        = some (t1, pos, false) ∧
      (elems t1.m_buckets).Perm (elems sampleMap.m_buckets) ∧ t1.size = sampleMap.size ∧
      HoldsAt t1 pos (42, 100) ∧
      ∀ z, Stored t1 z → z.1 = (42, 999).1 → z = (42, 100) :=
  ⟨sampleMap_reachable, (by decide : ((42, 100) : Nat × Nat) ∈ elems sampleMap.m_buckets),
    by decide, by decide,
    C37_insert_of_stored_key (fun value : Nat × Nat => value.1) id sampleMap (42, 999)
      (42, 100) sampleMap_reachable
      (by decide : ((42, 100) : Nat × Nat) ∈ elems sampleMap.m_buckets) rfl (by decide)⟩

end CountingClaims

end flat_hash


namespace flat_hash

open hash_table

section ErrorArithmetic

variable {V : Type}

/-! ## The arithmetic of bucketError -/

/-- Wrapping subtraction followed by reduction modulo a divisor of the word
size, for arbitrary words. -/
theorem wrap_sub_mod_words {W cap : Nat} (hW : cap ∣ W) (hWpos : 0 < W) (hcap : 0 < cap)
    (c x : Nat) :
    ((c % W + W - x % W) % W) % cap = (c % cap + cap - x % cap) % cap := by
  rw [Nat.mod_mod_of_dvd _ hW]
  have hxW : x % W < W := Nat.mod_lt _ hWpos
  have hxc : x % cap < cap := Nat.mod_lt _ hcap
  have hcW : c % W % cap = c % cap := Nat.mod_mod_of_dvd _ hW
  have hW0 : W % cap = 0 := by
    obtain ⟨q, rfl⟩ := hW
    exact Nat.mul_mod_right cap q
  have key : (c % W + W - x % W + x % W) % cap
      = (c % cap + cap - x % cap + x % cap) % cap := by
    have e1 : c % W + W - x % W + x % W = c % W + W := by omega
    have e2 : c % cap + cap - x % cap + x % cap = c % cap + cap := by omega
    rw [e1, e2, Nat.add_mod, hcW, hW0, Nat.add_mod_right]
    simp
  have hx2 : x % W % cap = x % cap := Nat.mod_mod_of_dvd _ hW
  have key2 : (c % W + W - x % W + x % cap) % cap
      = (c % cap + cap - x % cap + x % cap) % cap := by
    rw [← key, Nat.add_mod _ (x % cap), Nat.add_mod _ (x % W), hx2, Nat.mod_mod]
  exact Nat.ModEq.add_right_cancel' (x % cap) key2

/-- The bucket index in an array of `2 ^ k + 1` buckets. -/
theorem hashBucket_mod_pow {buckets : List (Bucket V)} {k : Nat}
    (hlen : buckets.length = 2 ^ k + 1) (hsz : buckets.length < WordSize) (h : Nat) :
    hashBucket buckets h = h % 2 ^ k := by
  have hpos : 0 < 2 ^ k := Nat.pow_pos (by norm_num)
  have e : (buckets.length + WordSize - 2) % WordSize = 2 ^ k - 1 := by
    have : buckets.length + WordSize - 2 = (2 ^ k - 1) + WordSize := by omega
    rw [this, Nat.add_mod_right]
    exact Nat.mod_eq_of_lt (by omega)
  unfold hashBucket
  rw [e, Nat.and_pow_two_sub_one_eq_mod]

/-- The difference of two residues, reduced: the natural-number and the integer form. -/
theorem sub_mod_cast {a b n : Nat} (ha : a < n) (hb : b < n) :
    (((a + n - b) % n : Nat) : Int) = ((a : Int) - (b : Int)) % (n : Int) := by
  by_cases hab : b ≤ a
  · have e : a + n - b = (a - b) + n := by omega
    rw [e, Nat.add_mod_right, Nat.mod_eq_of_lt (by omega)]
    rw [Int.emod_eq_of_lt (by omega) (by omega)]
    omega
  · rw [Nat.mod_eq_of_lt (by omega)]
    have e : ((a : Int) - (b : Int)) % (n : Int)
        = ((a : Int) - (b : Int) + (n : Int)) % (n : Int) := by
      rw [Int.add_emod_self]
    rw [e, Int.emod_eq_of_lt (by omega) (by omega)]
    omega

/-- C36 (`bucketError`).  For every bucket array of length `2 ^ k + 1` that a
`size_t` can measure and all words `c` and `x`: `bucketError(c, x)`, computed
with wrapping subtraction, is `((c mod capacity) - (x mod capacity)) mod
capacity`; for indices `c, x` below the capacity it is the wrap-around distance
from `x` to `c`; and the raw word `x` and its bucket index `hashBucket(x)` give
the same result as second argument. -/
theorem C36_bucketError_arithmetic (buckets : List (Bucket V)) (k c x : Nat)
    (hlen : buckets.length = 2 ^ k + 1) (hsz : buckets.length < WordSize) :
    ((bucketError buckets c x : Nat) : Int)
      = (((c % 2 ^ k : Nat) : Int) - ((x % 2 ^ k : Nat) : Int)) % ((2 ^ k : Nat) : Int) ∧
    bucketError buckets c x = (c % 2 ^ k + 2 ^ k - x % 2 ^ k) % 2 ^ k ∧
    (c < 2 ^ k → x < 2 ^ k → bucketError buckets c x = dist (2 ^ k) x c) ∧
    bucketError buckets c (hashBucket buckets x) = bucketError buckets c x := by
  have hpos : 0 < 2 ^ k := Nat.pow_pos (by norm_num)
  have hk : k ≤ 63 := by
    by_contra hc
    have : 2 ^ 64 ≤ 2 ^ k := Nat.pow_le_pow_right (by norm_num) (by omega)
    unfold WordSize at hsz
    omega
  have hdvd : 2 ^ k ∣ WordSize := Nat.pow_dvd_pow 2 (by omega)
  have hW : 0 < WordSize := by unfold WordSize; norm_num
  have hgen : ∀ y, bucketError buckets c y = (c % 2 ^ k + 2 ^ k - y % 2 ^ k) % 2 ^ k := by
    intro y
    unfold bucketError
    rw [hashBucket_mod_pow hlen hsz]
    exact wrap_sub_mod_words hdvd hW hpos c y
  refine ⟨?_, hgen x, ?_, ?_⟩
  · rw [hgen x]
    exact sub_mod_cast (Nat.mod_lt _ hpos) (Nat.mod_lt _ hpos)
  · intro hc hx
    rw [hgen x, Nat.mod_eq_of_lt hc, Nat.mod_eq_of_lt hx]
    rfl
  · rw [hgen, hgen, hashBucket_mod_pow hlen hsz, Nat.mod_mod]

/-- In the nine buckets of `sampleFive`, bucket 2 is at distance 2 from the
bucket of the word stored with 24. -/
theorem C36_bucketError_arithmetic_witness :
    sampleFive.m_buckets.length = 2 ^ 3 + 1 ∧ sampleFive.m_buckets.length < WordSize ∧
    bucketError sampleFive.m_buckets 2 (2 ^ 63 + 24) = 2 ∧
    bucketError sampleFive.m_buckets 0 7 = 1 ∧
    (((bucketError sampleFive.m_buckets 2 (2 ^ 63 + 24) : Nat) : Int)
      = (((2 % 2 ^ 3 : Nat) : Int) - (((2 ^ 63 + 24) % 2 ^ 3 : Nat) : Int))
        % ((2 ^ 3 : Nat) : Int) ∧
    bucketError sampleFive.m_buckets 2 (2 ^ 63 + 24)
      = (2 % 2 ^ 3 + 2 ^ 3 - (2 ^ 63 + 24) % 2 ^ 3) % 2 ^ 3 ∧
    (2 < 2 ^ 3 → 2 ^ 63 + 24 < 2 ^ 3 →
      bucketError sampleFive.m_buckets 2 (2 ^ 63 + 24) = dist (2 ^ 3) (2 ^ 63 + 24) 2) ∧
    bucketError sampleFive.m_buckets 2 (hashBucket sampleFive.m_buckets (2 ^ 63 + 24))
      = bucketError sampleFive.m_buckets 2 (2 ^ 63 + 24)) :=
  ⟨by decide, by decide, by decide, by decide,
    C36_bucketError_arithmetic sampleFive.m_buckets 3 2 (2 ^ 63 + 24) (by decide) (by decide)⟩

/-! ## The scan for the next element -/

theorem scanIteratorLoop_general (buckets : List (Bucket V)) {last : Nat}
    (hend : ∃ b, buckets[last]? = some b ∧ b.isEmpty = false) :
    ∀ (n i : Nat), i + n = last → n < buckets.length - i →
      ∃ j, scanIteratorLoop buckets (buckets.length - i) i = some j ∧ i ≤ j ∧ j ≤ last ∧
        (∃ b, buckets[j]? = some b ∧ b.isEmpty = false) ∧
        ∀ l : Nat, i ≤ l → l < j → ∃ b, buckets[l]? = some b ∧ b.isEmpty = true := by
  intro n
  induction n with
  | zero =>
    intro i hi hf
    have hil : i = last := by omega
    subst hil
    obtain ⟨b, hb, he⟩ := hend
    obtain ⟨f, hfe⟩ : ∃ f, buckets.length - i = f + 1 := ⟨buckets.length - i - 1, by omega⟩
    refine ⟨i, ?_, Nat.le_refl _, Nat.le_refl _, ⟨b, hb, he⟩, fun l h1 h2 => by omega⟩
    rw [hfe, scanIteratorLoop]
    simp only [hb, he, Bool.false_eq_true, if_false]
  | succ n ih =>
    intro i hi hf
    obtain ⟨f, hfe⟩ : ∃ f, buckets.length - i = f + 1 := ⟨buckets.length - i - 1, by omega⟩
    have hlt : i < buckets.length := by omega
    obtain ⟨b, hb⟩ : ∃ b, buckets[i]? = some b :=
      ⟨buckets[i], List.getElem?_eq_getElem hlt⟩
    cases he : b.isEmpty with
    | false =>
      refine ⟨i, ?_, Nat.le_refl _, by omega, ⟨b, hb, he⟩, fun l h1 h2 => by omega⟩
      rw [hfe, scanIteratorLoop]
      simp only [hb, he, Bool.false_eq_true, if_false]
    | true =>
      obtain ⟨j, hj, hij, hjl, hjb, hskip⟩ := ih (i + 1) (by omega) (by omega)
      have hf1 : buckets.length - (i + 1) = f := by omega
      rw [hf1] at hj
      refine ⟨j, ?_, by omega, hjl, hjb, ?_⟩
      · rw [hfe, scanIteratorLoop]
        simp only [hb, he, if_true]
        exact hj
      · intro l h1 h2
        by_cases hli : l = i
        · subst hli
          exact ⟨b, hb, he⟩
        · exact hskip l (by omega) h2

/-- C39 (`scanIterator`).  For every bucket array whose final bucket is End
and every index `i` not beyond the final index, `scanIterator(i)` returns: its
result `j` is the least index from `i` on whose bucket is not Empty, and it is
not beyond the final index; every bucket it has passed is Empty, and no bucket
after the End bucket is read. -/
theorem C39_scanIterator_stops (buckets : List (Bucket V)) (i : Nat)
    (hend : ∃ b, buckets[buckets.length - 1]? = some b ∧ b.isEnd = true)
    (hi : i ≤ buckets.length - 1) :
    ∃ j, scanIterator buckets i = some j ∧ i ≤ j ∧ j ≤ buckets.length - 1 ∧
      (∃ b, buckets[j]? = some b ∧ b.isEmpty = false) ∧
      (∀ l : Nat, i ≤ l → l < j → ∃ b, buckets[l]? = some b ∧ b.isEmpty = true) ∧
      (∀ l : Nat, i ≤ l → (∃ b, buckets[l]? = some b ∧ b.isEmpty = false) → j ≤ l) := by
  obtain ⟨b, hb, he⟩ := hend
  have hlen : buckets.length - 1 < buckets.length := (List.getElem?_eq_some.1 hb).1
  have hne : b.isEmpty = false := by
    unfold Bucket.isEnd at he
    unfold Bucket.isEmpty
    rw [beq_iff_eq] at he
    rw [he]
    rfl
  obtain ⟨j, hj, hij, hjl, hjb, hskip⟩ :=
    scanIteratorLoop_general buckets ⟨b, hb, hne⟩ (buckets.length - 1 - i) i (by omega)
      (by omega)
  refine ⟨j, hj, hij, hjl, hjb, hskip, ?_⟩
  intro l hil ⟨b1, hb1, hne1⟩
  by_contra hc
  obtain ⟨b2, hb2, he2⟩ := hskip l hil (by omega)
  rw [hb1] at hb2
  rw [Option.some.inj hb2, he2] at hne1
  exact Bool.noConfusion hne1

/-- In `sampleFive` the scan from bucket 4 passes the Empty buckets 4, 5 and 6
and stops at bucket 7. -/
theorem C39_scanIterator_stops_witness :
    (∃ b, sampleFive.m_buckets[sampleFive.m_buckets.length - 1]? = some b ∧ b.isEnd = true) ∧
    4 ≤ sampleFive.m_buckets.length - 1 ∧
    scanIterator sampleFive.m_buckets 4 = some 7 ∧
    ∃ j, scanIterator sampleFive.m_buckets 4 = some j ∧ 4 ≤ j ∧
      j ≤ sampleFive.m_buckets.length - 1 ∧
      (∃ b, sampleFive.m_buckets[j]? = some b ∧ b.isEmpty = false) ∧
      (∀ l : Nat, 4 ≤ l → l < j → ∃ b, sampleFive.m_buckets[l]? = some b ∧ b.isEmpty = true) ∧
      (∀ l : Nat, 4 ≤ l →
        (∃ b, sampleFive.m_buckets[l]? = some b ∧ b.isEmpty = false) → j ≤ l) :=
  ⟨⟨⟨1, none⟩, by decide, by decide⟩, by decide, by decide,
    C39_scanIterator_stops sampleFive.m_buckets 4 ⟨⟨1, none⟩, by decide, by decide⟩
      (by decide)⟩

end ErrorArithmetic

end flat_hash


namespace flat_hash

open hash_table

section BackwardShift

variable {V K : Type} {m_getKey : V → K} {m_hash : K → Nat}

/-! ## The backward shift of erase, bucket by bucket -/

/-- The loop of `erase` relative to the array `B` it started from: after the
loop every bucket less than `dist p cur1` steps after `p` holds what its
successor held in `B`, every other bucket is as in `B`; the buckets passed
held elements with positive displacement, and the bucket after the last one
does not. -/
theorem eraseLoop_shift {cap : Nat} {B : List (Bucket V)} {p e : Nat} (hp : p < cap)
    (he : e < cap) (hempty : B[e]? = some Bucket.new) :
    ∀ (n fuel : Nat) (buckets : List (Bucket V)) (cur : Nat),
      WF m_getKey m_hash cap buckets → cur < cap →
      dist cap p cur + n = dist cap p e → n ≤ fuel →
      (∀ i : Nat, i < cap →
        buckets[i]? = if dist cap p i < dist cap p cur then B[nxt cap i]? else B[i]?) →
      (∀ i : Nat, i < cap → 1 ≤ dist cap p i → dist cap p i ≤ dist cap p cur →
        ∃ w, B[i]? = some (filledBucket m_getKey m_hash w) ∧
          0 < dist cap (m_hash (m_getKey w) % cap) i) →
      (∃ g, B[cur]? = some (filledBucket m_getKey m_hash g)) →
      ∃ buckets1 cur1, eraseLoop fuel buckets cur = some (buckets1, cur1) ∧
        WF m_getKey m_hash cap buckets1 ∧ cur1 < cap ∧ dist cap p cur1 < dist cap p e ∧
        (∀ i : Nat, i < cap →
          buckets1[i]? = if dist cap p i < dist cap p cur1 then B[nxt cap i]? else B[i]?) ∧
        (∀ i : Nat, i < cap → 1 ≤ dist cap p i → dist cap p i ≤ dist cap p cur1 →
          ∃ w, B[i]? = some (filledBucket m_getKey m_hash w) ∧
            0 < dist cap (m_hash (m_getKey w) % cap) i) ∧
        (B[nxt cap cur1]? = some Bucket.new ∨
          ∃ w, B[nxt cap cur1]? = some (filledBucket m_getKey m_hash w) ∧
            dist cap (m_hash (m_getKey w) % cap) (nxt cap cur1) = 0) := by
  intro n
  induction n with
  | zero =>
    intro fuel buckets cur hwf hcur hd hf hinv hrun hg
    have : cur = e := dist_inj hp hcur he (by omega)
    rw [this, hempty] at hg
    obtain ⟨g, hg⟩ := hg
    exact absurd (Option.some.inj hg).symm (filledBucket_ne_new g)
  | succ n ih =>
    intro fuel buckets cur hwf hcur hd hf hinv hrun hg
    have h8 := hwf.cap_pos
    have hlen : cur < buckets.length := by rw [hwf.len]; omega
    have hde : dist cap p e < cap := dist_lt (by omega)
    obtain ⟨f, rfl⟩ : ∃ f, fuel = f + 1 := ⟨fuel - 1, by omega⟩
    have hs1 : dist cap p (nxt cap cur) = dist cap p cur + 1 :=
      dist_nxt_of_lt hp hcur (by omega)
    have hn : nxt cap cur < cap := nxt_lt (by omega)
    have hread : buckets[nxt cap cur]? = B[nxt cap cur]? := by
      rw [hinv _ hn, if_neg (by omega)]
    rw [eraseLoop]
    simp only [hashBucket_succ hwf]
    rcases hwf.slots (nxt cap cur) hn with h0 | ⟨x, hx⟩
    · rw [h0]
      simp only [valuePtr_new]
      exact ⟨buckets, cur, rfl, hwf, hcur, by omega, hinv, hrun,
        Or.inl (by rw [← hread]; exact h0)⟩
    · rw [hx]
      simp only [valuePtr_filledBucket]
      have e1 : bucketError buckets (nxt cap cur) (filledBucket m_getKey m_hash x).hash
          = dist cap (m_hash (m_getKey x) % cap) (nxt cap cur) :=
        bucketError_hashWord hwf hn x
      rw [e1]
      by_cases hpos : dist cap (m_hash (m_getKey x) % cap) (nxt cap cur) > 0
      · rw [if_pos hpos]
        have hinv1 : ∀ i : Nat, i < cap →
            (buckets.set cur (filledBucket m_getKey m_hash x))[i]?
              = if dist cap p i < dist cap p (nxt cap cur) then B[nxt cap i]? else B[i]? := by
          intro i hi
          rw [hs1]
          by_cases hic : i = cur
          · rw [hic, List.getElem?_set_self hlen, if_pos (by omega), ← hread, hx]
          · rw [List.getElem?_set_ne (Ne.symm hic), hinv i hi]
            have hdne : dist cap p i ≠ dist cap p cur :=
              fun hdd => hic (dist_inj hp hi hcur hdd)
            by_cases hlt : dist cap p i < dist cap p cur
            · rw [if_pos hlt, if_pos (by omega)]
            · rw [if_neg hlt, if_neg (by omega)]
        have hrun1 : ∀ i : Nat, i < cap → 1 ≤ dist cap p i →
            dist cap p i ≤ dist cap p (nxt cap cur) →
            ∃ w, B[i]? = some (filledBucket m_getKey m_hash w) ∧
              0 < dist cap (m_hash (m_getKey w) % cap) i := by
          intro i hi h1 h2
          by_cases hle : dist cap p i ≤ dist cap p cur
          · exact hrun i hi h1 hle
          · have hin : i = nxt cap cur := dist_inj hp hi hn (by omega)
            rw [hin]
            exact ⟨x, by rw [← hread]; exact hx, hpos⟩
        obtain ⟨b2, cur1, hl, hwf2, hcur1, hlt, hinv2, hrun2, hmax⟩ :=
          ih f (buckets.set cur (filledBucket m_getKey m_hash x)) (nxt cap cur)
            (hwf.set_filled hcur x) hn (by omega) (by omega) hinv1 hrun1
            ⟨x, by rw [← hread]; exact hx⟩
        exact ⟨b2, cur1, hl, hwf2, hcur1, hlt, hinv2, hrun2, hmax⟩
      · rw [if_neg hpos]
        exact ⟨buckets, cur, rfl, hwf, hcur, by omega, hinv, hrun,
          Or.inr ⟨x, by rw [← hread]; exact hx, by omega⟩⟩

/-- The call `erase(pos)` bucket by bucket, with `n` the length of the run that
is shifted: buckets fewer than `n` steps after `pos` receive the content of
their successor, the bucket `n` steps after `pos` becomes Empty, all others
keep their content. -/
theorem erase_shift {t t1 : hash_table V} (h : Alloc m_getKey m_hash t) {pos : Nat}
    {b : Bucket V} {v : V} (hb : t.m_buckets[pos]? = some b) (hv : b.valuePtr = some v)
    {ret : Nat} (hrun : erase t pos = some (t1, ret)) :
    ∃ n, n + 1 < t.m_buckets.length - 1 ∧ t1.m_buckets.length = t.m_buckets.length ∧
      (∀ i : Nat, i < t.m_buckets.length - 1 →
        t1.m_buckets[i]? =
          if dist (t.m_buckets.length - 1) pos i < n then
            t.m_buckets[nxt (t.m_buckets.length - 1) i]?
          else if dist (t.m_buckets.length - 1) pos i = n then some Bucket.new
          else t.m_buckets[i]?) ∧
      t1.m_buckets[t.m_buckets.length - 1]? = t.m_buckets[t.m_buckets.length - 1]? ∧
      (∀ i : Nat, i < t.m_buckets.length - 1 → 1 ≤ dist (t.m_buckets.length - 1) pos i →
        dist (t.m_buckets.length - 1) pos i ≤ n →
        ∃ w, t.m_buckets[i]? = some (filledBucket m_getKey m_hash w) ∧
          0 < dist (t.m_buckets.length - 1)
            (m_hash (m_getKey w) % (t.m_buckets.length - 1)) i) ∧
      (∀ i : Nat, i < t.m_buckets.length - 1 → dist (t.m_buckets.length - 1) pos i = n + 1 →
        t.m_buckets[i]? = some Bucket.new ∨
          ∃ w, t.m_buckets[i]? = some (filledBucket m_getKey m_hash w) ∧
            dist (t.m_buckets.length - 1)
              (m_hash (m_getKey w) % (t.m_buckets.length - 1)) i = 0) := by
  have hwf := h.wf
  have h8 := hwf.cap_pos
  obtain ⟨hp, hbv⟩ := occupied_filled hwf hb hv
  subst hbv
  obtain ⟨e, he, hempty⟩ := exists_empty hwf (by rw [← h.count]; exact h.load)
  have hde : dist (t.m_buckets.length - 1) pos e < t.m_buckets.length - 1 :=
    dist_lt (by omega)
  obtain ⟨b1, cur1, hl, hwf1, hcur1, hlt, hinv1, hrun1, hmax⟩ :=
    eraseLoop_shift hp he hempty (dist (t.m_buckets.length - 1) pos e) t.m_buckets.length
      t.m_buckets pos hwf hp (by rw [dist_self hp]; exact Nat.zero_add _) (by omega)
      (fun i _ => by rw [dist_self hp, if_neg (Nat.not_lt_zero _)])
      (fun i _ h1 h2 => by rw [dist_self hp] at h2; omega) ⟨v, hb⟩
  unfold erase at hrun
  simp only [hb] at hrun
  rw [hl] at hrun
  simp only at hrun
  cases hc : b1[cur1]? with
  | none => rw [hc] at hrun; exact Option.noConfusion hrun
  | some bb =>
    rw [hc] at hrun
    simp only [setEmpty_eq_new] at hrun
    cases hs : scanIterator (b1.set cur1 Bucket.new) pos with
    | none => rw [hs] at hrun; exact Option.noConfusion hrun
    | some it =>
      rw [hs] at hrun
      simp only at hrun
      have heq2 := Prod.mk.inj (Option.some.inj hrun)
      have hbk : t1.m_buckets = b1.set cur1 Bucket.new := by rw [← heq2.1]
      have hlen1 : cur1 < b1.length := (List.getElem?_eq_some.1 hc).1
      have hcap : t.m_buckets.length - 1 ≠ cur1 := by omega
      refine ⟨dist (t.m_buckets.length - 1) pos cur1, by omega, ?_, ?_, ?_, hrun1, ?_⟩
      · rw [hbk, List.length_set, hwf1.len]
        omega
      · intro i hi
        rw [hbk]
        by_cases hic : i = cur1
        · rw [hic, List.getElem?_set_self hlen1, if_neg (Nat.lt_irrefl _), if_pos rfl]
        · rw [List.getElem?_set_ne (Ne.symm hic), hinv1 i hi]
          have hdne : dist (t.m_buckets.length - 1) pos i
              ≠ dist (t.m_buckets.length - 1) pos cur1 :=
            fun hdd => hic (dist_inj hp hi hcur1 hdd)
          by_cases hlt2 : dist (t.m_buckets.length - 1) pos i
              < dist (t.m_buckets.length - 1) pos cur1
          · rw [if_pos hlt2, if_pos hlt2]
          · rw [if_neg hlt2, if_neg hlt2, if_neg hdne]
      · rw [hbk, List.getElem?_set_ne (Ne.symm hcap), hwf1.last, hwf.last]
      · intro i hi hdi
        have hs1 : dist (t.m_buckets.length - 1) pos (nxt (t.m_buckets.length - 1) cur1)
            = dist (t.m_buckets.length - 1) pos cur1 + 1 :=
          dist_nxt_of_lt hp hcur1 (by omega)
        have hin : i = nxt (t.m_buckets.length - 1) cur1 :=
          dist_inj hp hi (nxt_lt (by omega)) (by omega)
        rw [hin]
        exact hmax

end BackwardShift

end flat_hash


namespace flat_hash

open hash_table

section LastClaims

variable {V K : Type} [DecidableEq K]

/-- The bucket after the one `s` steps after `pos` is the one `s + 1` steps after `pos`. -/
theorem nxt_add_mod (cap pos s : Nat) : nxt cap ((pos + s) % cap) = (pos + (s + 1)) % cap := by
  unfold nxt
  rw [Nat.mod_add_mod, Nat.add_assoc]

/-- C38 (backward shift).  For every reachable table and every position `pos`
that holds an element `v`, `erase(pos)` returns, and there is a run length `n`
such that: each of the `n` buckets that follow `pos` cyclically (the End
bucket is not among them) holds an element with positive displacement, and
the bucket before it holds afterwards what it held, hash word and element; the
bucket after the run is Empty or holds an element with displacement 0, so the
run is maximal; the bucket `n` steps after `pos`, the last one of the run, or
`pos` itself for `n = 0`, is Empty afterwards; every other bucket is unchanged;
and the stored elements are the old ones without `v`. -/
theorem C38_backward_shift (m_getKey : V → K) (m_hash : K → Nat) (t : hash_table V)
    (pos : Nat) (b : Bucket V) (v : V) (hr : Reachable m_getKey m_hash t)
    (hb : t.m_buckets[pos]? = some b) (hv : b.valuePtr = some v) :
    ∃ t1 ret n, erase t pos = some (t1, ret) ∧ n + 1 < t.m_buckets.length - 1 ∧
      (∀ s, 1 ≤ s → s ≤ n → ∃ b1 w,
        t.m_buckets[hashBucket t.m_buckets (pos + s)]? = some b1 ∧ b1.valuePtr = some w ∧
        0 < entryError t (hashBucket t.m_buckets (pos + s)) b1 ∧
        t1.m_buckets[hashBucket t.m_buckets (pos + (s - 1))]? = some b1) ∧
      (∃ b1, t.m_buckets[hashBucket t.m_buckets (pos + (n + 1))]? = some b1 ∧
        (b1.valuePtr = none ∨
          entryError t (hashBucket t.m_buckets (pos + (n + 1))) b1 = 0)) ∧
      t1.m_buckets[hashBucket t.m_buckets (pos + n)]? = some Bucket.new ∧
      (∀ i : Nat, (∀ s, s ≤ n → i ≠ hashBucket t.m_buckets (pos + s)) →
        t1.m_buckets[i]? = t.m_buckets[i]?) ∧
      (elems t.m_buckets).Perm (v :: elems t1.m_buckets) ∧ t1.size + 1 = t.size := by
  have h := hr.inv.alloc_of_occupied ⟨b, v, hb, hv⟩
  have hwf := h.wf
  have h8 := hwf.cap_pos
  obtain ⟨hp, _⟩ := occupied_filled hwf hb hv
  obtain ⟨t1, ret, hrun, _, _, hperm, hcnt, _⟩ := erase_spec h hb hv
  obtain ⟨n, hn, hlen, hform, hlast, hrunf, hmaxf⟩ := erase_shift h hb hv hrun
  have hidx : ∀ s, s < t.m_buckets.length - 1 →
      (pos + s) % (t.m_buckets.length - 1) < t.m_buckets.length - 1 ∧
      dist (t.m_buckets.length - 1) pos ((pos + s) % (t.m_buckets.length - 1)) = s :=
    fun s hs => ⟨Nat.mod_lt _ (by omega), dist_add_mod hp hs⟩
  refine ⟨t1, ret, n, hrun, hn, ?_, ?_, ?_, ?_, hperm, hcnt⟩
  · intro s hs1 hsn
    rw [hashBucket_eq hwf, hashBucket_eq hwf]
    obtain ⟨hi, hd⟩ := hidx s (by omega)
    obtain ⟨hi1, hd1⟩ := hidx (s - 1) (by omega)
    obtain ⟨w, hw, hpos⟩ := hrunf _ hi (by omega) (by omega)
    refine ⟨_, w, hw, valuePtr_filledBucket w, ?_, ?_⟩
    · rw [entryError_filled hwf hi w]
      exact hpos
    · rw [hform _ hi1, if_pos (by omega), nxt_add_mod, show s - 1 + 1 = s by omega]
      exact hw
  · rw [hashBucket_eq hwf]
    obtain ⟨hi, hd⟩ := hidx (n + 1) hn
    rcases hmaxf _ hi hd with h0 | ⟨w, hw, hz⟩
    · exact ⟨_, h0, Or.inl valuePtr_new⟩
    · refine ⟨_, hw, Or.inr ?_⟩
      rw [entryError_filled hwf hi w]
      exact hz
  · rw [hashBucket_eq hwf]
    obtain ⟨hi, hd⟩ := hidx n (by omega)
    rw [hform _ hi, if_neg (by omega), if_pos hd]
  · intro i hne
    by_cases hic : i < t.m_buckets.length - 1
    · have hdl : dist (t.m_buckets.length - 1) pos i < t.m_buckets.length - 1 :=
        dist_lt (by omega)
      obtain ⟨hi2, hd2⟩ := hidx _ hdl
      have hii : (pos + dist (t.m_buckets.length - 1) pos i) % (t.m_buckets.length - 1) = i :=
        dist_inj hp hi2 hic hd2
      have hgt : n < dist (t.m_buckets.length - 1) pos i := by
        by_contra hc
        apply hne (dist (t.m_buckets.length - 1) pos i) (by omega)
        rw [hashBucket_eq hwf, hii]
      rw [hform i hic, if_neg (by omega), if_neg (by omega)]
    · by_cases hie : i = t.m_buckets.length - 1
      · rw [hie]
        exact hlast
      · rw [List.getElem?_eq_none (by omega), List.getElem?_eq_none (by omega)]

/-- The call `erase` at position 0 of `sampleFive` moves 16, 24 and 42 one bucket
back and empties bucket 3. -/
theorem C38_backward_shift_witness :
    Reachable (id : Nat → Nat) id sampleFive ∧
    sampleFive.m_buckets[0]? = some ⟨2 ^ 63 + 8, some 8⟩ ∧
    (⟨2 ^ 63 + 8, some 8⟩ : Bucket Nat).valuePtr = some 8 ∧
    erase sampleFive 0 = some (sampleShifted, 0) ∧
    ∃ t1 ret n, erase sampleFive 0 = some (t1, ret) ∧
      n + 1 < sampleFive.m_buckets.length - 1 ∧
      (∀ s, 1 ≤ s → s ≤ n → ∃ b1 w,
        sampleFive.m_buckets[hashBucket sampleFive.m_buckets (0 + s)]? = some b1 ∧
        b1.valuePtr = some w ∧
        0 < entryError sampleFive (hashBucket sampleFive.m_buckets (0 + s)) b1 ∧
        t1.m_buckets[hashBucket sampleFive.m_buckets (0 + (s - 1))]? = some b1) ∧
      (∃ b1, sampleFive.m_buckets[hashBucket sampleFive.m_buckets (0 + (n + 1))]? = some b1 ∧
        (b1.valuePtr = none ∨
          entryError sampleFive (hashBucket sampleFive.m_buckets (0 + (n + 1))) b1 = 0)) ∧
      t1.m_buckets[hashBucket sampleFive.m_buckets (0 + n)]? = some Bucket.new ∧
      (∀ i : Nat, (∀ s, s ≤ n → i ≠ hashBucket sampleFive.m_buckets (0 + s)) →
        t1.m_buckets[i]? = sampleFive.m_buckets[i]?) ∧
      (elems sampleFive.m_buckets).Perm (8 :: elems t1.m_buckets) ∧
      t1.size + 1 = sampleFive.size :=
  ⟨sampleFive_reachable, by decide, by decide, by decide,
    C38_backward_shift id id sampleFive 0 ⟨2 ^ 63 + 8, some 8⟩ 8 sampleFive_reachable
      (by decide) (by decide)⟩

/-- C40 (`begin`).  For every reachable table `begin()` returns a position
`p`.  With a bucket array, the bucket at `p` is not Empty and every bucket
before it is.  The position is `end()` exactly when `size()` is 0.  Without a
bucket array it is `end()`, and `find` returns `end()` for every key. -/
theorem C40_begin_is_first_element (m_getKey : V → K) (m_hash : K → Nat) (t : hash_table V)
    (hr : Reachable m_getKey m_hash t) :
    ∃ p, t.begin = some p ∧
      (t.m_buckets ≠ [] →
        (∃ b, t.m_buckets[p]? = some b ∧ b.isEmpty = false) ∧
        ∀ l : Nat, l < p → ∃ b, t.m_buckets[l]? = some b ∧ b.isEmpty = true) ∧
      (p = t.end_ ↔ t.size = 0) ∧
      (t.m_buckets = [] →
        p = t.end_ ∧ ∀ key, find m_getKey m_hash t key = some t.end_) := by
  rcases hr.inv with ⟨h0, h1⟩ | ha
  · refine ⟨t.end_, ?_, fun hne => absurd h0 hne, ⟨fun _ => h1, fun _ => rfl⟩,
      fun _ => ⟨rfl, fun key => find_of_count_zero hr.inv h1 key⟩⟩
    unfold hash_table.begin
    rw [h0]
    rfl
  · have hwf := ha.wf
    have h8 := hwf.cap_pos
    obtain ⟨j, hj, _, hj2, hskip, hjv⟩ := scanIterator_spec hwf 0 (Nat.zero_le _)
    have hbegin : t.begin = some j := by
      unfold hash_table.begin
      rw [ha.isEmpty]
      simpa using hj
    refine ⟨j, hbegin, fun _ => ⟨?_, ?_⟩, ⟨?_, ?_⟩, fun h0 => absurd h0 ha.ne_nil⟩
    · rcases hjv with hc | ⟨w, hw⟩
      · rw [hc]
        exact ⟨_, hwf.last, rfl⟩
      · exact ⟨_, hw, isEmpty_filledBucket w⟩
    · intro l hl
      exact ⟨_, hskip l (Nat.zero_le _) hl, rfl⟩
    · intro hje
      have hnil : elems t.m_buckets = [] :=
        elems_nil_of_all_new hwf (fun i hi => hskip i (Nat.zero_le _) (by
          have : j = t.m_buckets.length - 1 := hje
          omega))
      show t.m_filledCount = 0
      rw [ha.count, hnil]
      rfl
    · intro hsz
      rcases hjv with hc | ⟨w, hw⟩
      · exact hc
      · have hmem := mem_elems_of_getElem? hw (valuePtr_filledBucket w)
        have hlen : (elems t.m_buckets).length = 0 := by
          rw [← ha.count]
          exact hsz
        rw [List.length_eq_zero.1 hlen] at hmem
        exact absurd hmem (List.not_mem_nil w)

/-- In `sampleSmall` the first element is in bucket 2, and in a
default-constructed table `begin()` is `end()`. -/
theorem C40_begin_is_first_element_witness :
    Reachable (id : Nat → Nat) id sampleSmall ∧
    sampleSmall.begin = some 2 ∧ sampleSmall.end_ = 8 ∧ sampleSmall.size = 2 ∧
    hash_table.begin ({ m_buckets := [], m_filledCount := 0 } : hash_table Nat)
      = some (hash_table.end_ ({ m_buckets := [], m_filledCount := 0 } : hash_table Nat)) ∧
    ∃ p, sampleSmall.begin = some p ∧
      (sampleSmall.m_buckets ≠ [] →
        (∃ b, sampleSmall.m_buckets[p]? = some b ∧ b.isEmpty = false) ∧
        ∀ l : Nat, l < p → ∃ b, sampleSmall.m_buckets[l]? = some b ∧ b.isEmpty = true) ∧
      (p = sampleSmall.end_ ↔ sampleSmall.size = 0) ∧
      (sampleSmall.m_buckets = [] →
        p = sampleSmall.end_ ∧
          ∀ key, find (id : Nat → Nat) id sampleSmall key = some sampleSmall.end_) :=
  ⟨sampleSmall_reachable, by decide, by decide, by decide, by decide,
    C40_begin_is_first_element id id sampleSmall sampleSmall_reachable⟩

end LastClaims

end flat_hash


namespace flat_hash

open hash_table

section SelfAssignment

variable {V K : Type} {m_getKey : V → K} {m_hash : K → Nat} [DecidableEq K]

/-! ## Assignment of an object to itself -/

/-- The assignment `a = a` of a table that satisfies the invariant returns the
cleared table: `clear()` has emptied the object before its size is read and
before it is iterated over, so nothing is inserted. -/
theorem assignSelf_eq_clear {t : hash_table V} (h : Inv m_getKey m_hash t) :
    assignSelf m_getKey m_hash t = some (clear t) := by
  have hc := clear_inv h
  have h0 : (clear t).m_filledCount = 0 := by
    rcases h with ⟨hb, hn⟩ | ha
    · have e : clear t = t := by
        unfold clear
        rw [hb]
        rfl
      rw [e]
      exact hn
    · rw [clear_alloc ha]
  have hnil : elems (clear t).m_buckets = [] := by
    have := hc.count
    rw [h0] at this
    exact List.length_eq_zero.1 this.symm
  have hres : reserve m_getKey m_hash (clear t) (clear t).size = some (clear t) := by
    unfold reserve
    exact if_neg (Nat.lt_irrefl _)
  unfold assignSelf
  rw [hres]
  simp only
  rw [iterValues_eq hc, hnil]
  rfl

/-- The assignment of `sampleSmall` to itself leaves eight Empty buckets. -/
theorem sampleSmall_assignSelf :
    assignSelf (id : Nat → Nat) id sampleSmall = some sampleCleared := by
  decide

end SelfAssignment

end flat_hash
